import Mathlib

/-!
# kmenu: a hierarchical, input-driven menu widget (src/kmenu.h)

Shallow embedding of the class hierarchy `Node`, `Menu`, `Menu_Select`,
`Menu_Bool`, `Menu_Bool_Display`, `Menu_Number`, `Menu_Number_Display`,
`Menu_Text` of namespace `km`, followed by theorems about it.

Modelling conventions.

* A node and the subtree it owns are one value of type `Node`: a record of
  the member variables (`Fields`, tagged with the dynamic class `Kind`)
  and the owned children `m_nodes`.  Virtual dispatch is a match on `Kind`.
* `float` members are exact rationals (`ℚ`).  Every concrete trace below
  only visits values on which binary32 arithmetic gives the same result.
  Where a statement is about the arithmetic itself, the functions are given
  a second time with the rounding of binary32 made explicit: the definitions
  whose names end in `_f32` take the rounding `rnd` and the largest finite
  value `big` as parameters, round every operation, and return `none` when
  a result is not finite.
* `unsigned int` indices are natural numbers (a vector never holds `2^32`
  children).
* Function pointers are opaque identifiers; `none` is `NULL`.  A call of the
  commit callback is recorded, with the node passed to it, in the list
  `actions` of the outcome.  Callbacks do not modify the tree.
* `mp_parent` is kept as the flag "the pointer is non-null".  A call
  `mp_parent->shift(away)` is recorded in the list `shifts` of the outcome
  and is executed by the owner when it receives the outcome of its child.
* Indexing a vector out of range is undefined behaviour in the source; the
  model returns `none` there.
* `std::to_string((long double) x)` and `atof` are library functions; they
  are parameters `fmt` and `atof` of the model.
-/

namespace km

/-- Source lines 10-13: `round`, in exact arithmetic (`round_f32` has the
rounding of binary32). -/
def round (number : ℚ) : ℚ :=
  if number < 0 then ((⌈number - 1 / 2⌉ : ℤ) : ℚ) else ((⌊number + 1 / 2⌋ : ℤ) : ℚ)

/-- Source lines 15-18: `round_to_nearest`, in exact arithmetic
(`round_to_nearest_f32` has the rounding of binary32). -/
def round_to_nearest (x factor : ℚ) : ℚ :=
  round (x / factor) * factor

/-- Source lines 20-28: class `Rect`. -/
structure Rect where
  left : ℚ
  top : ℚ
  width : ℚ
  height : ℚ
deriving DecidableEq

/-- The dynamic class of a node. -/
inductive Kind where
  | Node
  | Menu
  | Menu_Select
  | Menu_Bool
  | Menu_Bool_Display
  | Menu_Number
  | Menu_Number_Display
  | Menu_Text
deriving DecidableEq

/-- Identifier of a `MenuNodeRenderFunc`. -/
abbrev MenuNodeRenderFunc := ℕ

/-- Identifier of a `MenuActionFunc`. -/
abbrev MenuActionFunc := ℕ

/-- Identifier of a `MenuRenderFunc`. -/
abbrev MenuRenderFunc := ℕ

/-- The member variables of all classes, except the vector `m_nodes`.
Members a class does not have keep the value given by `Node.new`. -/
structure Fields where
  kind : Kind
  /- class Node -/
  mp_parent : Bool
  m_text : String
  m_data : String
  mfp_render : Option MenuNodeRenderFunc
  mfp_action : Option MenuActionFunc
  /- class Menu -/
  m_active : Bool
  m_shift : Bool
  m_rect : Rect
  m_target_x : ℚ
  m_x : ℚ
  m_alpha : ℚ
  m_target_alpha : ℚ
  m_cell_height : ℚ
  m_index : ℕ
  mfp_node_render : Option MenuNodeRenderFunc
  mfp_menu_render : Option MenuRenderFunc
  /- class Menu_Select -/
  m_last_pressed_index : ℕ
  /- classes Menu_Bool_Display and Menu_Number_Display -/
  m_base_text : String
  /- class Menu_Number -/
  m_num : ℚ
  m_last_num : ℚ
  m_min : ℚ
  m_max : ℚ
  m_interval : ℚ

/-- A node together with the children it owns. -/
inductive Node where
  | mk (fields : Fields) (m_nodes : List Node) : Node

/-- The member variables of a node. -/
def Node.fields : Node → Fields
  | .mk f _ => f

/-- The children of a node. -/
def Node.m_nodes : Node → List Node
  | .mk _ ns => ns

/-- Apply a change of member variables to a node. -/
def Node.map_fields (pre : Fields → Fields) : Node → Node
  | .mk f ns => .mk (pre f) ns

/-- The four input events. -/
inductive Input where
  | up
  | down
  | press
  | back
deriving DecidableEq

/-- One call `mfp_action(arg)`. -/
structure ActionCall where
  fp : MenuActionFunc
  arg : Node

/-- The outcome of a virtual call on a node: the node afterwards (`self` and
`nodes`), the returned flag, the calls `mp_parent->shift(away)` it issued and
the commit callbacks it ran, both in order. -/
structure Outcome where
  self : Fields
  nodes : List Node
  handled : Bool
  shifts : List Bool
  actions : List ActionCall

/-- The node after the call. -/
def Outcome.node (r : Outcome) : Node :=
  .mk r.self r.nodes

/-- The outcome of a call on one element of a vector of children, seen from
the owner: the vector afterwards and what the child returned and issued. -/
structure Reply where
  nodes : List Node
  handled : Bool
  shifts : List Bool
  actions : List ActionCall

/-- The type of the calls `m_nodes[i]->input()`.  The third argument is what
the caller has written into the child (through `set_text` and `set_data`)
during the same call, before the input reaches it. -/
abbrev Child := Input → ℕ → (Fields → Fields) → Option Reply

/-- Source lines 66 and 69: `set_text(text)` then `set_data(data)` of class
`Node` (neither is virtual). -/
def stamp (text data : String) (g : Fields) : Fields :=
  { g with m_text := text, m_data := data }

/-- A write into `m_nodes[i]`; `none` when `i` is out of range. -/
def with_child (ns : List Node) (i : ℕ) (pre : Fields → Fields) : Option (List Node) :=
  match ns[i]? with
  | none => none
  | some n => some (ns.set i (n.map_fields pre))

/-- Source lines 89-93: `Node::shift`. -/
def Node.shift (f : Fields) (away : Bool) : Fields × List Bool :=
  (f, if f.mp_parent then [away] else [])

/-- Source lines 332-352: `Menu::shift`. -/
def Menu.shift (f : Fields) (away : Bool) : Fields × List Bool :=
  if !f.m_active then (f, [])
  else
    let out := if f.mp_parent then [away] else []
    if away then ({ f with m_target_x := -f.m_rect.width, m_target_alpha := 0 }, out)
    else ({ f with m_target_x := 0, m_target_alpha := 1 }, out)

/-- The virtual call `shift(away)`: no class below `Menu` overrides it. -/
def shift (f : Fields) (away : Bool) : Fields × List Bool :=
  match f.kind with
  | .Node => Node.shift f away
  | _ => Menu.shift f away

/-- The calls `shift(away)` a node receives from a child, in order. -/
def recv_shifts (f : Fields) : List Bool → Fields × List Bool
  | [] => (f, [])
  | away :: rest =>
    let s1 := shift f away
    let s2 := recv_shifts s1.1 rest
    (s2.1, s1.2 ++ s2.2)

/-- The call `m_nodes[m_index]->input()` made by a menu with members `f`. -/
def Menu.call (child : Child) (inp : Input) (pre : Fields → Fields) (f : Fields) :
    Option Outcome :=
  match child inp f.m_index pre with
  | none => none
  | some r =>
    let s := recv_shifts f r.shifts
    some ⟨s.1, r.nodes, r.handled, s.2, r.actions⟩

/-- Source lines 52-53 and 63: `Node::up`, `Node::down`, `Node::back`. -/
def Node.ignore (f : Fields) (ns : List Node) : Option Outcome :=
  some ⟨f, ns, false, [], []⟩

/-- Source lines 54-62: `Node::press`. -/
def Node.press_self (f : Fields) (ns : List Node) : Option Outcome :=
  match f.mfp_action with
  | some a => some ⟨f, ns, true, [], [⟨a, .mk f ns⟩]⟩
  | none => some ⟨f, ns, false, [], []⟩

/-- Source lines 158-179: `Menu::up`. -/
def Menu.up (child : Child) (f : Fields) (ns : List Node) : Option Outcome :=
  if f.m_active then
    if ns.length > 0 then
      match Menu.call child .up id f with
      | none => none
      | some r =>
        if !r.handled then
          if r.self.m_index > 0 then
            some { r with self := { r.self with m_index := r.self.m_index - 1 }, handled := true }
          else
            some { r with self := { r.self with m_index := r.nodes.length - 1 }, handled := true }
        else some { r with handled := true }
    else some ⟨f, ns, true, [], []⟩
  else some ⟨f, ns, false, [], []⟩

/-- Source lines 181-202: `Menu::down`. -/
def Menu.down (child : Child) (f : Fields) (ns : List Node) : Option Outcome :=
  if f.m_active then
    if ns.length > 0 then
      match Menu.call child .down id f with
      | none => none
      | some r =>
        if !r.handled then
          if r.self.m_index < r.nodes.length - 1 then
            some { r with self := { r.self with m_index := r.self.m_index + 1 }, handled := true }
          else
            some { r with self := { r.self with m_index := 0 }, handled := true }
        else some { r with handled := true }
    else some ⟨f, ns, true, [], []⟩
  else some ⟨f, ns, false, [], []⟩

/-- Source lines 204-233: `Menu::press`. -/
def Menu.press (child : Child) (f : Fields) (ns : List Node) : Option Outcome :=
  if f.m_active then
    if ns.length > 0 then
      match Menu.call child .press id f with
      | none => none
      | some r => some { r with handled := true }
    else some ⟨f, ns, true, [], []⟩
  else
    let g := { f with m_active := true, m_x := f.m_rect.width, m_target_x := 0,
                      m_alpha := 0, m_target_alpha := 1 }
    some ⟨g, ns, true, if g.mp_parent && g.m_shift then [true] else [], []⟩

/-- Source lines 235-260: `Menu::back`.  `pre` is what the caller has written
into the focused child of `ns` during this call. -/
def Menu.back (child : Child) (pre : Fields → Fields) (f : Fields) (ns : List Node) :
    Option Outcome :=
  if f.m_active then
    if ns.length > 0 then
      match Menu.call child .back pre f with
      | none => none
      | some r =>
        if !r.handled then
          if r.self.mp_parent then
            let g := { r.self with m_active := false, m_target_x := r.self.m_rect.width,
                                   m_target_alpha := 0 }
            some { r with self := g, handled := true,
                          shifts := r.shifts ++ (if g.m_shift then [false] else []) }
          else some { r with handled := true }
        else some { r with handled := true }
    else some ⟨f, ns, true, [], []⟩
  else some ⟨f, ns, false, [], []⟩

/-- Source lines 394-400: `Menu_Select::back`. -/
def Menu_Select.back (child : Child) (f : Fields) (ns : List Node) : Option Outcome :=
  Menu.back child id { f with m_index := f.m_last_pressed_index } ns

/-- The argument list of the commit callback, when there is one. -/
def run_action (fp : Option MenuActionFunc) (arg : Node) : List ActionCall :=
  match fp with
  | some a => [⟨a, arg⟩]
  | none => []

/-- Source lines 363-392: `Menu_Select::press`. -/
def Menu_Select.press (child : Child) (f : Fields) (ns : List Node) : Option Outcome :=
  if f.m_active then
    match ns[f.m_index]? with
    | none => none
    | some c =>
      let acts := run_action f.mfp_action c
      let f1 := { f with m_data := c.fields.m_data }
      let f2 := { f1 with m_last_pressed_index := f1.m_index }
      match Menu_Select.back child f2 ns with
      | none => none
      | some r =>
        some { r with self := { r.self with m_target_x := -r.self.m_rect.width,
                                            m_target_alpha := 0 },
                      handled := true, actions := acts ++ r.actions }
  else
    match Menu.press child f ns with
    | none => none
    | some r => some { r with handled := true }

/-- Source lines 453-460: `Menu_Bool_Display::press`. -/
def Menu_Bool_Display.press (child : Child) (f : Fields) (ns : List Node) : Option Outcome :=
  match Menu_Select.press child f ns with
  | none => none
  | some r =>
    match r.nodes[r.self.m_index]? with
    | none => none
    | some c =>
      some { r with self := { r.self with
                                m_text := r.self.m_base_text ++ ": " ++ c.fields.m_text },
                    handled := true }

/-- Source lines 491-493: the value `m_num` takes in `Menu_Number::up`. -/
def Menu_Number.up_value (m_num m_max m_interval : ℚ) : ℚ :=
  let n1 := m_num + m_interval
  let n2 := if n1 > m_max then m_max else n1
  round_to_nearest n2 m_interval

/-- Source lines 505-507: the value `m_num` takes in `Menu_Number::down`. -/
def Menu_Number.down_value (m_num m_min m_interval : ℚ) : ℚ :=
  let n1 := m_num - m_interval
  let n2 := if n1 < m_min then m_min else n1
  round_to_nearest n2 m_interval

/-- Source lines 487-499: `Menu_Number::up`. -/
def Menu_Number.up (fmt : ℚ → String) (f : Fields) (ns : List Node) : Option Outcome :=
  if f.m_active then
    let n3 := Menu_Number.up_value f.m_num f.m_max f.m_interval
    match with_child ns f.m_index (stamp (fmt n3) (fmt n3)) with
    | none => none
    | some ns1 => some ⟨{ f with m_num := n3 }, ns1, true, [], []⟩
  else some ⟨f, ns, false, [], []⟩

/-- Source lines 501-513: `Menu_Number::down`. -/
def Menu_Number.down (fmt : ℚ → String) (f : Fields) (ns : List Node) : Option Outcome :=
  if f.m_active then
    let n3 := Menu_Number.down_value f.m_num f.m_min f.m_interval
    match with_child ns f.m_index (stamp (fmt n3) (fmt n3)) with
    | none => none
    | some ns1 => some ⟨{ f with m_num := n3 }, ns1, true, [], []⟩
  else some ⟨f, ns, false, [], []⟩

/-- Source lines 545-553: `Menu_Number::back`.  `pre` is what the caller has
written into the focused child of `ns` during this call. -/
def Menu_Number.back (fmt : ℚ → String) (child : Child) (pre : Fields → Fields)
    (f : Fields) (ns : List Node) : Option Outcome :=
  let f1 := { f with m_num := f.m_last_num }
  let st := stamp (fmt f1.m_num) (fmt f1.m_num)
  match with_child ns f1.m_index st with
  | none => none
  | some ns1 => Menu.back child (st ∘ pre) f1 ns1

/-- Source lines 515-543: `Menu_Number::press`. -/
def Menu_Number.press (fmt : ℚ → String) (child : Child) (f : Fields) (ns : List Node) :
    Option Outcome :=
  if f.m_active then
    let st := stamp (fmt f.m_num) (fmt f.m_num)
    match with_child ns f.m_index st with
    | none => none
    | some ns1 =>
      let f1 := { f with m_last_num := f.m_num }
      match ns1[f1.m_index]? with
      | none => none
      | some c =>
        let acts := run_action f1.mfp_action c
        match Menu_Number.back fmt child st f1 ns1 with
        | none => none
        | some r =>
          some { r with self := { r.self with m_target_x := -r.self.m_rect.width,
                                              m_target_alpha := 0 },
                        handled := true, actions := acts ++ r.actions }
  else
    match Menu.press child f ns with
    | none => none
    | some r => some { r with handled := true }

/-- Source lines 589-596: `Menu_Number_Display::press`. -/
def Menu_Number_Display.press (fmt : ℚ → String) (child : Child) (f : Fields)
    (ns : List Node) : Option Outcome :=
  match Menu_Number.press fmt child f ns with
  | none => none
  | some r =>
    some { r with self := { r.self with
                              m_text := r.self.m_base_text ++ ": " ++ fmt r.self.m_num },
                  handled := true }

/-- Source lines 646-652: `Menu_Text::back`.  `pre` is what the caller has
written into the focused child of `ns` during this call. -/
def Menu_Text.back (child : Child) (pre : Fields → Fields) (f : Fields) (ns : List Node) :
    Option Outcome :=
  let st := stamp f.m_data f.m_data
  match with_child ns f.m_index st with
  | none => none
  | some ns1 => Menu.back child (st ∘ pre) f ns1

/-- Source lines 618-644: `Menu_Text::press`. -/
def Menu_Text.press (child : Child) (f : Fields) (ns : List Node) : Option Outcome :=
  if f.m_active then
    match ns[f.m_index]? with
    | none => none
    | some c =>
      let f1 := { f with m_data := c.fields.m_data }
      let acts := run_action f1.mfp_action c
      match Menu_Text.back child id f1 ns with
      | none => none
      | some r =>
        some { r with self := { r.self with m_target_x := -r.self.m_rect.width,
                                            m_target_alpha := 0 },
                      handled := true, actions := acts ++ r.actions }
  else
    match Menu.press child f ns with
    | none => none
    | some r => some { r with handled := true }

/-- Virtual dispatch of an input event on a node with members `f` and
children `ns`: the final overrider of each class. -/
def dispatch (fmt : ℚ → String) (child : Child) (inp : Input) (f : Fields) (ns : List Node) :
    Option Outcome :=
  match inp, f.kind with
  | .up, .Node => Node.ignore f ns
  | .up, .Menu_Number => Menu_Number.up fmt f ns
  | .up, .Menu_Number_Display => Menu_Number.up fmt f ns
  | .up, _ => Menu.up child f ns
  | .down, .Node => Node.ignore f ns
  | .down, .Menu_Number => Menu_Number.down fmt f ns
  | .down, .Menu_Number_Display => Menu_Number.down fmt f ns
  | .down, _ => Menu.down child f ns
  | .press, .Node => Node.press_self f ns
  | .press, .Menu => Menu.press child f ns
  | .press, .Menu_Select => Menu_Select.press child f ns
  | .press, .Menu_Bool => Menu_Select.press child f ns
  | .press, .Menu_Bool_Display => Menu_Bool_Display.press child f ns
  | .press, .Menu_Number => Menu_Number.press fmt child f ns
  | .press, .Menu_Number_Display => Menu_Number_Display.press fmt child f ns
  | .press, .Menu_Text => Menu_Text.press child f ns
  | .back, .Node => Node.ignore f ns
  | .back, .Menu => Menu.back child id f ns
  | .back, .Menu_Select => Menu_Select.back child f ns
  | .back, .Menu_Bool => Menu_Select.back child f ns
  | .back, .Menu_Bool_Display => Menu_Select.back child f ns
  | .back, .Menu_Number => Menu_Number.back fmt child id f ns
  | .back, .Menu_Number_Display => Menu_Number.back fmt child id f ns
  | .back, .Menu_Text => Menu_Text.back child id f ns

mutual
/-- An input event delivered to a node into which the caller has written
`pre` just before. -/
def Node.act (fmt : ℚ → String) (inp : Input) (pre : Fields → Fields) : Node → Option Outcome
  | .mk f ns => dispatch fmt (fun i j p => act_at fmt i p ns j) inp (pre f) ns
/-- The call `m_nodes[j]->input()`; `none` when `j` is out of range. -/
def act_at (fmt : ℚ → String) (inp : Input) (pre : Fields → Fields) :
    List Node → ℕ → Option Reply
  | [], _ => none
  | n :: ns, 0 =>
    match Node.act fmt inp pre n with
    | none => none
    | some r => some ⟨r.node :: ns, r.handled, r.shifts, r.actions⟩
  | n :: ns, j + 1 =>
    match act_at fmt inp pre ns j with
    | none => none
    | some r => some { r with nodes := n :: r.nodes }
end

/-- The public call `up()`. -/
def Node.up (fmt : ℚ → String) (n : Node) : Option Outcome :=
  Node.act fmt .up id n

/-- The public call `down()`. -/
def Node.down (fmt : ℚ → String) (n : Node) : Option Outcome :=
  Node.act fmt .down id n

/-- The public call `press()`. -/
def Node.press (fmt : ℚ → String) (n : Node) : Option Outcome :=
  Node.act fmt .press id n

/-- The public call `back()`. -/
def Node.back (fmt : ℚ → String) (n : Node) : Option Outcome :=
  Node.act fmt .back id n

/-- The macro `NODE_ARGS`: the constructor arguments every class takes. -/
structure NodeArgs where
  text : String
  data : String
  fp_action : Option MenuActionFunc
  fp_render : Option MenuNodeRenderFunc

/-- The macro `MENU_ARGS`. -/
structure MenuArgs where
  fp_node_render : Option MenuNodeRenderFunc
  fp_menu_render : Option MenuRenderFunc
  node : NodeArgs

/-- Source lines 44-50: the constructor of `Node`. -/
def Node.new (a : NodeArgs) : Node :=
  .mk { kind := .Node, mp_parent := false, m_text := a.text, m_data := a.data,
        mfp_render := a.fp_render, mfp_action := a.fp_action,
        m_active := false, m_shift := false, m_rect := ⟨0, 0, 0, 0⟩,
        m_target_x := 0, m_x := 0, m_alpha := 0, m_target_alpha := 0,
        m_cell_height := 0, m_index := 0, mfp_node_render := none,
        mfp_menu_render := none, m_last_pressed_index := 0, m_base_text := "",
        m_num := 0, m_last_num := 0, m_min := 0, m_max := 0, m_interval := 0 } []

/-- Source lines 108-121: the constructor of `Menu`. -/
def Menu.new (rect : Rect) (cell_height : ℚ) (shift : Bool) (a : MenuArgs) : Node :=
  (Node.new a.node).map_fields fun g =>
    { g with kind := .Menu, m_active := false, m_shift := shift, m_rect := rect,
             m_target_x := 0, m_x := 0, m_alpha := 0, m_target_alpha := 1,
             m_cell_height := cell_height, m_index := 0,
             mfp_node_render := a.fp_node_render, mfp_menu_render := a.fp_menu_render }

/-- Source lines 132-139: `Menu::take_node`. -/
def Menu.take_node (p_item : Node) : Node → Node
  | .mk f ns =>
    let item := p_item.map_fields fun g => { g with mp_parent := true }
    let item := item.map_fields fun g =>
      if g.mfp_render.isNone then { g with mfp_render := f.mfp_node_render } else g
    .mk f (ns ++ [item])

/-- Source lines 358-361: the constructor of `Menu_Select`. -/
def Menu_Select.new (rect : Rect) (cell_height : ℚ) (shift : Bool) (a : MenuArgs) : Node :=
  (Menu.new rect cell_height shift a).map_fields fun g =>
    { g with kind := .Menu_Select, m_last_pressed_index := g.m_index }

/-- Source lines 424-429: the constructor of `Menu_Bool`. -/
def Menu_Bool.new (width cell_height : ℚ) (true_text false_text : String) (a : MenuArgs) :
    Node :=
  let m := (Menu_Select.new ⟨0, 0, width, cell_height * 2⟩ cell_height false a).map_fields
    fun g => { g with kind := .Menu_Bool }
  let m := Menu.take_node (Node.new ⟨true_text, "true", none, m.fields.mfp_render⟩) m
  Menu.take_node (Node.new ⟨false_text, "false", none, m.fields.mfp_render⟩) m

/-- Source lines 446-451: the constructor of `Menu_Bool_Display`; `none` when
the read of `m_nodes[m_index]` is out of range. -/
def Menu_Bool_Display.new (width cell_height : ℚ) (true_text false_text : String)
    (a : MenuArgs) : Option Node :=
  match Menu_Bool.new width cell_height true_text false_text a with
  | .mk f ns =>
    let f1 := { f with kind := .Menu_Bool_Display, m_base_text := f.m_text }
    match ns[f1.m_index]? with
    | none => none
    | some c => some (.mk { f1 with m_text := f1.m_base_text ++ ": " ++ c.fields.m_text } ns)

/-- Source lines 476-485: the constructor of `Menu_Number`. -/
def Menu_Number.new (fmt : ℚ → String) (width height start min max interval : ℚ)
    (a : MenuArgs) : Node :=
  let m := (Menu.new ⟨0, 0, width, height⟩ height false a).map_fields fun g =>
    { g with kind := .Menu_Number, m_num := start, m_last_num := start, m_min := min,
             m_max := max, m_interval := interval }
  Menu.take_node
    (Node.new ⟨fmt m.fields.m_num, fmt m.fields.m_num, none, m.fields.mfp_render⟩) m

/-- Source lines 582-587: the constructor of `Menu_Number_Display`. -/
def Menu_Number_Display.new (fmt : ℚ → String) (width height start min max interval : ℚ)
    (a : MenuArgs) : Node :=
  (Menu_Number.new fmt width height start min max interval a).map_fields fun g =>
    { g with kind := .Menu_Number_Display, m_base_text := g.m_text,
             m_text := g.m_text ++ ": " ++ fmt g.m_num }

/-- Source lines 612-616: the constructor of `Menu_Text`. -/
def Menu_Text.new (width height : ℚ) (a : MenuArgs) : Node :=
  let m := (Menu.new ⟨0, 0, width, height⟩ height false a).map_fields fun g =>
    { g with kind := .Menu_Text }
  Menu.take_node
    (Node.new ⟨m.fields.m_data, m.fields.m_data, none, m.fields.mfp_render⟩) m

/-- Source line 69: `Node::set_data`. -/
def Node.set_data (data : String) (f : Fields) : Fields :=
  { f with m_data := data }

/-- The loop of source lines 407-414, entered with counter `i` and the
children from `i` on: the first position whose payload is `data`. -/
def find_data (data : String) : List Node → ℕ → Option ℕ
  | [], _ => none
  | n :: ns, i => if n.fields.m_data = data then some i else find_data data ns (i + 1)

/-- Source lines 402-415: `Menu_Select::set_data`. -/
def Menu_Select.set_data (data : String) (f : Fields) (ns : List Node) : Fields :=
  let f1 := Node.set_data data f
  match find_data data ns 0 with
  | some i => { f1 with m_index := i, m_last_pressed_index := i }
  | none => f1

/-- Source lines 462-467: `Menu_Bool_Display::set_data`. -/
def Menu_Bool_Display.set_data (data : String) (f : Fields) (ns : List Node) :
    Option Fields :=
  let f1 := Menu_Select.set_data data f ns
  match ns[f1.m_index]? with
  | none => none
  | some c => some { f1 with m_text := f1.m_base_text ++ ": " ++ c.fields.m_text }

/-- Source lines 555-562: `Menu_Number::set_data`. -/
def Menu_Number.set_data (atof : String → ℚ) (data : String) (f : Fields) (ns : List Node) :
    Option (Fields × List Node) :=
  let f1 := Node.set_data data f
  let f2 := { f1 with m_num := atof data, m_last_num := atof data }
  match with_child ns f2.m_index (stamp data data) with
  | none => none
  | some ns1 => some (f2, ns1)

/-- Source lines 598-603: `Menu_Number_Display::set_data`. -/
def Menu_Number_Display.set_data (fmt : ℚ → String) (atof : String → ℚ) (data : String)
    (f : Fields) (ns : List Node) : Option (Fields × List Node) :=
  match Menu_Number.set_data atof data f ns with
  | none => none
  | some r => some ({ r.1 with m_text := r.1.m_base_text ++ ": " ++ fmt r.1.m_num }, r.2)

/-- The public call `set_data(data)` on a node through a pointer of its own
class (`set_data` is not virtual in `Node`). -/
def Node.call_set_data (fmt : ℚ → String) (atof : String → ℚ) (data : String) :
    Node → Option Node
  | .mk f ns =>
    match f.kind with
    | .Node => some (.mk (Node.set_data data f) ns)
    | .Menu => some (.mk (Node.set_data data f) ns)
    | .Menu_Text => some (.mk (Node.set_data data f) ns)
    | .Menu_Select => some (.mk (Menu_Select.set_data data f ns) ns)
    | .Menu_Bool => some (.mk (Menu_Select.set_data data f ns) ns)
    | .Menu_Bool_Display =>
      match Menu_Bool_Display.set_data data f ns with
      | none => none
      | some f1 => some (.mk f1 ns)
    | .Menu_Number =>
      match Menu_Number.set_data atof data f ns with
      | none => none
      | some r => some (.mk r.1 r.2)
    | .Menu_Number_Display =>
      match Menu_Number_Display.set_data fmt atof data f ns with
      | none => none
      | some r => some (.mk r.1 r.2)

/-- One call of the public interface of a menu. -/
inductive Call where
  | take_node (p_item : Node)
  | up
  | down
  | press
  | back
  | set_data (data : String)

/-- The node after one call; `none` when the call indexes out of range. -/
def Call.run (fmt : ℚ → String) (atof : String → ℚ) : Call → Node → Option Node
  | .take_node p_item, n => some (Menu.take_node p_item n)
  | .up, n => (Node.up fmt n).map Outcome.node
  | .down, n => (Node.down fmt n).map Outcome.node
  | .press, n => (Node.press fmt n).map Outcome.node
  | .back, n => (Node.back fmt n).map Outcome.node
  | .set_data data, n => Node.call_set_data fmt atof data n

/-- The node after a sequence of calls, first call first. -/
def run_calls (fmt : ℚ → String) (atof : String → ℚ) : List Call → Node → Option Node
  | [], n => some n
  | c :: cs, n =>
    match c.run fmt atof n with
    | none => none
    | some n1 => run_calls fmt atof cs n1

/-- The focus invariant of a menu with members `f` and children `ns`: the
focus and the last pressed position are positions of `ns`, or 0 when `ns` is
empty. -/
def focus_ok (f : Fields) (ns : List Node) : Prop :=
  f.m_index ≤ ns.length - 1 ∧ f.m_last_pressed_index ≤ ns.length - 1

/-- The children calls of a menu keep the number of children. -/
def keeps_length (child : Child) (ns : List Node) : Prop :=
  ∀ inp j pre q, child inp j pre = some q → q.nodes.length = ns.length

/-- The classes `Menu` and `Menu_Select` themselves. -/
def plain_menu (k : Kind) : Prop :=
  k = .Menu ∨ k = .Menu_Select

/-- A selection menu with three plain children, as built by three calls of
`take_node`. -/
def select_abc : Node :=
  Menu.take_node (Node.new ⟨"c", "3", none, none⟩)
    (Menu.take_node (Node.new ⟨"b", "2", none, none⟩)
      (Menu.take_node (Node.new ⟨"a", "1", none, none⟩)
        (Menu_Select.new ⟨0, 0, 5, 5⟩ 1 false ⟨none, none, ⟨"", "", none, none⟩⟩)))

/-- The menu `select_abc` opened, with the focus on its last child. -/
def select_abc_open : Node :=
  select_abc.map_fields fun g =>
    { g with m_active := true, m_x := g.m_rect.width, m_target_x := 0, m_alpha := 0,
             m_target_alpha := 1, m_index := 2 }

/-- The classes that inherit `Menu::up` and `Menu::down` unchanged. -/
def inherits_navigation (k : Kind) : Prop :=
  k = .Menu ∨ k = .Menu_Select ∨ k = .Menu_Bool ∨ k = .Menu_Bool_Display ∨ k = .Menu_Text

/-- The same input event `k` times: the node afterwards and the returned
flags, first call first. -/
def repeat_input (fmt : ℚ → String) (inp : Input) : ℕ → Node → Option (Node × List Bool)
  | 0, n => some (n, [])
  | k + 1, n =>
    match Node.act fmt inp id n with
    | none => none
    | some r =>
      match repeat_input fmt inp k r.node with
      | none => none
      | some s => some (s.1, r.handled :: s.2)

/-- The classes whose `press()` is `Menu_Select::press` (followed, in
`Menu_Bool_Display`, by the update of the text). -/
def is_select (k : Kind) : Prop :=
  k = .Menu_Select ∨ k = .Menu_Bool ∨ k = .Menu_Bool_Display

/-- The arguments used for the example menus. -/
def no_args : MenuArgs :=
  ⟨none, none, ⟨"", "", none, none⟩⟩

/-- A menu without children after its `press()`: it is active. -/
def submenu_open : Node :=
  (Menu.new ⟨0, 0, 5, 5⟩ 1 false no_args).map_fields fun g =>
    { g with m_active := true, m_x := g.m_rect.width, m_target_x := 0, m_alpha := 0,
             m_target_alpha := 1 }

/-- A selection menu owned by a parent, before it is opened. -/
def select_owned : Node :=
  (Menu_Select.new ⟨0, 0, 5, 5⟩ 1 false no_args).map_fields fun g =>
    { g with mp_parent := true }

/-- The menu `select_owned` after `take_node(submenu_open)` and `press()`: an
active selection menu with a parent whose only child is an active menu. -/
def select_with_open_child : Node :=
  (Menu.take_node submenu_open select_owned).map_fields fun g =>
    { g with m_active := true, m_x := g.m_rect.width, m_target_x := 0, m_alpha := 0,
             m_target_alpha := 1 }

/-- The menu `select_owned` after `press()`: an active selection menu with a
parent and no child. -/
def select_empty_open : Node :=
  select_owned.map_fields fun g =>
    { g with m_active := true, m_x := g.m_rect.width, m_target_x := 0, m_alpha := 0,
             m_target_alpha := 1 }

/-- The menu `select_abc` owned by a parent and opened, with the focus on its
second child. -/
def select_abc_owned : Node :=
  select_abc.map_fields fun g =>
    { g with mp_parent := true, m_active := true, m_x := g.m_rect.width, m_target_x := 0,
             m_alpha := 0, m_target_alpha := 1, m_index := 1 }

/-- A sequence of input events delivered to a node: the node afterwards. -/
def navigate (fmt : ℚ → String) : List Input → Node → Option Node
  | [], n => some n
  | inp :: rest, n =>
    match Node.act fmt inp id n with
    | none => none
    | some r => navigate fmt rest r.node

/-- The node does not consume `up()`, `down()` or `back()`. -/
def ignores_input (fmt : ℚ → String) (c : Node) : Prop :=
  ∀ inp : Input, inp ≠ .press → ∃ r, Node.act fmt inp id c = some r ∧ r.handled = false

/-- Position `i` is the first child of `ns` whose payload is `data`. -/
def first_with_data (data : String) (ns : List Node) (i : ℕ) : Prop :=
  (∃ c, ns[i]? = some c ∧ c.fields.m_data = data) ∧
    ∀ j c, j < i → ns[j]? = some c → c.fields.m_data ≠ data

/-- The classes whose `up()` and `down()` are those of `Menu_Number`. -/
def is_number (k : Kind) : Prop :=
  k = .Menu_Number ∨ k = .Menu_Number_Display

/-- A formatting of numbers for the examples. -/
def show_num (q : ℚ) : String :=
  toString q

/-- The state of a numeric menu after the `press()` that opens it. -/
def opened (n : Node) : Node :=
  n.map_fields fun g =>
    { g with m_active := true, m_x := g.m_rect.width, m_target_x := 0, m_alpha := 0,
             m_target_alpha := 1 }

/-- A numeric menu with a parent whose focused child is a plain `Node` (the
placeholder child made by the constructor). -/
def number_ready (f : Fields) (ns : List Node) : Prop :=
  is_number f.kind ∧ f.mp_parent = true ∧
    ∃ c, ns[f.m_index]? = some c ∧ c.fields.kind = .Node

/-- A numeric menu with value 4, range 0 to 10 and step 2, owned by a parent
and opened. -/
def number_4_owned : Node :=
  opened ((Menu_Number.new show_num 5 2 4 0 10 2 no_args).map_fields fun g =>
    { g with mp_parent := true })

/-- What `Menu::press` writes into a menu that is not active. -/
def opened_fields (f : Fields) : Fields :=
  { f with m_active := true, m_x := f.m_rect.width, m_target_x := 0, m_alpha := 0,
           m_target_alpha := 1 }

/-- The child `m_nodes[m_index]` of a node, when the focus is in range. -/
def Node.focused (n : Node) : Option Node :=
  n.m_nodes[n.fields.m_index]?

/-- A chain of `d + 1` nested active menus of class `Menu`, outermost first,
each the focused child of the one before; the innermost one has a parent
and a focused child that does not handle `back()`. -/
def active_chain (fmt : ℚ → String) : ℕ → Node → Prop
  | 0, n => n.fields.kind = .Menu ∧ n.fields.m_active = true ∧ n.fields.mp_parent = true ∧
      ∃ c r, n.focused = some c ∧ Node.back fmt c = some r ∧ r.handled = false
  | d + 1, n => n.fields.kind = .Menu ∧ n.fields.m_active = true ∧
      ∃ c, n.focused = some c ∧ active_chain fmt d c

/-- The flags `m_active` along the focus path of a node, outermost first,
`d + 1` of them. -/
def active_flags : ℕ → Node → List Bool
  | 0, n => [n.fields.m_active]
  | d + 1, n =>
    n.fields.m_active ::
      match n.focused with
      | some c => active_flags d c
      | none => []

/-- A plain child as `take_node` leaves it. -/
def leaf_a : Node :=
  (Node.new ⟨"a", "1", none, none⟩).map_fields fun g => { g with mp_parent := true }

/-- An active menu with a parent and the one child `leaf_a`. -/
def inner_open : Node :=
  opened ((Menu.take_node (Node.new ⟨"a", "1", none, none⟩)
    (Menu.new ⟨0, 0, 5, 5⟩ 1 false no_args)).map_fields fun g => { g with mp_parent := true })

/-- An active menu without parent whose one child is `inner_open`. -/
def outer_open : Node :=
  opened (Menu.take_node inner_open (Menu.new ⟨0, 0, 7, 7⟩ 1 false no_args))

/-- A shift-enabled menu with one plain child, not yet opened and not yet
attached to a parent. -/
def shift_inner : Node :=
  Menu.take_node (Node.new ⟨"a", "1", none, none⟩) (Menu.new ⟨0, 0, 5, 5⟩ 1 true no_args)

/-- The root of the example: an active menu without parent whose one child is
the opened `shift_inner`, which has pushed it away. -/
def root_pushed : Node :=
  (opened (Menu.take_node (opened shift_inner) (Menu.new ⟨0, 0, 7, 7⟩ 1 false no_args))).map_fields
    fun g => { g with m_target_x := -7, m_target_alpha := 0 }

/-- The node issues no call of `shift` when `back()` reaches it, whether or not
its owner has written a text into it just before. -/
def quiet_on_back (fmt : ℚ → String) (c : Node) : Prop :=
  ∀ p rb, (p = id ∨ ∃ t d, p = stamp t d ∘ id) → Node.act fmt .back p c = some rb →
    rb.shifts = []

/-- Source lines 143-144: the two assignments of `Menu::update`, in exact
arithmetic (`Menu.update_f32` has the rounding of binary32). -/
def Menu.update_self (delta_time : ℚ) (f : Fields) : Fields :=
  { f with m_x := f.m_x + (f.m_target_x - f.m_x) * (1 / (1 / 10)) * delta_time,
           m_alpha := f.m_alpha + (f.m_target_alpha - f.m_alpha) * (1 / (1 / 10)) * delta_time }

mutual
/-- The virtual call `update(delta_time)`: source line 78 for class `Node`,
source lines 141-150 (`Menu::update`, overridden by no class) otherwise. -/
def Node.update (delta_time : ℚ) : Node → Node
  | .mk f ns =>
    match f.kind with
    | .Node => .mk f ns
    | _ => .mk (Menu.update_self delta_time f) (update_all delta_time ns)
/-- The loop of source lines 146-149. -/
def update_all (delta_time : ℚ) : List Node → List Node
  | [] => []
  | n :: ns => Node.update delta_time n :: update_all delta_time ns
end

/-- A menu with a parent and one plain child, not yet opened. -/
def inner_closed : Node :=
  (Menu.take_node (Node.new ⟨"a", "1", none, none⟩)
    (Menu.new ⟨0, 0, 5, 5⟩ 1 false no_args)).map_fields fun g => { g with mp_parent := true }

/-- The menu `inner_closed` while it slides closed: after `press()`,
`update(1/10)`, `back()` and `update(1/16)`. -/
def sliding_closed : Node :=
  inner_closed.map_fields fun g =>
    { g with m_target_x := 5, m_target_alpha := 0, m_x := 25 / 8, m_alpha := 3 / 8 }

/-- The arguments of a menu labelled "L". -/
def label_args : MenuArgs :=
  ⟨none, none, ⟨"L", "", none, none⟩⟩

/-- What `Menu_Bool_Display(5, 1, "true", "false", NULL, NULL, "L")`
constructs. -/
def bool_display_new : Node :=
  (Menu_Bool.new 5 1 "true" "false" label_args).map_fields fun g =>
    { g with kind := .Menu_Bool_Display, m_base_text := "L", m_text := "L: true" }

/-- The node `bool_display_new` owned by a parent, opened, with the focus moved
to its second child. -/
def bool_display_moved : Node :=
  bool_display_new.map_fields fun g =>
    { g with mp_parent := true, m_active := true, m_x := g.m_rect.width, m_target_x := 0,
             m_alpha := 0, m_target_alpha := 1, m_index := 1 }

/-- The node `bool_display_moved` after `set_data("zzz")` and `back()`. -/
def bool_display_stale : Node :=
  bool_display_moved.map_fields fun g =>
    { g with m_data := "zzz", m_text := "L: false", m_index := 0, m_active := false,
             m_target_x := g.m_rect.width, m_target_alpha := 0 }

/-- The arguments of a call `render(is_selected, rect, alpha, off_x, off_y)`. -/
structure RenderArgs where
  is_selected : Bool
  rect : Rect
  alpha : ℚ
  off_x : ℚ
  off_y : ℚ

/-- One call `m_nodes[index]->render(...)`. -/
structure RenderCall where
  index : ℕ
  args : RenderArgs

/-- One call of a render callback, with the node passed to it:
`mfp_render(this, is_selected, rect, alpha)` or
`mfp_menu_render(this, rect, alpha, text)`. -/
inductive Draw where
  | node (fp : MenuNodeRenderFunc) (arg : Node) (is_selected : Bool) (rect : Rect) (alpha : ℚ)
  | menu (fp : MenuRenderFunc) (arg : Node) (rect : Rect) (alpha : ℚ) (text : String)

/-- Source lines 80-87: `Node::render`. -/
def Node.render (f : Fields) (ns : List Node) (a : RenderArgs) : List Draw :=
  match f.mfp_render with
  | some fp =>
    [.node fp (.mk f ns) a.is_selected
      ⟨a.rect.left + a.off_x, a.rect.top + a.off_y, a.rect.width, a.rect.height⟩ a.alpha]
  | none => []

/-- Source lines 275-276 (and 433-434, 569-570, 658-659): the row of the node
itself is drawn when the rectangle is not degenerate. -/
def Menu.render_row (f : Fields) (ns : List Node) (a : RenderArgs) : List Draw :=
  if a.rect.width ≠ 0 ∧ a.rect.height ≠ 0 then Node.render f ns a else []

/-- Source lines 281-303: the rectangle `rRect`.  `head` is the `m_rect` of the
topmost ancestor, found by the loop of lines 291-298; it is `none` when
`mp_parent` is `NULL`, and then the read through `p_head` is undefined. -/
def Menu.panel_rect (head : Option Rect) (f : Fields) (rect : Rect) : Option Rect :=
  if f.m_shift = false then
    some ⟨rect.left + f.m_rect.left, rect.top + f.m_rect.top, f.m_rect.width, f.m_rect.height⟩
  else
    match head with
    | some h => some ⟨h.left, h.top, f.m_rect.width, f.m_rect.height⟩
    | none => none

/-- Source lines 305-310: the condition under which `Menu::render` draws
nothing of the panel. -/
def Menu.skips (f : Fields) (ns : List Node) : Bool :=
  decide ((f.m_active = false ∧
      ((f.m_target_x > 0 ∧ f.m_x > f.m_target_x - 1) ∨
       (f.m_target_x < 0 ∧ f.m_x < f.m_target_x + 1) ∨
       (f.m_target_x = 0 ∧ f.m_x = 0)))
    ∨ ns.length = 0)

/-- Source lines 273-330: `Menu::render`, up to the calls on the children: the
callbacks it runs itself and, in order, the calls `m_nodes[i]->render(...)`
it makes. -/
def Menu.render (head : Option Rect) (f : Fields) (ns : List Node) (a : RenderArgs) :
    Option (List Draw × List RenderCall) :=
  let own := Menu.render_row f ns a
  if !a.is_selected then some (own, [])
  else
    match Menu.panel_rect head f a.rect with
    | none => none
    | some rRect =>
      if Menu.skips f ns then some (own, [])
      else
        let panel :=
          match f.mfp_menu_render with
          | some fp =>
            [Draw.menu fp (.mk f ns) { rRect with left := rRect.left + f.m_x } f.m_alpha f.m_text]
          | none => []
        let row : Rect := { rRect with height := f.m_cell_height }
        let others := ((List.range ns.length).filter fun i => i ≠ f.m_index).map fun i =>
          (⟨i, ⟨false, row, f.m_alpha, f.m_x, row.height * i⟩⟩ : RenderCall)
        some (own ++ panel,
          others ++ [⟨f.m_index, ⟨true, row, f.m_alpha, f.m_x, row.height * f.m_index⟩⟩])

/-- Source lines 431-440: `Menu_Bool::render`. -/
def Menu_Bool.render (head : Option Rect) (f : Fields) (ns : List Node) (a : RenderArgs) :
    Option (List Draw × List RenderCall) :=
  let own := Menu.render_row f ns a
  if !a.is_selected then some (own, [])
  else
    match Menu.render head f ns
      ⟨true, ⟨a.rect.left + a.rect.width + a.off_x - f.m_rect.width / 2,
              a.rect.top + a.off_y - f.m_cell_height / 2, 0, 0⟩, a.alpha, 0, 0⟩ with
    | none => none
    | some r => some (own ++ r.1, r.2)

/-- Source lines 567-576: `Menu_Number::render`. -/
def Menu_Number.render (head : Option Rect) (f : Fields) (ns : List Node) (a : RenderArgs) :
    Option (List Draw × List RenderCall) :=
  let own := Menu.render_row f ns a
  if !a.is_selected then some (own, [])
  else
    match Menu.render head f ns
      ⟨true, ⟨a.rect.left + a.rect.width + a.off_x - f.m_rect.width / 2,
              a.rect.top + a.off_y - ((f.m_rect.height - a.rect.height) / 2), 0, 0⟩,
        a.alpha, 0, 0⟩ with
    | none => none
    | some r => some (own ++ r.1, r.2)

/-- Source lines 656-665: `Menu_Text::render`. -/
def Menu_Text.render (head : Option Rect) (f : Fields) (ns : List Node) (a : RenderArgs) :
    Option (List Draw × List RenderCall) :=
  let own := Menu.render_row f ns a
  if !a.is_selected then some (own, [])
  else
    match Menu.render head f ns
      ⟨true, ⟨a.rect.left + a.rect.width + a.off_x - f.m_rect.width / 2,
              a.rect.top + a.off_y - ((f.m_rect.height - a.rect.height) / 2), 0, 0⟩,
        a.alpha, 0, 0⟩ with
    | none => none
    | some r => some (own ++ r.1, r.2)

/-- Virtual dispatch of `render`: the final overrider of each class, up to the
calls on the children. -/
def render_dispatch (head : Option Rect) (f : Fields) (ns : List Node) (a : RenderArgs) :
    Option (List Draw × List RenderCall) :=
  match f.kind with
  | .Node => some (Node.render f ns a, [])
  | .Menu => Menu.render head f ns a
  | .Menu_Select => Menu.render head f ns a
  | .Menu_Bool => Menu_Bool.render head f ns a
  | .Menu_Bool_Display => Menu_Bool.render head f ns a
  | .Menu_Number => Menu_Number.render head f ns a
  | .Menu_Number_Display => Menu_Number.render head f ns a
  | .Menu_Text => Menu_Text.render head f ns a

/-- The callbacks run by a sequence of calls on the children, in order;
`none` when one of the calls is undefined. -/
def run_render_calls (child : RenderCall → Option (List Draw)) :
    List RenderCall → Option (List Draw)
  | [] => some []
  | c :: cs =>
    match child c with
    | none => none
    | some d =>
      match run_render_calls child cs with
      | none => none
      | some ds => some (d ++ ds)

/-- The topmost ancestor seen from the children of a node with rectangle
`m_rect`: that of the node, or the node itself when it has no parent. -/
def child_head (head : Option Rect) (m_rect : Rect) : Option Rect :=
  match head with
  | some h => some h
  | none => some m_rect

mutual
/-- The virtual call `render(is_selected, rect, alpha, off_x, off_y)` on a
node: the callbacks run, in order. -/
def Node.render_all (head : Option Rect) (a : RenderArgs) : Node → Option (List Draw)
  | .mk f ns =>
    match render_dispatch head f ns a with
    | none => none
    | some r =>
      match run_render_calls
          (fun c => render_at (child_head head f.m_rect) c.args ns c.index) r.2 with
      | none => none
      | some ds => some (r.1 ++ ds)
/-- The call `m_nodes[j]->render(...)`; `none` when `j` is out of range. -/
def render_at (head : Option Rect) (a : RenderArgs) : List Node → ℕ → Option (List Draw)
  | [], _ => none
  | n :: _, 0 => Node.render_all head a n
  | _ :: ns, j + 1 => render_at head a ns j
end

/-- Source lines 152-156: the public `Menu::render()`: the node afterwards and
the callbacks run. -/
def Menu.render_public (head : Option Rect) : Node → Option (Node × List Draw)
  | .mk f ns =>
    let f1 := { f with m_active := true }
    match Node.render_all head ⟨true, ⟨0, 0, 0, 0⟩, f1.m_alpha, 0, 0⟩ (.mk f1 ns) with
    | none => none
    | some ds => some (.mk f1 ns, ds)

/-- What `Menu::shift(true)` writes into an active menu. -/
def pushed (f : Fields) : Fields :=
  { f with m_target_x := -f.m_rect.width, m_target_alpha := 0 }

/-- What `Menu::shift(false)` writes into an active menu. -/
def restored (f : Fields) : Fields :=
  { f with m_target_x := 0, m_target_alpha := 1 }

/-- The member variables of the nodes along the focus path of a node,
outermost first, `d + 1` of them. -/
def path_fields : ℕ → Node → List Fields
  | 0, n => [n.fields]
  | d + 1, n =>
    n.fields ::
      match n.focused with
      | some c => path_fields d c
      | none => []

/-- The node `m` lies `d` levels below `n` on its focus path, below `d` nested
active menus of class `Menu`, and every node of the path below `n` has a
parent (as `take_node` makes it). -/
def host_chain : ℕ → Node → Node → Prop
  | 0, n, m => n = m
  | d + 1, n, m => n.fields.kind = .Menu ∧ n.fields.m_active = true ∧
      ∃ c, n.focused = some c ∧ c.fields.mp_parent = true ∧ host_chain d c m

/-- The node `shift_inner` as `take_node` leaves it in its parent. -/
def shift_inner_owned : Node :=
  shift_inner.map_fields fun g => { g with mp_parent := true }

/-- An active menu without parent whose one child is the collapsed
`shift_inner`. -/
def root_ready : Node :=
  opened (Menu.take_node shift_inner (Menu.new ⟨0, 0, 7, 7⟩ 1 false no_args))

/-- The classes whose `press()` and `back()` are those of `Menu` or of
`Menu_Select`. -/
def opens_as_menu (k : Kind) : Prop :=
  k = .Menu ∨ k = .Menu_Select ∨ k = .Menu_Bool

/-- An active menu without parent whose one child is an active menu, whose one
child in turn is the collapsed, shift-enabled `shift_inner`. -/
def top_open : Node :=
  opened (Menu.take_node
    (opened (Menu.take_node shift_inner (Menu.new ⟨0, 0, 5, 5⟩ 1 false no_args)))
    (Menu.new ⟨0, 0, 7, 7⟩ 1 false no_args))

/-- One operation of binary32 arithmetic whose exact result is `q`.  The
parameter `rnd` is the rounding of binary32 (to nearest, ties to even) and
`big` is `FLT_MAX`; the result is `none` when the rounded value is not finite
(overflow). -/
def fl (rnd : ℚ → ℚ) (big : ℚ) (q : ℚ) : Option ℚ :=
  if |rnd q| ≤ big then some (rnd q) else none

/-- Source lines 10-13: `round`, with the rounding of the float addition made
explicit.  `ceil` and `floor` of a float are exact. -/
def round_f32 (rnd : ℚ → ℚ) (big : ℚ) (number : ℚ) : Option ℚ :=
  if number < 0 then
    match fl rnd big (number - 1 / 2) with
    | none => none
    | some y => some ((⌈y⌉ : ℤ) : ℚ)
  else
    match fl rnd big (number + 1 / 2) with
    | none => none
    | some y => some ((⌊y⌋ : ℤ) : ℚ)

/-- Source lines 15-18: `round_to_nearest`, with the rounding of the float
division and multiplication made explicit; a division by zero is not finite. -/
def round_to_nearest_f32 (rnd : ℚ → ℚ) (big : ℚ) (x factor : ℚ) : Option ℚ :=
  if factor = 0 then none
  else
    match fl rnd big (x / factor) with
    | none => none
    | some q =>
      match round_f32 rnd big q with
      | none => none
      | some k => fl rnd big (k * factor)

/-- Source lines 487-499: `Menu_Number::up` in binary32 arithmetic. -/
def Menu_Number.up_f32 (rnd : ℚ → ℚ) (big : ℚ) (fmt : ℚ → String) (f : Fields)
    (ns : List Node) : Option Outcome :=
  if f.m_active then
    match fl rnd big (f.m_num + f.m_interval) with
    | none => none
    | some n1 =>
      let n2 := if n1 > f.m_max then f.m_max else n1
      match round_to_nearest_f32 rnd big n2 f.m_interval with
      | none => none
      | some n3 =>
        match with_child ns f.m_index (stamp (fmt n3) (fmt n3)) with
        | none => none
        | some ns1 => some ⟨{ f with m_num := n3 }, ns1, true, [], []⟩
  else some ⟨f, ns, false, [], []⟩

/-- Source lines 501-513: `Menu_Number::down` in binary32 arithmetic. -/
def Menu_Number.down_f32 (rnd : ℚ → ℚ) (big : ℚ) (fmt : ℚ → String) (f : Fields)
    (ns : List Node) : Option Outcome :=
  if f.m_active then
    match fl rnd big (f.m_num - f.m_interval) with
    | none => none
    | some n1 =>
      let n2 := if n1 < f.m_min then f.m_min else n1
      match round_to_nearest_f32 rnd big n2 f.m_interval with
      | none => none
      | some n3 =>
        match with_child ns f.m_index (stamp (fmt n3) (fmt n3)) with
        | none => none
        | some ns1 => some ⟨{ f with m_num := n3 }, ns1, true, [], []⟩
  else some ⟨f, ns, false, [], []⟩

/-- The numeric menu `number_4_owned` after `up()`: its value is 6. -/
def number_6_owned : Outcome :=
  ⟨{ number_4_owned.fields with m_num := 6 },
    number_4_owned.m_nodes.set 0
      ((Node.new ⟨show_num 4, show_num 4, none, none⟩).map_fields fun g =>
        { g with mp_parent := true, m_text := show_num 6, m_data := show_num 6 }),
    true, [], []⟩

/-- The lag filter of source lines 143 and 144 in binary32 arithmetic:
`value += (target - value) * (1.0f / 0.1f) * delta_time`.  The literal `0.1f`
is the rounded tenth, `1.0f / 0.1f` a rounded quotient, and the product is
evaluated from the left. -/
def Menu.lag_f32 (rnd : ℚ → ℚ) (big : ℚ) (value target delta_time : ℚ) : Option ℚ :=
  if rnd (1 / 10) = 0 then none
  else
    match fl rnd big (target - value), fl rnd big (1 / rnd (1 / 10)) with
    | some d, some c =>
      match fl rnd big (d * c) with
      | none => none
      | some e =>
        match fl rnd big (e * delta_time) with
        | none => none
        | some g => fl rnd big (value + g)
    | _, _ => none

/-- Source lines 143-144: the two assignments of `Menu::update` in binary32
arithmetic. -/
def Menu.update_f32 (rnd : ℚ → ℚ) (big : ℚ) (delta_time : ℚ) (f : Fields) : Option Fields :=
  match Menu.lag_f32 rnd big f.m_x f.m_target_x delta_time,
      Menu.lag_f32 rnd big f.m_alpha f.m_target_alpha delta_time with
  | some x, some a => some { f with m_x := x, m_alpha := a }
  | _, _ => none

/-- The two assignments of `Menu::update` made `k` times. -/
def Menu.update_f32_times (rnd : ℚ → ℚ) (big : ℚ) (delta_time : ℚ) : ℕ → Fields → Option Fields
  | 0, f => some f
  | k + 1, f =>
    match Menu.update_f32 rnd big delta_time f with
    | none => none
    | some g => Menu.update_f32_times rnd big delta_time k g

/-- Properties of the rounding of binary32 (to nearest, ties to even) with
`big = FLT_MAX`: it is monotone; it fixes the values it returns (the binary32
values); it is odd; `1.0f / 0.1f` is 10; for binary32 values `a < b` whose
difference does not overflow there is a binary32 value `r` below `b - a` with
`rnd (b - a) ≤ 9/8 * r` (the difference is exact when it is tiny, and two
neighbouring normal binary32 values differ by a factor of at most
`1 + 2^-23`); and multiplying a binary32 value by 10 without overflow has a
relative rounding error of at most `1/8` (it is exact when the product is
tiny, and at most `2^-24` otherwise). -/
def rounds_like_binary32 (rnd : ℚ → ℚ) (big : ℚ) : Prop :=
  (∀ a b, a ≤ b → rnd a ≤ rnd b) ∧
  (∀ a, rnd (rnd a) = rnd a) ∧
  (∀ a, rnd (-a) = -rnd a) ∧
  rnd (1 / rnd (1 / 10)) = 10 ∧
  (∀ a b, rnd a = a → rnd b = b → a < b → b - a ≤ big →
    ∃ r, rnd r = r ∧ r ≤ b - a ∧ rnd (b - a) ≤ 9 / 8 * r) ∧
  (∀ d, rnd d = d → 0 ≤ d → 10 * d ≤ big → rnd (10 * d) ≤ 9 / 8 * (10 * d))

/-- The current value and the target are binary32 values, and neither they nor
thirteen times their distance overflow. -/
def in_float_range (rnd : ℚ → ℚ) (big : ℚ) (value target : ℚ) : Prop :=
  rnd value = value ∧ rnd target = target ∧ |value| ≤ big ∧ |target| ≤ big ∧
    13 * |target - value| ≤ big

/-! ## Theorems -/

theorem node_act_mk (fmt : ℚ → String) (inp : Input) (pre : Fields → Fields) (f : Fields)
    (ns : List Node) :
    Node.act fmt inp pre (.mk f ns)
      = dispatch fmt (fun i j p => act_at fmt i p ns j) inp (pre f) ns := by
  rw [Node.act]

theorem act_at_eq (fmt : ℚ → String) (inp : Input) (pre : Fields → Fields) (ns : List Node)
    (j : ℕ) :
    act_at fmt inp pre ns j
      = match ns[j]? with
        | none => none
        | some n =>
          match Node.act fmt inp pre n with
          | none => none
          | some r => some ⟨ns.set j r.node, r.handled, r.shifts, r.actions⟩ := by
  induction ns generalizing j with
  | nil => simp [act_at]
  | cons n ns ih =>
    cases j with
    | zero => simp [act_at]
    | succ j =>
      simp only [act_at, ih, List.getElem?_cons_succ, List.set_cons_succ]
      cases h1 : ns[j]? with
      | none => simp
      | some m =>
        cases h2 : Node.act fmt inp pre m with
        | none => simp [h2]
        | some r => simp [h2]

theorem act_at_length {fmt : ℚ → String} {inp : Input} {pre : Fields → Fields}
    {ns : List Node} {j : ℕ} {r : Reply} (h : act_at fmt inp pre ns j = some r) :
    r.nodes.length = ns.length := by
  rw [act_at_eq] at h
  split at h
  · exact absurd h (by simp)
  · split at h
    · exact absurd h (by simp)
    · cases h; simp

theorem shift_proj {α : Type} (P : Fields → α)
    (hP : ∀ g tx ta, P { g with m_target_x := tx, m_target_alpha := ta } = P g)
    (f : Fields) (away : Bool) : P (shift f away).1 = P f := by
  unfold shift Node.shift Menu.shift
  split
  · rfl
  · dsimp only
    split
    · rfl
    · split
      · exact hP _ _ _
      · exact hP _ _ _

theorem recv_shifts_proj {α : Type} (P : Fields → α)
    (hP : ∀ g tx ta, P { g with m_target_x := tx, m_target_alpha := ta } = P g)
    (f : Fields) (l : List Bool) : P (recv_shifts f l).1 = P f := by
  induction l generalizing f with
  | nil => rfl
  | cons a l ih =>
    simp only [recv_shifts]
    rw [ih, shift_proj P hP]

@[simp] theorem recv_shifts_kind (f : Fields) (l : List Bool) :
    (recv_shifts f l).1.kind = f.kind :=
  recv_shifts_proj (fun g => g.kind) (fun _ _ _ => rfl) f l

@[simp] theorem recv_shifts_index (f : Fields) (l : List Bool) :
    (recv_shifts f l).1.m_index = f.m_index :=
  recv_shifts_proj (fun g => g.m_index) (fun _ _ _ => rfl) f l

@[simp] theorem recv_shifts_last (f : Fields) (l : List Bool) :
    (recv_shifts f l).1.m_last_pressed_index = f.m_last_pressed_index :=
  recv_shifts_proj (fun g => g.m_last_pressed_index) (fun _ _ _ => rfl) f l

@[simp] theorem recv_shifts_active (f : Fields) (l : List Bool) :
    (recv_shifts f l).1.m_active = f.m_active :=
  recv_shifts_proj (fun g => g.m_active) (fun _ _ _ => rfl) f l

@[simp] theorem recv_shifts_parent (f : Fields) (l : List Bool) :
    (recv_shifts f l).1.mp_parent = f.mp_parent :=
  recv_shifts_proj (fun g => g.mp_parent) (fun _ _ _ => rfl) f l

@[simp] theorem recv_shifts_data (f : Fields) (l : List Bool) :
    (recv_shifts f l).1.m_data = f.m_data :=
  recv_shifts_proj (fun g => g.m_data) (fun _ _ _ => rfl) f l

@[simp] theorem recv_shifts_rect (f : Fields) (l : List Bool) :
    (recv_shifts f l).1.m_rect = f.m_rect :=
  recv_shifts_proj (fun g => g.m_rect) (fun _ _ _ => rfl) f l

@[simp] theorem recv_shifts_num (f : Fields) (l : List Bool) :
    (recv_shifts f l).1.m_num = f.m_num :=
  recv_shifts_proj (fun g => g.m_num) (fun _ _ _ => rfl) f l

@[simp] theorem recv_shifts_last_num (f : Fields) (l : List Bool) :
    (recv_shifts f l).1.m_last_num = f.m_last_num :=
  recv_shifts_proj (fun g => g.m_last_num) (fun _ _ _ => rfl) f l

@[simp] theorem recv_shifts_nil (f : Fields) : recv_shifts f [] = (f, []) := rfl


theorem menu_call_some {child : Child} {inp : Input} {pre : Fields → Fields} {f : Fields}
    {r : Outcome} (h : Menu.call child inp pre f = some r) :
    ∃ q, child inp f.m_index pre = some q ∧
      r = ⟨(recv_shifts f q.shifts).1, q.nodes, q.handled, (recv_shifts f q.shifts).2,
            q.actions⟩ := by
  unfold Menu.call at h
  split at h
  · exact absurd h (by simp)
  · rename_i q hq
    exact ⟨q, hq, by simpa using h.symm⟩

theorem keeps_length_act_at (fmt : ℚ → String) (ns : List Node) :
    keeps_length (fun i j p => act_at fmt i p ns j) ns :=
  fun _ _ _ _ h => act_at_length h

theorem menu_up_focus {child : Child} {f : Fields} {ns : List Node} {r : Outcome}
    (hc : keeps_length child ns) (h : Menu.up child f ns = some r) (hi : focus_ok f ns) :
    focus_ok r.self r.nodes ∧ r.self.kind = f.kind ∧ r.nodes.length = ns.length := by
  unfold Menu.up at h
  split at h
  · split at h
    · split at h
      · exact absurd h (by simp)
      · rename_i q hq
        obtain ⟨p, hp, rfl⟩ := menu_call_some hq
        have hl := hc _ _ _ _ hp
        obtain ⟨h1, h2⟩ := hi
        split at h
        · split at h <;> cases h <;> simp [focus_ok, hl] <;> omega
        · cases h; simp [focus_ok, hl]; omega
    · cases h; exact ⟨hi, rfl, rfl⟩
  · cases h; exact ⟨hi, rfl, rfl⟩


theorem menu_down_focus {child : Child} {f : Fields} {ns : List Node} {r : Outcome}
    (hc : keeps_length child ns) (h : Menu.down child f ns = some r) (hi : focus_ok f ns) :
    focus_ok r.self r.nodes ∧ r.self.kind = f.kind ∧ r.nodes.length = ns.length := by
  unfold Menu.down at h
  split at h
  · split at h
    · split at h
      · exact absurd h (by simp)
      · rename_i q hq
        obtain ⟨p, hp, rfl⟩ := menu_call_some hq
        have hl := hc _ _ _ _ hp
        obtain ⟨h1, h2⟩ := hi
        simp only [recv_shifts_index, hl] at h
        split at h
        · split at h <;> cases h <;> simp [focus_ok, hl] <;> omega
        · cases h; simp [focus_ok, hl]; omega
    · cases h; exact ⟨hi, rfl, rfl⟩
  · cases h; exact ⟨hi, rfl, rfl⟩

theorem menu_press_focus {child : Child} {f : Fields} {ns : List Node} {r : Outcome}
    (hc : keeps_length child ns) (h : Menu.press child f ns = some r) (hi : focus_ok f ns) :
    focus_ok r.self r.nodes ∧ r.self.kind = f.kind ∧ r.nodes.length = ns.length := by
  unfold Menu.press at h
  split at h
  · split at h
    · split at h
      · exact absurd h (by simp)
      · rename_i q hq
        obtain ⟨p, hp, rfl⟩ := menu_call_some hq
        have hl := hc _ _ _ _ hp
        obtain ⟨h1, h2⟩ := hi
        cases h; dsimp only [focus_ok]; simp [hl]; omega
    · cases h; exact ⟨hi, rfl, rfl⟩
  · cases h; exact ⟨hi, rfl, rfl⟩

theorem menu_back_focus {child : Child} {pre : Fields → Fields} {f : Fields} {ns : List Node}
    {r : Outcome} (hc : keeps_length child ns) (h : Menu.back child pre f ns = some r)
    (hi : focus_ok f ns) :
    focus_ok r.self r.nodes ∧ r.self.kind = f.kind ∧ r.nodes.length = ns.length := by
  unfold Menu.back at h
  split at h
  · split at h
    · split at h
      · exact absurd h (by simp)
      · rename_i q hq
        obtain ⟨p, hp, rfl⟩ := menu_call_some hq
        have hl := hc _ _ _ _ hp
        obtain ⟨h1, h2⟩ := hi
        split at h
        · split at h <;> cases h <;> simp [focus_ok, hl] <;> omega
        · cases h; simp [focus_ok, hl]; omega
    · cases h; exact ⟨hi, rfl, rfl⟩
  · cases h; exact ⟨hi, rfl, rfl⟩

theorem select_back_focus {child : Child} {f : Fields} {ns : List Node}
    {r : Outcome} (hc : keeps_length child ns) (h : Menu_Select.back child f ns = some r)
    (hi : focus_ok f ns) :
    focus_ok r.self r.nodes ∧ r.self.kind = f.kind ∧ r.nodes.length = ns.length := by
  have h2 : Menu.back child id { f with m_index := f.m_last_pressed_index } ns = some r := h
  have h3 := menu_back_focus hc h2 ⟨hi.2, hi.2⟩
  exact h3

theorem select_press_focus {child : Child} {f : Fields} {ns : List Node}
    {r : Outcome} (hc : keeps_length child ns) (h : Menu_Select.press child f ns = some r)
    (hi : focus_ok f ns) :
    focus_ok r.self r.nodes ∧ r.self.kind = f.kind ∧ r.nodes.length = ns.length := by
  unfold Menu_Select.press at h
  split at h
  · split at h
    · exact absurd h (by simp)
    · dsimp only at h
      split at h
      · exact absurd h (by simp)
      · rename_i q hq
        have := select_back_focus hc hq (show focus_ok _ ns from ⟨hi.1, hi.1⟩)
        cases h
        exact this
  · split at h
    · exact absurd h (by simp)
    · rename_i q hq
      have := menu_press_focus hc hq hi
      cases h
      exact this


theorem find_data_some {data : String} {ns : List Node} {k i : ℕ}
    (h : find_data data ns k = some i) :
    ∃ j c, i = k + j ∧ ns[j]? = some c ∧ c.fields.m_data = data ∧
      ∀ j2 c2, j2 < j → ns[j2]? = some c2 → c2.fields.m_data ≠ data := by
  induction ns generalizing k with
  | nil => simp [find_data] at h
  | cons n ns ih =>
    unfold find_data at h
    split at h
    · rename_i hd
      cases h
      exact ⟨0, n, rfl, by simp, hd, fun j2 c2 hj => absurd hj (Nat.not_lt_zero _)⟩
    · rename_i hd
      obtain ⟨j, c, rfl, hc, hcd, hmin⟩ := ih h
      refine ⟨j + 1, c, by omega, by simpa using hc, hcd, ?_⟩
      intro j2 c2 hj hc2
      cases j2 with
      | zero =>
        simp at hc2
        subst hc2
        exact hd
      | succ j2 => exact hmin j2 c2 (by omega) (by simpa using hc2)

theorem find_data_none {data : String} {ns : List Node} {k : ℕ}
    (h : find_data data ns k = none) : ∀ c ∈ ns, c.fields.m_data ≠ data := by
  induction ns generalizing k with
  | nil => simp
  | cons n ns ih =>
    unfold find_data at h
    split at h
    · exact absurd h (by simp)
    · rename_i hd
      intro c hc
      rcases List.mem_cons.1 hc with rfl | hc
      · exact hd
      · exact ih h c hc

theorem set_data_keeps_focus (data : String) {f : Fields} {ns : List Node}
    (hi : focus_ok f ns) : focus_ok (Menu_Select.set_data data f ns) ns := by
  unfold Menu_Select.set_data
  dsimp only
  split
  · rename_i i hi2
    obtain ⟨j, c, rfl, hc, -, -⟩ := find_data_some hi2
    have hj : j < ns.length := (List.getElem?_eq_some_iff.1 hc).1
    constructor <;> simp <;> omega
  · exact hi

theorem node_act_focus {fmt : ℚ → String} {inp : Input} {f : Fields} {ns : List Node}
    {r : Outcome} (hk : plain_menu f.kind) (h : Node.act fmt inp id (.mk f ns) = some r)
    (hi : focus_ok f ns) :
    focus_ok r.self r.nodes ∧ r.self.kind = f.kind := by
  rw [node_act_mk] at h
  have hc := keeps_length_act_at fmt ns
  rcases hk with hk | hk <;> cases inp <;> simp only [dispatch, hk, id] at h
  · exact ⟨(menu_up_focus hc h hi).1, (menu_up_focus hc h hi).2.1⟩
  · exact ⟨(menu_down_focus hc h hi).1, (menu_down_focus hc h hi).2.1⟩
  · exact ⟨(menu_press_focus hc h hi).1, (menu_press_focus hc h hi).2.1⟩
  · exact ⟨(menu_back_focus hc h hi).1, (menu_back_focus hc h hi).2.1⟩
  · exact ⟨(menu_up_focus hc h hi).1, (menu_up_focus hc h hi).2.1⟩
  · exact ⟨(menu_down_focus hc h hi).1, (menu_down_focus hc h hi).2.1⟩
  · exact ⟨(select_press_focus hc h hi).1, (select_press_focus hc h hi).2.1⟩
  · exact ⟨(select_back_focus hc h hi).1, (select_back_focus hc h hi).2.1⟩

theorem call_run_focus {fmt : ℚ → String} {atof : String → ℚ} {c : Call} {n s : Node}
    (hk : plain_menu n.fields.kind) (h : c.run fmt atof n = some s)
    (hi : focus_ok n.fields n.m_nodes) :
    plain_menu s.fields.kind ∧ focus_ok s.fields s.m_nodes := by
  obtain ⟨f, ns⟩ := n
  simp only [Node.fields, Node.m_nodes] at hk hi
  have key : ∀ inp, (Node.act fmt inp id (.mk f ns)).map Outcome.node = some s →
      plain_menu s.fields.kind ∧ focus_ok s.fields s.m_nodes := by
    intro inp h
    cases hr : Node.act fmt inp id (.mk f ns) with
    | none => simp [hr] at h
    | some r =>
      simp [hr] at h
      subst h
      obtain ⟨h1, h2⟩ := node_act_focus hk hr hi
      exact ⟨by simpa [Outcome.node, Node.fields, h2] using hk,
        by simpa [Outcome.node, Node.fields, Node.m_nodes] using h1⟩
  cases c with
  | take_node p =>
    simp only [Call.run, Menu.take_node, Option.some.injEq] at h
    subst h
    refine ⟨hk, ?_⟩
    simp only [Node.fields, Node.m_nodes, focus_ok, List.length_append, List.length_singleton]
    obtain ⟨h1, h2⟩ := hi
    constructor <;> omega
  | up => exact key .up h
  | down => exact key .down h
  | press => exact key .press h
  | back => exact key .back h
  | set_data d =>
    rcases hk with hk | hk <;> simp only [Call.run, Node.call_set_data, hk, Option.some.injEq] at h
      <;> subst h
    · exact ⟨Or.inl hk, hi⟩
    · refine ⟨Or.inr ?_, ?_⟩
      · simp only [Node.fields, Menu_Select.set_data, Node.set_data]
        split <;> exact hk
      · exact set_data_keeps_focus d hi

theorem run_calls_focus {fmt : ℚ → String} {atof : String → ℚ} {cs : List Call} {n s : Node}
    (hk : plain_menu n.fields.kind) (h : run_calls fmt atof cs n = some s)
    (hi : focus_ok n.fields n.m_nodes) :
    plain_menu s.fields.kind ∧ focus_ok s.fields s.m_nodes := by
  induction cs generalizing n with
  | nil =>
    simp only [run_calls, Option.some.injEq] at h
    subst h
    exact ⟨hk, hi⟩
  | cons c cs ih =>
    simp only [run_calls] at h
    split at h
    · exact absurd h (by simp)
    · rename_i n1 hn1
      obtain ⟨h1, h2⟩ := call_run_focus hk hn1 hi
      exact ih h1 h h2


/-- C1 (focus-index invariant).  Start from a freshly constructed `Menu`
(`is_select = false`) or `Menu_Select` (`is_select = true`) and make any
sequence `cs` of the calls `take_node`, `up`, `down`, `press`, `back` and
`set_data` that stays within defined behaviour (`run_calls` returns a state
`s`).  If `s` has at least one child, then `m_index` is a position of
`m_nodes`, and for a `Menu_Select` so is `m_last_pressed_index`. -/
theorem focus_index_invariant (fmt : ℚ → String) (atof : String → ℚ) (is_select : Bool)
    (rect : Rect) (cell_height : ℚ) (shift : Bool) (a : MenuArgs) (cs : List Call) (s : Node)
    (h : run_calls fmt atof cs
      (if is_select then Menu_Select.new rect cell_height shift a
       else Menu.new rect cell_height shift a) = some s)
    (hne : 0 < s.m_nodes.length) :
    s.fields.m_index < s.m_nodes.length ∧
      (is_select = true → s.fields.m_last_pressed_index < s.m_nodes.length) := by
  have h0 : plain_menu s.fields.kind ∧ focus_ok s.fields s.m_nodes := by
    cases is_select
    · exact run_calls_focus (n := Menu.new rect cell_height shift a) (Or.inl rfl) h
        ⟨Nat.zero_le _, Nat.zero_le _⟩
    · exact run_calls_focus (n := Menu_Select.new rect cell_height shift a) (Or.inr rfl) h
        ⟨Nat.zero_le _, Nat.zero_le _⟩
  obtain ⟨-, h1, h2⟩ := h0
  exact ⟨by omega, fun _ => by omega⟩

/-- The invariant of C1 at a selection menu with three children, opened and
moved up once. -/
theorem focus_index_invariant_witness :
    run_calls (fun _ => "") (fun _ => 0)
        [.take_node (Node.new ⟨"a", "1", none, none⟩),
         .take_node (Node.new ⟨"b", "2", none, none⟩),
         .take_node (Node.new ⟨"c", "3", none, none⟩),
         .press, .up]
        (if true then Menu_Select.new ⟨0, 0, 5, 5⟩ 1 false ⟨none, none, ⟨"", "", none, none⟩⟩
         else Menu.new ⟨0, 0, 5, 5⟩ 1 false ⟨none, none, ⟨"", "", none, none⟩⟩)
      = some select_abc_open ∧ 0 < select_abc_open.m_nodes.length ∧
      (select_abc_open.fields.m_index < select_abc_open.m_nodes.length ∧
        (true = true →
          select_abc_open.fields.m_last_pressed_index < select_abc_open.m_nodes.length)) :=
  ⟨rfl, by decide, focus_index_invariant (fun _ => "") (fun _ => 0) true ⟨0, 0, 5, 5⟩ 1 false
      ⟨none, none, ⟨"", "", none, none⟩⟩
      [.take_node (Node.new ⟨"a", "1", none, none⟩),
       .take_node (Node.new ⟨"b", "2", none, none⟩),
       .take_node (Node.new ⟨"c", "3", none, none⟩),
       .press, .up] select_abc_open rfl (by decide)⟩

/-- C2 (no out-of-range child access), evaluated at the failing input.  On a
`Menu_Select` to which no child was ever attached, `press()` followed by
`press()` reads `m_nodes[m_index]` in an empty vector: the model returns
`none`, for every constructor argument.  The same two calls on a `Menu`,
whose `press` tests `m_nodes.size() > 0` first, are defined. -/
theorem select_press_without_child (fmt : ℚ → String) (atof : String → ℚ) (rect : Rect)
    (cell_height : ℚ) (shift : Bool) (a : MenuArgs) :
    run_calls fmt atof [.press, .press] (Menu_Select.new rect cell_height shift a) = none ∧
      (run_calls fmt atof [.press, .press] (Menu.new rect cell_height shift a)).isSome
        = true := by
  constructor <;> rfl

theorem node_act_id_mk (fmt : ℚ → String) (inp : Input) (f : Fields) (ns : List Node) :
    Node.act fmt inp id (.mk f ns)
      = dispatch fmt (fun i j p => act_at fmt i p ns j) inp f ns := by
  rw [node_act_mk]
  rfl

theorem list_set_self {ns : List Node} {j : ℕ} {c : Node} (h : ns[j]? = some c) :
    ns.set j c = ns := by
  induction ns generalizing j with
  | nil => rfl
  | cons n ns ih =>
    cases j with
    | zero => simp at h; simp [h]
    | succ j => simp at h; simp [ih h]

theorem menu_up_unhandled {child : Child} {f : Fields} {ns : List Node} {r : Outcome}
    (h : Menu.up child f ns = some r) (hr : r.handled = false) :
    f.m_active = false ∧ r = ⟨f, ns, false, [], []⟩ := by
  unfold Menu.up at h
  split at h
  · split at h
    · split at h
      · exact absurd h (by simp)
      · split at h
        · split at h <;> cases h <;> simp at hr
        · cases h; simp at hr
    · cases h; simp at hr
  · rename_i ha
    cases h
    exact ⟨by simpa using ha, rfl⟩

theorem menu_down_unhandled {child : Child} {f : Fields} {ns : List Node} {r : Outcome}
    (h : Menu.down child f ns = some r) (hr : r.handled = false) :
    f.m_active = false ∧ r = ⟨f, ns, false, [], []⟩ := by
  unfold Menu.down at h
  split at h
  · split at h
    · split at h
      · exact absurd h (by simp)
      · split at h
        · split at h <;> cases h <;> simp at hr
        · cases h; simp at hr
    · cases h; simp at hr
  · rename_i ha
    cases h
    exact ⟨by simpa using ha, rfl⟩

theorem number_up_unhandled {fmt : ℚ → String} {f : Fields} {ns : List Node}
    {r : Outcome} (h : Menu_Number.up fmt f ns = some r) (hr : r.handled = false) :
    f.m_active = false ∧ r = ⟨f, ns, false, [], []⟩ := by
  unfold Menu_Number.up at h
  split at h
  · dsimp only at h
    split at h
    · exact absurd h (by simp)
    · cases h; simp at hr
  · rename_i ha
    cases h
    exact ⟨by simpa using ha, rfl⟩

theorem number_down_unhandled {fmt : ℚ → String} {f : Fields} {ns : List Node}
    {r : Outcome} (h : Menu_Number.down fmt f ns = some r) (hr : r.handled = false) :
    f.m_active = false ∧ r = ⟨f, ns, false, [], []⟩ := by
  unfold Menu_Number.down at h
  split at h
  · dsimp only at h
    split at h
    · exact absurd h (by simp)
    · cases h; simp at hr
  · rename_i ha
    cases h
    exact ⟨by simpa using ha, rfl⟩

/-- A node that does not handle `down()` is a plain `Node` or a menu that is
not active; the call leaves it as it is and issues nothing. -/
theorem node_down_unhandled {fmt : ℚ → String} {c : Node} {r : Outcome}
    (h : Node.down fmt c = some r) (hr : r.handled = false) :
    (c.fields.kind = .Node ∨ c.fields.m_active = false) ∧
      r = ⟨c.fields, c.m_nodes, false, [], []⟩ := by
  obtain ⟨f, ns⟩ := c
  unfold Node.down at h
  rw [node_act_id_mk] at h
  simp only [Node.fields, Node.m_nodes]
  cases hk : f.kind <;> simp only [dispatch, hk] at h
  · simp only [Node.ignore, Option.some.injEq] at h
    exact ⟨Or.inl rfl, h.symm⟩
  all_goals first
    | exact ⟨Or.inr (menu_down_unhandled h hr).1, (menu_down_unhandled h hr).2⟩
    | exact ⟨Or.inr (number_down_unhandled h hr).1, (number_down_unhandled h hr).2⟩

/-- A plain `Node` or a menu that is not active does not handle `up()` and
`down()`. -/
theorem node_act_passive (fmt : ℚ → String) {inp : Input} {c : Node}
    (hinp : inp = .up ∨ inp = .down)
    (h : c.fields.kind = .Node ∨ c.fields.m_active = false) :
    Node.act fmt inp id c = some ⟨c.fields, c.m_nodes, false, [], []⟩ := by
  obtain ⟨f, ns⟩ := c
  rw [node_act_id_mk]
  simp only [Node.fields, Node.m_nodes] at h ⊢
  rcases hinp with rfl | rfl <;> rcases h with h | h
  · simp [dispatch, h, Node.ignore]
  · cases hk : f.kind <;>
      simp [dispatch, hk, Node.ignore, Menu.up, Menu_Number.up, h]
  · simp [dispatch, h, Node.ignore]
  · cases hk : f.kind <;>
      simp [dispatch, hk, Node.ignore, Menu.down, Menu_Number.down, h]

theorem outcome_node_same (c : Node) :
    Outcome.node ⟨c.fields, c.m_nodes, false, [], []⟩ = c := by
  cases c; rfl

theorem menu_call_passive {fmt : ℚ → String} {inp : Input} {f : Fields} {ns : List Node}
    {c : Node} (hc : ns[f.m_index]? = some c)
    (hp : Node.act fmt inp id c = some ⟨c.fields, c.m_nodes, false, [], []⟩) :
    Menu.call (fun i j p => act_at fmt i p ns j) inp id f = some ⟨f, ns, false, [], []⟩ := by
  simp only [Menu.call, act_at_eq, hc, hp, outcome_node_same, list_set_self hc,
    recv_shifts_nil]

theorem dispatch_down_nav {fmt : ℚ → String} {child : Child} {f : Fields} {ns : List Node}
    (hk : inherits_navigation f.kind) :
    dispatch fmt child .down f ns = Menu.down child f ns := by
  rcases hk with hk | hk | hk | hk | hk <;> simp only [dispatch, hk]

theorem dispatch_up_nav {fmt : ℚ → String} {child : Child} {f : Fields} {ns : List Node}
    (hk : inherits_navigation f.kind) :
    dispatch fmt child .up f ns = Menu.up child f ns := by
  rcases hk with hk | hk | hk | hk | hk <;> simp only [dispatch, hk]

theorem menu_down_passive {child : Child} {f : Fields} {ns : List Node}
    (ha : f.m_active = true) (hi : f.m_index < ns.length)
    (hcall : Menu.call child .down id f = some ⟨f, ns, false, [], []⟩) :
    Menu.down child f ns
      = some ⟨{ f with m_index := (f.m_index + 1) % ns.length }, ns, true, [], []⟩ := by
  have hpos : ns.length > 0 := by omega
  unfold Menu.down
  rw [if_pos ha, if_pos hpos, hcall]
  simp only [Bool.not_false, if_true]
  split
  · rename_i h
    rw [Nat.mod_eq_of_lt (by omega)]
  · rename_i h
    have : f.m_index + 1 = ns.length := by omega
    rw [this, Nat.mod_self]

theorem menu_up_passive {child : Child} {f : Fields} {ns : List Node}
    (ha : f.m_active = true) (hi : f.m_index < ns.length)
    (hcall : Menu.call child .up id f = some ⟨f, ns, false, [], []⟩) :
    Menu.up child f ns
      = some ⟨{ f with m_index := (f.m_index + (ns.length - 1)) % ns.length }, ns, true, [],
          []⟩ := by
  have hpos : ns.length > 0 := by omega
  unfold Menu.up
  rw [if_pos ha, if_pos hpos, hcall]
  simp only [Bool.not_false, if_true]
  split
  · rename_i h
    have : f.m_index + (ns.length - 1) = (f.m_index - 1) + ns.length := by omega
    rw [this, Nat.add_mod_right, Nat.mod_eq_of_lt (by omega)]
  · rename_i h
    have : f.m_index = 0 := by omega
    rw [this, Nat.zero_add, Nat.mod_eq_of_lt (by omega)]

theorem menu_down_step {fmt : ℚ → String} {f : Fields} {ns : List Node}
    (hk : inherits_navigation f.kind) (ha : f.m_active = true) (hi : f.m_index < ns.length)
    (hc : ∀ c ∈ ns, ∃ r, Node.down fmt c = some r ∧ r.handled = false) :
    Node.act fmt .down id (.mk f ns)
      = some ⟨{ f with m_index := (f.m_index + 1) % ns.length }, ns, true, [], []⟩ := by
  have hget : ns[f.m_index]? = some ns[f.m_index] := List.getElem?_eq_getElem hi
  obtain ⟨r, hr, hr2⟩ := hc _ (List.getElem?_mem hget)
  have hp := node_act_passive fmt (Or.inr rfl) (node_down_unhandled hr hr2).1
  rw [node_act_id_mk, dispatch_down_nav hk]
  exact menu_down_passive ha hi (menu_call_passive hget hp)

theorem menu_up_step {fmt : ℚ → String} {f : Fields} {ns : List Node}
    (hk : inherits_navigation f.kind) (ha : f.m_active = true) (hi : f.m_index < ns.length)
    (hc : ∀ c ∈ ns, ∃ r, Node.down fmt c = some r ∧ r.handled = false) :
    Node.act fmt .up id (.mk f ns)
      = some ⟨{ f with m_index := (f.m_index + (ns.length - 1)) % ns.length }, ns, true, [],
          []⟩ := by
  have hget : ns[f.m_index]? = some ns[f.m_index] := List.getElem?_eq_getElem hi
  obtain ⟨r, hr, hr2⟩ := hc _ (List.getElem?_mem hget)
  have hp := node_act_passive fmt (Or.inl rfl) (node_down_unhandled hr hr2).1
  rw [node_act_id_mk, dispatch_up_nav hk]
  exact menu_up_passive ha hi (menu_call_passive hget hp)

theorem repeat_down {fmt : ℚ → String} {ns : List Node}
    (hc : ∀ c ∈ ns, ∃ r, Node.down fmt c = some r ∧ r.handled = false) (k : ℕ) :
    ∀ f : Fields, inherits_navigation f.kind → f.m_active = true → f.m_index < ns.length →
      repeat_input fmt .down k (.mk f ns)
        = some (.mk { f with m_index := (f.m_index + k) % ns.length } ns,
            List.replicate k true) := by
  induction k with
  | zero =>
    intro f _ _ hi
    simp only [repeat_input, Nat.add_zero, Nat.mod_eq_of_lt hi, List.replicate_zero]
  | succ k ih =>
    intro f hk ha hi
    have hpos : 0 < ns.length := by omega
    simp only [repeat_input, menu_down_step hk ha hi hc, Outcome.node]
    rw [ih { f with m_index := (f.m_index + 1) % ns.length } hk ha (Nat.mod_lt _ hpos)]
    simp only [List.replicate_succ, Nat.mod_add_mod]
    rw [show f.m_index + 1 + k = f.m_index + (k + 1) by omega]

theorem repeat_up {fmt : ℚ → String} {ns : List Node}
    (hc : ∀ c ∈ ns, ∃ r, Node.down fmt c = some r ∧ r.handled = false) (k : ℕ) :
    ∀ f : Fields, inherits_navigation f.kind → f.m_active = true → f.m_index < ns.length →
      repeat_input fmt .up k (.mk f ns)
        = some (.mk { f with m_index := (f.m_index + k * (ns.length - 1)) % ns.length } ns,
            List.replicate k true) := by
  induction k with
  | zero =>
    intro f _ _ hi
    simp only [repeat_input, Nat.zero_mul, Nat.add_zero, Nat.mod_eq_of_lt hi,
      List.replicate_zero]
  | succ k ih =>
    intro f hk ha hi
    have hpos : 0 < ns.length := by omega
    simp only [repeat_input, menu_up_step hk ha hi hc, Outcome.node]
    rw [ih { f with m_index := (f.m_index + (ns.length - 1)) % ns.length } hk ha
      (Nat.mod_lt _ hpos)]
    simp only [List.replicate_succ, Nat.mod_add_mod]
    rw [show f.m_index + (ns.length - 1) + k * (ns.length - 1)
      = f.m_index + (k + 1) * (ns.length - 1) by ring]

/-- C3 (circular navigation).  Let an active menu of a class that inherits
`Menu::up` and `Menu::down` have children `ns`, none of which handles
`down()`, and a focus `m_index` that is a position of `ns` (so there is at
least one child).  Then `k` calls of `down()` all return `true` and leave the
focus at `(m_index + k) mod n`; `k` calls of `up()` all return `true` and
leave it at `(m_index - k) mod n` (integer remainder in `[0, n)`); and
`down()` followed by `up()` restores the focus, where `n = ns.length`. -/
theorem circular_navigation (fmt : ℚ → String) (f : Fields) (ns : List Node)
    (hk : inherits_navigation f.kind) (ha : f.m_active = true) (hi : f.m_index < ns.length)
    (hc : ∀ c ∈ ns, ∃ r, Node.down fmt c = some r ∧ r.handled = false) (k : ℕ) :
    (∃ m, repeat_input fmt .down k (.mk f ns) = some (m, List.replicate k true) ∧
        m.fields.m_index = (f.m_index + k) % ns.length) ∧
    (∃ m, repeat_input fmt .up k (.mk f ns) = some (m, List.replicate k true) ∧
        (m.fields.m_index : ℤ) = ((f.m_index : ℤ) - (k : ℤ)) % (ns.length : ℤ)) ∧
    (∃ r1 r2, Node.down fmt (.mk f ns) = some r1 ∧ r1.handled = true ∧
        Node.up fmt r1.node = some r2 ∧ r2.handled = true ∧
        r2.self.m_index = f.m_index) := by
  have hpos : 0 < ns.length := by omega
  refine ⟨⟨_, repeat_down hc k f hk ha hi, rfl⟩, ⟨_, repeat_up hc k f hk ha hi, ?_⟩, ?_⟩
  · have h1 : 1 ≤ ns.length := hpos
    have h2 : ((f.m_index + k * (ns.length - 1) : ℕ) : ℤ)
        = (f.m_index : ℤ) - (k : ℤ) + (k : ℤ) * (ns.length : ℤ) := by
      push_cast [Nat.cast_sub h1]
      ring
    simp only [Node.fields]
    rw [Int.natCast_mod, h2, Int.add_mul_emod_self]
  · have h1 := menu_down_step hk ha hi hc
    have h2 := menu_up_step (f := { f with m_index := (f.m_index + 1) % ns.length }) hk ha
      (Nat.mod_lt _ hpos) hc
    have h3 : ((f.m_index + 1) % ns.length + (ns.length - 1)) % ns.length = f.m_index := by
      rw [Nat.mod_add_mod,
        show f.m_index + 1 + (ns.length - 1) = f.m_index + ns.length by omega,
        Nat.add_mod_right, Nat.mod_eq_of_lt hi]
    exact ⟨_, _, h1, rfl, h2, rfl, h3⟩

/-- Circular navigation at the open menu `select_abc_open`, seven steps. -/
theorem circular_navigation_witness :
    (∃ m, repeat_input (fun _ => "") .down 7 select_abc_open
          = some (m, List.replicate 7 true) ∧
        m.fields.m_index = (2 + 7) % 3) ∧
    (∃ m, repeat_input (fun _ => "") .up 7 select_abc_open
          = some (m, List.replicate 7 true) ∧
        (m.fields.m_index : ℤ) = (((2 : ℕ) : ℤ) - ((7 : ℕ) : ℤ)) % ((3 : ℕ) : ℤ)) ∧
    (∃ r1 r2, Node.down (fun _ => "") select_abc_open = some r1 ∧ r1.handled = true ∧
        Node.up (fun _ => "") r1.node = some r2 ∧ r2.handled = true ∧
        r2.self.m_index = 2) :=
  circular_navigation (fun _ => "") select_abc_open.fields select_abc_open.m_nodes
    (Or.inr (Or.inl rfl)) rfl (by decide)
    (fun c hc => by
      have h3 : c ∈ select_abc.m_nodes := hc
      simp only [select_abc, Menu.take_node, Menu_Select.new, Menu.new, Node.new,
        Node.map_fields, Node.m_nodes, List.nil_append, List.cons_append, List.mem_cons,
        List.mem_singleton, List.not_mem_nil, or_false] at h3
      rcases h3 with rfl | rfl | rfl <;> exact ⟨_, rfl, rfl⟩) 7

theorem menu_back_unhandled {child : Child} {pre : Fields → Fields} {f : Fields}
    {ns : List Node} {r : Outcome}
    (h : Menu.back child pre f ns = some r) (hr : r.handled = false) :
    f.m_active = false ∧ r = ⟨f, ns, false, [], []⟩ := by
  unfold Menu.back at h
  split at h
  · split at h
    · split at h
      · exact absurd h (by simp)
      · split at h
        · split at h <;> cases h <;> simp at hr
        · cases h; simp at hr
    · cases h; simp at hr
  · rename_i ha
    cases h
    exact ⟨by simpa using ha, rfl⟩

/-- A node that does not handle `back()` issues no call of `shift` and runs no
callback. -/
theorem node_back_unhandled {fmt : ℚ → String} {c : Node} {r : Outcome}
    (h : Node.back fmt c = some r) (hr : r.handled = false) :
    (c.fields.kind = .Node ∨ c.fields.m_active = false) ∧ r.shifts = [] ∧ r.actions = [] := by
  obtain ⟨f, ns⟩ := c
  unfold Node.back at h
  rw [node_act_id_mk] at h
  simp only [Node.fields]
  cases hk : f.kind <;> simp only [dispatch, hk] at h
  · simp only [Node.ignore, Option.some.injEq] at h
    subst h
    exact ⟨Or.inl rfl, rfl, rfl⟩
  · obtain ⟨h1, rfl⟩ := menu_back_unhandled h hr
    exact ⟨Or.inr h1, rfl, rfl⟩
  · obtain ⟨h1, rfl⟩ := menu_back_unhandled h hr
    exact ⟨Or.inr h1, rfl, rfl⟩
  · obtain ⟨h1, rfl⟩ := menu_back_unhandled h hr
    exact ⟨Or.inr h1, rfl, rfl⟩
  · obtain ⟨h1, rfl⟩ := menu_back_unhandled h hr
    exact ⟨Or.inr h1, rfl, rfl⟩
  · unfold Menu_Number.back at h
    dsimp only at h
    split at h
    · exact absurd h (by simp)
    · obtain ⟨h1, rfl⟩ := menu_back_unhandled h hr
      exact ⟨Or.inr h1, rfl, rfl⟩
  · unfold Menu_Number.back at h
    dsimp only at h
    split at h
    · exact absurd h (by simp)
    · obtain ⟨h1, rfl⟩ := menu_back_unhandled h hr
      exact ⟨Or.inr h1, rfl, rfl⟩
  · unfold Menu_Text.back at h
    dsimp only at h
    split at h
    · exact absurd h (by simp)
    · obtain ⟨h1, rfl⟩ := menu_back_unhandled h hr
      exact ⟨Or.inr h1, rfl, rfl⟩

/-- `Menu::back` on an active menu with a parent whose focused child does not
handle `back()`: the menu collapses. -/
theorem menu_back_collapse {child : Child} {pre : Fields → Fields} {f : Fields}
    {ns : List Node} {q : Reply} (ha : f.m_active = true) (hp : f.mp_parent = true)
    (hn : 0 < ns.length) (hq : child .back f.m_index pre = some q)
    (hq1 : q.handled = false) (hq2 : q.shifts = []) :
    Menu.back child pre f ns
      = some ⟨{ f with m_active := false, m_target_x := f.m_rect.width, m_target_alpha := 0 },
          q.nodes, true, if f.m_shift then [false] else [], q.actions⟩ := by
  have hn2 : ns.length > 0 := hn
  unfold Menu.back Menu.call
  rw [if_pos ha, if_pos hn2, hq]
  simp only [hq1, hq2, recv_shifts_nil, Bool.not_false, if_true, hp, List.nil_append]

/-- The call `m_nodes[j]->back()` on a child that does not handle it. -/
theorem act_at_back_unhandled {fmt : ℚ → String} {ns : List Node} {j : ℕ} {c : Node}
    {rb : Outcome} (hc : ns[j]? = some c) (hb : Node.back fmt c = some rb)
    (hb2 : rb.handled = false) :
    act_at fmt .back id ns j = some ⟨ns.set j rb.node, false, [], []⟩ := by
  have hb3 : Node.act fmt .back id c = some rb := hb
  rw [act_at_eq]
  simp only [hc, hb3, hb2, (node_back_unhandled hb hb2).2.1, (node_back_unhandled hb hb2).2.2]

theorem select_press_active {child : Child} {f : Fields} {ns : List Node} {c : Node}
    (ha : f.m_active = true) (hc : ns[f.m_index]? = some c) :
    Menu_Select.press child f ns
      = match Menu_Select.back child
          { f with m_data := c.fields.m_data, m_last_pressed_index := f.m_index } ns with
        | none => none
        | some r =>
          some { r with self := { r.self with m_target_x := -r.self.m_rect.width,
                                              m_target_alpha := 0 },
                        handled := true, actions := run_action f.mfp_action c ++ r.actions } := by
  unfold Menu_Select.press
  rw [if_pos ha]
  simp only [hc]

theorem select_back_collapse {fmt : ℚ → String} {f : Fields} {ns : List Node} {c : Node}
    {rb : Outcome} (ha : f.m_active = true) (hp : f.mp_parent = true)
    (hc : ns[f.m_last_pressed_index]? = some c) (hb : Node.back fmt c = some rb)
    (hb2 : rb.handled = false) :
    Menu_Select.back (fun i j p => act_at fmt i p ns j) f ns
      = some ⟨{ f with m_index := f.m_last_pressed_index, m_active := false,
                       m_target_x := f.m_rect.width, m_target_alpha := 0 },
          ns.set f.m_last_pressed_index rb.node, true, if f.m_shift then [false] else [],
          []⟩ := by
  have hn : 0 < ns.length := by
    have := (List.getElem?_eq_some_iff.1 hc).1
    omega
  exact menu_back_collapse (f := { f with m_index := f.m_last_pressed_index })
    (q := ⟨ns.set f.m_last_pressed_index rb.node, false, [], []⟩) ha hp hn
    (act_at_back_unhandled hc hb hb2) rfl rfl

theorem select_press_confirm {fmt : ℚ → String} {f : Fields} {ns : List Node} {c : Node}
    {rb : Outcome} (ha : f.m_active = true) (hp : f.mp_parent = true)
    (hc : ns[f.m_index]? = some c) (hb : Node.back fmt c = some rb)
    (hb2 : rb.handled = false) :
    Menu_Select.press (fun i j p => act_at fmt i p ns j) f ns
      = some ⟨{ f with m_data := c.fields.m_data, m_last_pressed_index := f.m_index,
                       m_active := false, m_target_x := -f.m_rect.width,
                       m_target_alpha := 0 },
          ns.set f.m_index rb.node, true, if f.m_shift then [false] else [],
          run_action f.mfp_action c⟩ := by
  rw [select_press_active ha hc,
    select_back_collapse
      (f := { f with m_data := c.fields.m_data, m_last_pressed_index := f.m_index })
      ha hp hc hb hb2]
  simp only [List.append_nil]

/-- C4 (selection confirm), as amended: the focused child must not consume
`back()`.  Let an active selection menu (`Menu_Select`, `Menu_Bool` or
`Menu_Bool_Display`) with a parent have the child `c` at its focus, and let
`c.back()` return `false`.  Then `press()` is defined and returns `true`, the
own payload becomes the payload of `c`, `m_last_pressed_index` becomes
`m_index`, `m_index` is unchanged, the menu is collapsed, the targets are
`m_target_x = -m_rect.width` and `m_target_alpha = 0`, and the commit callback,
when there is one, runs exactly once, with `c` as its argument. -/
theorem select_confirm (fmt : ℚ → String) (f : Fields) (ns : List Node) (c : Node)
    (rb : Outcome) (hk : is_select f.kind) (ha : f.m_active = true)
    (hp : f.mp_parent = true) (hc : ns[f.m_index]? = some c)
    (hb : Node.back fmt c = some rb) (hb2 : rb.handled = false) :
    ∃ r, Node.press fmt (.mk f ns) = some r ∧
      r.self.m_data = c.fields.m_data ∧
      r.self.m_last_pressed_index = f.m_index ∧
      r.self.m_index = f.m_index ∧
      r.self.m_active = false ∧
      r.self.m_target_x = -f.m_rect.width ∧
      r.self.m_target_alpha = 0 ∧
      r.handled = true ∧
      r.actions = (match f.mfp_action with
        | some fp => [⟨fp, c⟩]
        | none => []) := by
  have key := select_press_confirm ha hp hc hb hb2
  have hact : run_action f.mfp_action c = (match f.mfp_action with
      | some fp => [⟨fp, c⟩]
      | none => []) := rfl
  unfold Node.press
  rw [node_act_id_mk]
  rcases hk with hk | hk | hk
  · simp only [dispatch, hk]
    exact ⟨_, key, rfl, rfl, rfl, rfl, rfl, rfl, rfl, hact⟩
  · simp only [dispatch, hk]
    exact ⟨_, key, rfl, rfl, rfl, rfl, rfl, rfl, rfl, hact⟩
  · have hi : f.m_index < ns.length := (List.getElem?_eq_some_iff.1 hc).1
    have hget : (ns.set f.m_index rb.node)[f.m_index]? = some rb.node := by
      simp [hi]
    simp only [dispatch, hk, Menu_Bool_Display.press, key, hget]
    exact ⟨_, rfl, rfl, rfl, rfl, rfl, rfl, rfl, rfl, hact⟩

/-- Selection confirm at `select_abc_owned`, whose focused child is a plain
`Node` with payload "2". -/
theorem select_confirm_witness :
    is_select select_abc_owned.fields.kind ∧ select_abc_owned.fields.m_active = true ∧
    select_abc_owned.fields.mp_parent = true ∧
    ∃ r, Node.press (fun _ => "") (.mk select_abc_owned.fields select_abc_owned.m_nodes)
        = some r ∧
      r.self.m_data = "2" ∧
      r.self.m_last_pressed_index = 1 ∧
      r.self.m_index = 1 ∧
      r.self.m_active = false ∧
      r.self.m_target_x = -select_abc_owned.fields.m_rect.width ∧
      r.self.m_target_alpha = 0 ∧
      r.handled = true ∧
      r.actions = (match select_abc_owned.fields.mfp_action with
        | some fp => [⟨fp, (Node.new ⟨"b", "2", none, none⟩).map_fields
            fun g => { g with mp_parent := true }⟩]
        | none => []) :=
  ⟨Or.inl rfl, rfl, rfl,
    select_confirm (fun _ => "") select_abc_owned.fields select_abc_owned.m_nodes
      ((Node.new ⟨"b", "2", none, none⟩).map_fields fun g => { g with mp_parent := true })
      ⟨{ (Node.new ⟨"b", "2", none, none⟩).fields with mp_parent := true }, [], false, [], []⟩
      (Or.inl rfl) rfl rfl rfl rfl rfl⟩

/-- C4 as stated fails.  `submenu_open` is a `Menu` after its own `press()`;
`select_with_open_child` is what `take_node(submenu_open)` and `press()` make
of a `Menu_Select` that has a parent: an active `Menu_Select` with a parent
and one child.  Its `press()` returns `true` and leaves it active, because the
focused child consumes the `back()` that `Menu_Select::press` issues. -/
theorem press_with_open_child_stays_active :
    (Node.press (fun _ => "") (Menu.new ⟨0, 0, 5, 5⟩ 1 false no_args)).map Outcome.node
        = some submenu_open ∧
    run_calls (fun _ => "") (fun _ => 0) [.take_node submenu_open, .press] select_owned
        = some select_with_open_child ∧
    select_with_open_child.fields.kind = .Menu_Select ∧
    select_with_open_child.fields.m_active = true ∧
    select_with_open_child.fields.mp_parent = true ∧
    select_with_open_child.m_nodes.length = 1 ∧
    (Node.press (fun _ => "") select_with_open_child).map
        (fun r => (r.handled, r.self.m_active)) = some (true, true) :=
  ⟨rfl, rfl, rfl, rfl, rfl, rfl, rfl⟩

theorem is_select_inherits {k : Kind} (h : is_select k) : inherits_navigation k := by
  rcases h with h | h | h
  · exact Or.inr (Or.inl h)
  · exact Or.inr (Or.inr (Or.inl h))
  · exact Or.inr (Or.inr (Or.inr (Or.inl h)))

theorem dispatch_back_select {fmt : ℚ → String} {child : Child} {f : Fields} {ns : List Node}
    (hk : is_select f.kind) :
    dispatch fmt child .back f ns = Menu_Select.back child f ns := by
  rcases hk with hk | hk | hk <;> simp only [dispatch, hk]

/-- Navigation by `up()` and `down()` in an active menu whose children do not
handle them only moves the focus, to a position of the vector. -/
theorem navigate_moves {fmt : ℚ → String} {ns : List Node}
    (hc : ∀ c ∈ ns, ∃ r, Node.down fmt c = some r ∧ r.handled = false)
    (moves : List Input) (hm : ∀ inp ∈ moves, inp = .up ∨ inp = .down) :
    ∀ f : Fields, inherits_navigation f.kind → f.m_active = true → f.m_index < ns.length →
      ∃ j, j < ns.length ∧
        navigate fmt moves (.mk f ns) = some (.mk { f with m_index := j } ns) := by
  induction moves with
  | nil =>
    intro f _ _ hi
    exact ⟨f.m_index, hi, rfl⟩
  | cons inp rest ih =>
    intro f hk ha hi
    have hpos : 0 < ns.length := by omega
    have hrest : ∀ i ∈ rest, i = .up ∨ i = .down :=
      fun i h => hm i (List.mem_cons_of_mem _ h)
    rcases hm inp (List.mem_cons_self _ _) with rfl | rfl
    · obtain ⟨j, hj, hnav⟩ :=
        ih hrest { f with m_index := (f.m_index + (ns.length - 1)) % ns.length } hk ha
          (Nat.mod_lt _ hpos)
      refine ⟨j, hj, ?_⟩
      simp only [navigate, menu_up_step hk ha hi hc, Outcome.node]
      exact hnav
    · obtain ⟨j, hj, hnav⟩ :=
        ih hrest { f with m_index := (f.m_index + 1) % ns.length } hk ha (Nat.mod_lt _ hpos)
      refine ⟨j, hj, ?_⟩
      simp only [navigate, menu_down_step hk ha hi hc, Outcome.node]
      exact hnav

/-- C5 (selection cancel restores focus), as amended: the menu has at least
one child.  Let an active selection menu with a parent have a focus and a
last pressed position that are positions of its children `ns`, none of which
consumes `up()`, `down()` or `back()`.  After any sequence `moves` of `up()`
and `down()` calls, `back()` is defined and returns `true`, the focus equals
`m_last_pressed_index`, the menu is collapsed and the own payload is
unchanged. -/
theorem select_cancel (fmt : ℚ → String) (f : Fields) (ns : List Node) (moves : List Input)
    (hk : is_select f.kind) (ha : f.m_active = true) (hp : f.mp_parent = true)
    (hi : f.m_index < ns.length) (hl : f.m_last_pressed_index < ns.length)
    (hm : ∀ inp ∈ moves, inp = .up ∨ inp = .down)
    (hc : ∀ c ∈ ns, ignores_input fmt c) :
    ∃ n r, navigate fmt moves (.mk f ns) = some n ∧ Node.back fmt n = some r ∧
      r.self.m_index = f.m_last_pressed_index ∧
      r.self.m_active = false ∧
      r.self.m_data = f.m_data ∧
      r.handled = true := by
  have hdown : ∀ c ∈ ns, ∃ r, Node.down fmt c = some r ∧ r.handled = false :=
    fun c h => hc c h .down (by decide)
  obtain ⟨j, -, hnav⟩ := navigate_moves hdown moves hm f (is_select_inherits hk) ha hi
  have hget : ns[f.m_last_pressed_index]? = some ns[f.m_last_pressed_index] :=
    List.getElem?_eq_getElem hl
  obtain ⟨rb, hb, hb2⟩ := hc _ (List.getElem?_mem hget) .back (by decide)
  have hback := select_back_collapse (f := { f with m_index := j }) ha hp hget hb hb2
  have hfin : Node.back fmt (.mk { f with m_index := j } ns)
      = Menu_Select.back (fun i j p => act_at fmt i p ns j) { f with m_index := j } ns := by
    unfold Node.back
    rw [node_act_id_mk, dispatch_back_select (f := { f with m_index := j }) hk]
  exact ⟨_, _, hnav, hfin.trans hback, rfl, rfl, rfl, rfl⟩

/-- Selection cancel at `select_abc_owned` after `down()` twice. -/
theorem select_cancel_witness :
    ∃ n r, navigate (fun _ => "") [.down, .down]
          (.mk select_abc_owned.fields select_abc_owned.m_nodes) = some n ∧
      Node.back (fun _ => "") n = some r ∧
      r.self.m_index = 0 ∧
      r.self.m_active = false ∧
      r.self.m_data = "" ∧
      r.handled = true :=
  select_cancel (fun _ => "") select_abc_owned.fields select_abc_owned.m_nodes [.down, .down]
    (Or.inl rfl) rfl rfl (by decide) (by decide) (by decide)
    (fun c hc inp hinp => by
      have h3 : c ∈ select_abc.m_nodes := hc
      simp only [select_abc, Menu.take_node, Menu_Select.new, Menu.new, Node.new,
        Node.map_fields, Node.m_nodes, List.nil_append, List.cons_append, List.mem_cons,
        List.mem_singleton, List.not_mem_nil, or_false] at h3
      rcases h3 with rfl | rfl | rfl <;> cases inp <;>
        first
          | exact absurd rfl hinp
          | exact ⟨_, rfl, rfl⟩)

/-- C5 as stated fails.  `select_empty_open` is what `press()` makes of a
`Menu_Select` that has a parent and no child: an active `Menu_Select` with a
parent, all of whose (zero) children ignore input.  Its `back()` returns
`true` and leaves it active: `Menu::back` collapses only inside the test
`m_nodes.size() > 0`. -/
theorem back_without_child_stays_active :
    run_calls (fun _ => "") (fun _ => 0) [.press] select_owned = some select_empty_open ∧
    select_empty_open.fields.kind = .Menu_Select ∧
    select_empty_open.fields.m_active = true ∧
    select_empty_open.fields.mp_parent = true ∧
    select_empty_open.m_nodes = [] ∧
    (Node.back (fun _ => "") select_empty_open).map
        (fun r => (r.handled, r.self.m_active)) = some (true, true) :=
  ⟨rfl, rfl, rfl, rfl, rfl, rfl⟩

/-- C6 (selection external set).  `Menu_Select::set_data(data)` sets the own
payload to `data`; if some child has payload `data`, then `m_index` and
`m_last_pressed_index` both become the position of the first such child; if
no child has payload `data`, both are unchanged. -/
theorem select_set_data (data : String) (f : Fields) (ns : List Node) :
    (Menu_Select.set_data data f ns).m_data = data ∧
    ((∃ c ∈ ns, c.fields.m_data = data) →
      ∃ i, first_with_data data ns i ∧
        (Menu_Select.set_data data f ns).m_index = i ∧
        (Menu_Select.set_data data f ns).m_last_pressed_index = i) ∧
    ((∀ c ∈ ns, c.fields.m_data ≠ data) →
      (Menu_Select.set_data data f ns).m_index = f.m_index ∧
      (Menu_Select.set_data data f ns).m_last_pressed_index = f.m_last_pressed_index) := by
  unfold Menu_Select.set_data
  dsimp only
  cases h : find_data data ns 0 with
  | none =>
    refine ⟨rfl, ?_, fun _ => ⟨rfl, rfl⟩⟩
    rintro ⟨c, hc, hd⟩
    exact absurd hd (find_data_none h c hc)
  | some i =>
    obtain ⟨j, c, hij, hc, hd, hmin⟩ := find_data_some h
    have hij2 : i = j := by omega
    subst hij2
    refine ⟨rfl, fun _ => ⟨i, ⟨⟨c, hc, hd⟩, hmin⟩, rfl, rfl⟩, ?_⟩
    intro hall
    exact absurd hd (hall c (List.getElem?_mem hc))

/-- The external set of C6 on `select_abc`: payload "2" is first found at
position 1, payload "9" is nowhere. -/
theorem select_set_data_witness :
    (∃ i, first_with_data "2" select_abc.m_nodes i ∧
        (Menu_Select.set_data "2" select_abc.fields select_abc.m_nodes).m_index = i ∧
        (Menu_Select.set_data "2" select_abc.fields select_abc.m_nodes).m_last_pressed_index
          = i) ∧
    (Menu_Select.set_data "2" select_abc.fields select_abc.m_nodes).m_index = 1 ∧
    ((Menu_Select.set_data "9" select_abc.fields select_abc.m_nodes).m_index
        = select_abc.fields.m_index ∧
      (Menu_Select.set_data "9" select_abc.fields select_abc.m_nodes).m_last_pressed_index
        = select_abc.fields.m_last_pressed_index) :=
  ⟨(select_set_data "2" select_abc.fields select_abc.m_nodes).2.1
      ⟨_, List.mem_cons_of_mem _ (List.mem_cons_self _ _), rfl⟩,
    by decide,
    (select_set_data "9" select_abc.fields select_abc.m_nodes).2.2 (fun c hc => by
      have h3 : c ∈ select_abc.m_nodes := hc
      simp only [select_abc, Menu.take_node, Menu_Select.new, Menu.new, Node.new,
        Node.map_fields, Node.m_nodes, List.nil_append, List.cons_append, List.mem_cons,
        List.mem_singleton, List.not_mem_nil, or_false] at h3
      rcases h3 with rfl | rfl | rfl <;> decide)⟩

theorem with_child_some {ns : List Node} {i : ℕ} {c : Node} (pre : Fields → Fields)
    (hc : ns[i]? = some c) : with_child ns i pre = some (ns.set i (c.map_fields pre)) := by
  simp only [with_child, hc]

theorem dispatch_up_number {fmt : ℚ → String} {child : Child} {f : Fields} {ns : List Node}
    (hk : is_number f.kind) : dispatch fmt child .up f ns = Menu_Number.up fmt f ns := by
  rcases hk with hk | hk <;> simp only [dispatch, hk]

theorem dispatch_down_number {fmt : ℚ → String} {child : Child} {f : Fields} {ns : List Node}
    (hk : is_number f.kind) : dispatch fmt child .down f ns = Menu_Number.down fmt f ns := by
  rcases hk with hk | hk <;> simp only [dispatch, hk]

theorem number_up_step {fmt : ℚ → String} {f : Fields} {ns : List Node} {c : Node}
    (hk : is_number f.kind) (ha : f.m_active = true) (hc : ns[f.m_index]? = some c) :
    Node.act fmt .up id (.mk f ns)
      = some ⟨{ f with m_num := Menu_Number.up_value f.m_num f.m_max f.m_interval },
          ns.set f.m_index (c.map_fields
            (stamp (fmt (Menu_Number.up_value f.m_num f.m_max f.m_interval))
              (fmt (Menu_Number.up_value f.m_num f.m_max f.m_interval)))),
          true, [], []⟩ := by
  rw [node_act_id_mk, dispatch_up_number hk]
  unfold Menu_Number.up
  rw [if_pos ha]
  simp only [with_child_some _ hc]

theorem number_down_step {fmt : ℚ → String} {f : Fields} {ns : List Node} {c : Node}
    (hk : is_number f.kind) (ha : f.m_active = true) (hc : ns[f.m_index]? = some c) :
    Node.act fmt .down id (.mk f ns)
      = some ⟨{ f with m_num := Menu_Number.down_value f.m_num f.m_min f.m_interval },
          ns.set f.m_index (c.map_fields
            (stamp (fmt (Menu_Number.down_value f.m_num f.m_min f.m_interval))
              (fmt (Menu_Number.down_value f.m_num f.m_min f.m_interval)))),
          true, [], []⟩ := by
  rw [node_act_id_mk, dispatch_down_number hk]
  unfold Menu_Number.down
  rw [if_pos ha]
  simp only [with_child_some _ hc]

theorem getElem?_set_same {ns : List Node} {i : ℕ} {c d : Node} (hc : ns[i]? = some c) :
    (ns.set i d)[i]? = some d := by
  have hi : i < ns.length := (List.getElem?_eq_some_iff.1 hc).1
  simp [hi]

theorem number_repeat_up {fmt : ℚ → String} (k : ℕ) :
    ∀ (f : Fields) (ns : List Node) (c : Node), is_number f.kind → f.m_active = true →
      ns[f.m_index]? = some c →
      ∃ ns1, repeat_input fmt .up k (.mk f ns)
        = some (.mk { f with m_num :=
              (fun v => Menu_Number.up_value v f.m_max f.m_interval)^[k] f.m_num } ns1,
            List.replicate k true) := by
  induction k with
  | zero =>
    intro f ns c _ _ _
    exact ⟨ns, rfl⟩
  | succ k ih =>
    intro f ns c hk ha hc
    obtain ⟨ns1, h1⟩ := ih { f with m_num := Menu_Number.up_value f.m_num f.m_max f.m_interval }
      _ _ hk ha (getElem?_set_same (d := c.map_fields
        (stamp (fmt (Menu_Number.up_value f.m_num f.m_max f.m_interval))
          (fmt (Menu_Number.up_value f.m_num f.m_max f.m_interval)))) hc)
    refine ⟨ns1, ?_⟩
    simp only [repeat_input, number_up_step hk ha hc, Outcome.node]
    rw [h1]
    rfl

/-- The first `press()` on a constructed `Menu_Number` opens it. -/
theorem number_press_new (fmt : ℚ → String) (w h start mn mx iv : ℚ) (a : MenuArgs) :
    Node.press fmt (Menu_Number.new fmt w h start mn mx iv a)
      = some ⟨(opened (Menu_Number.new fmt w h start mn mx iv a)).fields,
          (opened (Menu_Number.new fmt w h start mn mx iv a)).m_nodes, true, [], []⟩ :=
  rfl

theorem number_repeat_up_new (fmt : ℚ → String) (w h start mn mx iv : ℚ) (a : MenuArgs)
    (k : ℕ) :
    ∃ ns1, repeat_input fmt .up k (opened (Menu_Number.new fmt w h start mn mx iv a))
      = some (.mk { (opened (Menu_Number.new fmt w h start mn mx iv a)).fields with
            m_num := (fun v => Menu_Number.up_value v mx iv)^[k] start } ns1,
          List.replicate k true) :=
  number_repeat_up k (opened (Menu_Number.new fmt w h start mn mx iv a)).fields
    (opened (Menu_Number.new fmt w h start mn mx iv a)).m_nodes _ (Or.inl rfl) rfl rfl

theorem up_value_step_4 :
    Menu_Number.up_value 0 10 4 = 4 ∧ Menu_Number.up_value 4 10 4 = 8 ∧
      Menu_Number.up_value 8 10 4 = 12 := by
  refine ⟨?_, ?_, ?_⟩ <;> norm_num [Menu_Number.up_value, round_to_nearest, round]

theorem up_value_step_3 :
    Menu_Number.up_value 0 10 3 = 3 ∧ Menu_Number.up_value 3 10 3 = 6 ∧
      Menu_Number.up_value 6 10 3 = 9 ∧ Menu_Number.up_value 9 10 3 = 9 := by
  refine ⟨?_, ?_, ?_, ?_⟩ <;> norm_num [Menu_Number.up_value, round_to_nearest, round]

/-- C7 (numeric range invariant), evaluated at the failing input.  A
`Menu_Number` constructed with `start = 0`, `min = 0`, `max = 10` and
`interval = 4` (so `min <= start <= max` and `interval > 0`) is opened by
`press()`; three calls of `up()` then all return `true` and leave the value
12, which is above `max = 10`: the rounding to a multiple of the step undoes
the clamp.  Every value of this trace (4, 8, 12, 10, 2.5, 3) is a binary32
number, so the source computes the same. -/
theorem number_range_overshoot (fmt : ℚ → String) (w h : ℚ) (a : MenuArgs) :
    ((0 : ℚ) ≤ 0 ∧ (0 : ℚ) ≤ 10 ∧ (0 : ℚ) < 4) ∧
    (Node.press fmt (Menu_Number.new fmt w h 0 0 10 4 a)).map Outcome.node
      = some (opened (Menu_Number.new fmt w h 0 0 10 4 a)) ∧
    (opened (Menu_Number.new fmt w h 0 0 10 4 a)).fields.m_active = true ∧
    ∃ n, repeat_input fmt .up 3 (opened (Menu_Number.new fmt w h 0 0 10 4 a))
        = some (n, [true, true, true]) ∧
      n.fields.m_num = 12 ∧ n.fields.m_max = 10 ∧ ¬ (n.fields.m_num ≤ n.fields.m_max) := by
  refine ⟨by norm_num, rfl, rfl, ?_⟩
  obtain ⟨ns1, h1⟩ := number_repeat_up_new fmt w h 0 0 10 4 a 3
  refine ⟨_, h1, ?_, rfl, ?_⟩
  · simp only [Node.fields, Function.iterate_succ, Function.iterate_zero, Function.comp, id,
      up_value_step_4.1, up_value_step_4.2.1, up_value_step_4.2.2]
  · simp only [Node.fields, Function.iterate_succ, Function.iterate_zero, Function.comp, id,
      up_value_step_4.1, up_value_step_4.2.1, up_value_step_4.2.2]
    show ¬ ((12 : ℚ) ≤ 10)
    norm_num

/-- C8 (numeric clamp and round).  A `Menu_Number` constructed with
`start = 0`, `min = 0`, `max = 10` and `interval = 3` is opened by `press()`;
the first, second, third and fourth `up()` then all return `true` and leave
the values 3, 6, 9 and 9. -/
theorem number_clamp_round (fmt : ℚ → String) (w h : ℚ) (a : MenuArgs) :
    (Node.press fmt (Menu_Number.new fmt w h 0 0 10 3 a)).map Outcome.node
      = some (opened (Menu_Number.new fmt w h 0 0 10 3 a)) ∧
    (opened (Menu_Number.new fmt w h 0 0 10 3 a)).fields.m_active = true ∧
    (repeat_input fmt .up 1 (opened (Menu_Number.new fmt w h 0 0 10 3 a))).map
      (fun s => (s.1.fields.m_num, s.2)) = some (3, [true]) ∧
    (repeat_input fmt .up 2 (opened (Menu_Number.new fmt w h 0 0 10 3 a))).map
      (fun s => (s.1.fields.m_num, s.2)) = some (6, [true, true]) ∧
    (repeat_input fmt .up 3 (opened (Menu_Number.new fmt w h 0 0 10 3 a))).map
      (fun s => (s.1.fields.m_num, s.2)) = some (9, [true, true, true]) ∧
    (repeat_input fmt .up 4 (opened (Menu_Number.new fmt w h 0 0 10 3 a))).map
      (fun s => (s.1.fields.m_num, s.2)) = some (9, [true, true, true, true]) := by
  refine ⟨rfl, rfl, ?_, ?_, ?_, ?_⟩
  · obtain ⟨ns1, h1⟩ := number_repeat_up_new fmt w h 0 0 10 3 a 1
    rw [h1]
    simp only [Option.map_some', Node.fields, Function.iterate_succ, Function.iterate_zero,
      Function.comp, id, up_value_step_3.1, List.replicate]
  · obtain ⟨ns1, h1⟩ := number_repeat_up_new fmt w h 0 0 10 3 a 2
    rw [h1]
    simp only [Option.map_some', Node.fields, Function.iterate_succ, Function.iterate_zero,
      Function.comp, id, up_value_step_3.1, up_value_step_3.2.1, List.replicate]
  · obtain ⟨ns1, h1⟩ := number_repeat_up_new fmt w h 0 0 10 3 a 3
    rw [h1]
    simp only [Option.map_some', Node.fields, Function.iterate_succ, Function.iterate_zero,
      Function.comp, id, up_value_step_3.1, up_value_step_3.2.1, up_value_step_3.2.2.1,
      List.replicate]
  · obtain ⟨ns1, h1⟩ := number_repeat_up_new fmt w h 0 0 10 3 a 4
    rw [h1]
    simp only [Option.map_some', Node.fields, Function.iterate_succ, Function.iterate_zero,
      Function.comp, id, up_value_step_3.1, up_value_step_3.2.1, up_value_step_3.2.2.1,
      up_value_step_3.2.2.2, List.replicate]

theorem up_value_step_1 : Menu_Number.up_value 1 10 3 = 3 := by
  norm_num [Menu_Number.up_value, round_to_nearest, round]

/-- C9 as stated fails.  A `Menu_Number` constructed with `start = 1`,
`min = 1`, `max = 10` and `interval = 3` is opened by `press()`; `up()` then
returns `true` and leaves the value 3, and `3 - 1` is not an integer multiple
of 3. -/
theorem value_off_grid_from_min :
    ((1 : ℚ) ≤ 1 ∧ (1 : ℚ) ≤ 10 ∧ (0 : ℚ) < 3) ∧
    (Node.press show_num (Menu_Number.new show_num 5 2 1 1 10 3 no_args)).map Outcome.node
      = some (opened (Menu_Number.new show_num 5 2 1 1 10 3 no_args)) ∧
    (opened (Menu_Number.new show_num 5 2 1 1 10 3 no_args)).fields.m_active = true ∧
    ∃ r, Node.up show_num (opened (Menu_Number.new show_num 5 2 1 1 10 3 no_args)) = some r ∧
      r.handled = true ∧ r.self.m_num = 3 ∧ r.self.m_min = 1 ∧ r.self.m_interval = 3 ∧
      ¬ ∃ z : ℤ, r.self.m_num - r.self.m_min = (z : ℚ) * r.self.m_interval := by
  refine ⟨by norm_num, rfl, rfl, ?_⟩
  have h := @number_up_step show_num
    (opened (Menu_Number.new show_num 5 2 1 1 10 3 no_args)).fields
    (opened (Menu_Number.new show_num 5 2 1 1 10 3 no_args)).m_nodes _
    (Or.inl rfl) rfl rfl
  have hv : Menu_Number.up_value
      (opened (Menu_Number.new show_num 5 2 1 1 10 3 no_args)).fields.m_num
      (opened (Menu_Number.new show_num 5 2 1 1 10 3 no_args)).fields.m_max
      (opened (Menu_Number.new show_num 5 2 1 1 10 3 no_args)).fields.m_interval = 3 :=
    up_value_step_1
  refine ⟨_, h, rfl, hv, rfl, rfl, ?_⟩
  rintro ⟨z, hz⟩
  have hz2 : Menu_Number.up_value
      (opened (Menu_Number.new show_num 5 2 1 1 10 3 no_args)).fields.m_num
      (opened (Menu_Number.new show_num 5 2 1 1 10 3 no_args)).fields.m_max
      (opened (Menu_Number.new show_num 5 2 1 1 10 3 no_args)).fields.m_interval - 1
      = (z : ℚ) * 3 := hz
  rw [hv] at hz2
  have hz3 : (2 : ℤ) = z * 3 := by
    have : ((2 : ℤ) : ℚ) = ((z * 3 : ℤ) : ℚ) := by
      push_cast
      linarith
    exact_mod_cast this
  omega

/-- An input other than `press()` delivered to a child that is a plain `Node`,
after the owner has written `pre` into it. -/
theorem act_at_plain {fmt : ℚ → String} {inp : Input} {pre : Fields → Fields}
    {ns : List Node} {j : ℕ} {c : Node} (hinp : inp ≠ .press) (hc : ns[j]? = some c)
    (hpre : (pre c.fields).kind = .Node) :
    act_at fmt inp pre ns j = some ⟨ns.set j (c.map_fields pre), false, [], []⟩ := by
  obtain ⟨g, cs⟩ := c
  have h : Node.act fmt inp pre (.mk g cs) = some ⟨pre g, cs, false, [], []⟩ := by
    rw [node_act_mk]
    simp only [Node.fields] at hpre
    cases inp
    · simp only [dispatch, hpre, Node.ignore]
    · simp only [dispatch, hpre, Node.ignore]
    · exact absurd rfl hinp
    · simp only [dispatch, hpre, Node.ignore]
  rw [act_at_eq]
  simp only [hc, h, Outcome.node, Node.map_fields]

/-- `Menu_Number::back` on an active numeric menu with a parent whose focused
child is a plain `Node`: the value is restored, the child shows it, the menu
collapses.  `ns` are the children at the start of the call, `cur` the
children after the caller has written `pre` into the focused one. -/
theorem number_back_collapse {fmt : ℚ → String} {pre : Fields → Fields} {f : Fields}
    {ns cur : List Node} {c d : Node} (ha : f.m_active = true) (hp : f.mp_parent = true)
    (hc : ns[f.m_index]? = some c) (hd : cur[f.m_index]? = some d)
    (hpre : (pre c.fields).kind = .Node) :
    Menu_Number.back fmt (fun i j p => act_at fmt i p ns j) pre f cur
      = some ⟨{ f with m_num := f.m_last_num, m_active := false,
                       m_target_x := f.m_rect.width, m_target_alpha := 0 },
          ns.set f.m_index
            (c.map_fields (stamp (fmt f.m_last_num) (fmt f.m_last_num) ∘ pre)),
          true, if f.m_shift then [false] else [], []⟩ := by
  have hlen : 0 < (cur.set f.m_index
      (d.map_fields (stamp (fmt f.m_last_num) (fmt f.m_last_num)))).length := by
    have := (List.getElem?_eq_some_iff.1 hd).1
    simp only [List.length_set]
    omega
  unfold Menu_Number.back
  simp only [with_child_some _ hd]
  exact menu_back_collapse (f := { f with m_num := f.m_last_num })
    (q := ⟨ns.set f.m_index
      (c.map_fields (stamp (fmt f.m_last_num) (fmt f.m_last_num) ∘ pre)), false, [], []⟩)
    ha hp hlen (act_at_plain (by decide) hc hpre) rfl rfl

/-- What `Menu_Number::press` does to an active numeric menu with a parent whose
focused child is a plain `Node`. -/
theorem number_press_commit {fmt : ℚ → String} {f : Fields} {ns : List Node} {c : Node}
    (ha : f.m_active = true) (hp : f.mp_parent = true)
    (hc : ns[f.m_index]? = some c) (hn : c.fields.kind = .Node) :
    Menu_Number.press fmt (fun i j p => act_at fmt i p ns j) f ns
      = some ⟨{ f with m_last_num := f.m_num, m_active := false,
                       m_target_x := -f.m_rect.width, m_target_alpha := 0 },
          ns.set f.m_index (c.map_fields
            (stamp (fmt f.m_num) (fmt f.m_num) ∘ stamp (fmt f.m_num) (fmt f.m_num))),
          true, if f.m_shift then [false] else [],
          run_action f.mfp_action (c.map_fields (stamp (fmt f.m_num) (fmt f.m_num)))⟩ := by
  have hd : (ns.set f.m_index (c.map_fields (stamp (fmt f.m_num) (fmt f.m_num))))[f.m_index]?
      = some (c.map_fields (stamp (fmt f.m_num) (fmt f.m_num))) := getElem?_set_same hc
  have hback := @number_back_collapse fmt (stamp (fmt f.m_num) (fmt f.m_num))
    { f with m_last_num := f.m_num } ns _ _ _ ha hp hc hd hn
  unfold Menu_Number.press
  rw [if_pos ha]
  simp only [with_child_some _ hc, hd, hback, List.append_nil]

theorem map_fields_kind {c : Node} {pre : Fields → Fields}
    (h : (pre c.fields).kind = .Node) : (c.map_fields pre).fields.kind = .Node := by
  cases c
  exact h

theorem number_commit_step (fmt : ℚ → String) {f : Fields} {ns : List Node}
    (hr : number_ready f ns) (ha : f.m_active = true) :
    ∃ r, Node.press fmt (.mk f ns) = some r ∧ number_ready r.self r.nodes ∧
      r.self.m_active = false ∧ r.self.m_num = f.m_num ∧ r.self.m_last_num = f.m_num ∧
      r.handled = true := by
  obtain ⟨hk, hp, c, hc, hn⟩ := hr
  have key := @number_press_commit fmt f ns c ha hp hc hn
  have hc2 := getElem?_set_same (d := c.map_fields
    (stamp (fmt f.m_num) (fmt f.m_num) ∘ stamp (fmt f.m_num) (fmt f.m_num))) hc
  have hn2 : (c.map_fields
      (stamp (fmt f.m_num) (fmt f.m_num) ∘ stamp (fmt f.m_num) (fmt f.m_num))).fields.kind
      = .Node := map_fields_kind hn
  unfold Node.press
  rw [node_act_id_mk]
  rcases hk with hk | hk
  · simp only [dispatch, hk]
    exact ⟨_, key, ⟨Or.inl hk, hp, _, hc2, hn2⟩, rfl, rfl, rfl, rfl⟩
  · simp only [dispatch, hk, Menu_Number_Display.press, key]
    exact ⟨_, rfl, ⟨Or.inr (by first | exact hk | rfl), hp, _, hc2, hn2⟩, rfl, rfl, rfl, rfl⟩

theorem number_open_step (fmt : ℚ → String) {f : Fields} {ns : List Node}
    (hr : number_ready f ns) (ha : f.m_active = false) :
    ∃ r, Node.press fmt (.mk f ns) = some r ∧ number_ready r.self r.nodes ∧
      r.self.m_active = true ∧ r.self.m_num = f.m_num ∧ r.self.m_last_num = f.m_last_num ∧
      r.handled = true := by
  obtain ⟨hk, hp, c, hc, hn⟩ := hr
  unfold Node.press
  rw [node_act_id_mk]
  rcases hk with hk | hk
  · simp only [dispatch, hk, Menu_Number.press, Menu.press, ha]
    exact ⟨_, rfl, ⟨Or.inl (by first | exact hk | rfl), hp, c, hc, hn⟩, rfl, rfl, rfl, rfl⟩
  · simp only [dispatch, hk, Menu_Number_Display.press, Menu_Number.press, Menu.press, ha]
    exact ⟨_, rfl, ⟨Or.inr (by first | exact hk | rfl), hp, c, hc, hn⟩, rfl, rfl, rfl, rfl⟩

theorem number_navigate (fmt : ℚ → String) (moves : List Input)
    (hm : ∀ inp ∈ moves, inp = .up ∨ inp = .down) :
    ∀ (f : Fields) (ns : List Node), number_ready f ns → f.m_active = true →
      ∃ f1 ns1, navigate fmt moves (.mk f ns) = some (.mk f1 ns1) ∧ number_ready f1 ns1 ∧
        f1.m_active = true ∧ f1.m_last_num = f.m_last_num := by
  induction moves with
  | nil =>
    intro f ns hr ha
    exact ⟨f, ns, rfl, hr, ha, rfl⟩
  | cons inp rest ih =>
    intro f ns hr ha
    obtain ⟨hk, hp, c, hc, hn⟩ := hr
    have hrest : ∀ i ∈ rest, i = .up ∨ i = .down :=
      fun i h => hm i (List.mem_cons_of_mem _ h)
    rcases hm inp (List.mem_cons_self _ _) with rfl | rfl
    · obtain ⟨f1, ns1, h1, h2, h3, h4⟩ :=
        ih hrest { f with m_num := Menu_Number.up_value f.m_num f.m_max f.m_interval }
          (ns.set f.m_index (c.map_fields
            (stamp (fmt (Menu_Number.up_value f.m_num f.m_max f.m_interval))
              (fmt (Menu_Number.up_value f.m_num f.m_max f.m_interval)))))
          ⟨hk, hp, _, getElem?_set_same hc, map_fields_kind hn⟩ ha
      refine ⟨f1, ns1, ?_, h2, h3, h4⟩
      simp only [navigate, number_up_step hk ha hc, Outcome.node]
      exact h1
    · obtain ⟨f1, ns1, h1, h2, h3, h4⟩ :=
        ih hrest { f with m_num := Menu_Number.down_value f.m_num f.m_min f.m_interval }
          (ns.set f.m_index (c.map_fields
            (stamp (fmt (Menu_Number.down_value f.m_num f.m_min f.m_interval))
              (fmt (Menu_Number.down_value f.m_num f.m_min f.m_interval)))))
          ⟨hk, hp, _, getElem?_set_same hc, map_fields_kind hn⟩ ha
      refine ⟨f1, ns1, ?_, h2, h3, h4⟩
      simp only [navigate, number_down_step hk ha hc, Outcome.node]
      exact h1

theorem number_cancel_step (fmt : ℚ → String) {f : Fields} {ns : List Node}
    (hr : number_ready f ns) (ha : f.m_active = true) :
    ∃ r, Node.back fmt (.mk f ns) = some r ∧ r.handled = true ∧
      r.self.m_num = f.m_last_num ∧ r.self.m_last_num = f.m_last_num ∧
      r.self.m_active = false ∧
      ∃ p, r.nodes[r.self.m_index]? = some p ∧ p.fields.m_text = fmt f.m_last_num ∧
        p.fields.m_data = fmt f.m_last_num := by
  obtain ⟨hk, hp, c, hc, hn⟩ := hr
  have key := @number_back_collapse fmt id f ns ns c c ha hp hc hc hn
  have hc2 := getElem?_set_same (d := c.map_fields
    (stamp (fmt f.m_last_num) (fmt f.m_last_num) ∘ id)) hc
  have htext : (c.map_fields (stamp (fmt f.m_last_num) (fmt f.m_last_num) ∘ id)).fields.m_text
      = fmt f.m_last_num := by
    cases c; rfl
  have hdata : (c.map_fields (stamp (fmt f.m_last_num) (fmt f.m_last_num) ∘ id)).fields.m_data
      = fmt f.m_last_num := by
    cases c; rfl
  unfold Node.back
  rw [node_act_id_mk]
  rcases hk with hk | hk
  · simp only [dispatch, hk]
    exact ⟨_, key, rfl, rfl, rfl, rfl, _, hc2, htext, hdata⟩
  · simp only [dispatch, hk]
    exact ⟨_, key, rfl, rfl, rfl, rfl, _, hc2, htext, hdata⟩

/-- C10 (numeric commit and cancel).  Let an active numeric menu with a
parent have the value `v = m_num`, and let its focused child be a plain
`Node` (the placeholder made by the constructor).  Then `press()` commits `v`
(`m_last_num = v`), a second `press()` opens the menu again, and after any
sequence `moves` of `up()` and `down()` calls a final `back()` leaves
`m_num = v`, `m_last_num = v`, the text and payload of the placeholder equal to
`fmt v`, and the menu collapsed; all these calls are defined. -/
theorem number_commit_cancel (fmt : ℚ → String) (f : Fields) (ns : List Node) (c : Node)
    (moves : List Input) (hk : is_number f.kind) (hp : f.mp_parent = true)
    (ha : f.m_active = true) (hc : ns[f.m_index]? = some c) (hn : c.fields.kind = .Node)
    (hm : ∀ inp ∈ moves, inp = .up ∨ inp = .down) :
    ∃ r1 r2 n3 r4,
      Node.press fmt (.mk f ns) = some r1 ∧ r1.self.m_last_num = f.m_num ∧
      Node.press fmt r1.node = some r2 ∧ r2.self.m_active = true ∧
      navigate fmt moves r2.node = some n3 ∧
      Node.back fmt n3 = some r4 ∧
      r4.self.m_num = f.m_num ∧ r4.self.m_last_num = f.m_num ∧
      (∃ p, r4.nodes[r4.self.m_index]? = some p ∧ p.fields.m_text = fmt f.m_num ∧
        p.fields.m_data = fmt f.m_num) ∧
      r4.self.m_active = false := by
  obtain ⟨r1, h1, hr1, ha1, -, hl1, -⟩ :=
    number_commit_step fmt ⟨hk, hp, c, hc, hn⟩ ha
  obtain ⟨r2, h2, hr2, ha2, -, hl2, -⟩ := number_open_step fmt hr1 ha1
  obtain ⟨f3, ns3, h3, hr3, ha3, hl3⟩ := number_navigate fmt moves hm _ _ hr2 ha2
  obtain ⟨r4, h4, -, hn4, hl4, ha4, p, hp1, hp2, hp3⟩ :=
    number_cancel_step fmt hr3 ha3
  have hv : f3.m_last_num = f.m_num := by rw [hl3, hl2, hl1]
  refine ⟨r1, r2, _, r4, h1, hl1, h2, ha2, h3, h4, ?_, ?_, ⟨p, hp1, ?_, ?_⟩, ha4⟩
  · rw [hn4, hv]
  · rw [hl4, hv]
  · rw [hp2, hv]
  · rw [hp3, hv]

/-- Commit of the value 4 at `number_4_owned`, then re-open, `up()`, `up()`,
`down()`, `up()` and `back()`. -/
theorem number_commit_cancel_witness :
    is_number number_4_owned.fields.kind ∧ number_4_owned.fields.mp_parent = true ∧
    number_4_owned.fields.m_active = true ∧ number_4_owned.fields.m_num = 4 ∧
    ∃ r1 r2 n3 r4,
      Node.press show_num (.mk number_4_owned.fields number_4_owned.m_nodes) = some r1 ∧
      r1.self.m_last_num = number_4_owned.fields.m_num ∧
      Node.press show_num r1.node = some r2 ∧ r2.self.m_active = true ∧
      navigate show_num [.up, .up, .down, .up] r2.node = some n3 ∧
      Node.back show_num n3 = some r4 ∧
      r4.self.m_num = number_4_owned.fields.m_num ∧
      r4.self.m_last_num = number_4_owned.fields.m_num ∧
      (∃ p, r4.nodes[r4.self.m_index]? = some p ∧
        p.fields.m_text = show_num number_4_owned.fields.m_num ∧
        p.fields.m_data = show_num number_4_owned.fields.m_num) ∧
      r4.self.m_active = false :=
  ⟨Or.inl rfl, rfl, rfl, rfl,
    number_commit_cancel show_num number_4_owned.fields number_4_owned.m_nodes
      ((Node.new ⟨show_num 4, show_num 4, none, none⟩).map_fields
        fun g => { g with mp_parent := true })
      [.up, .up, .down, .up] (Or.inl rfl) rfl rfl rfl rfl (by decide)⟩

@[simp] theorem recv_shifts_x (f : Fields) (l : List Bool) :
    (recv_shifts f l).1.m_x = f.m_x :=
  recv_shifts_proj (fun g => g.m_x) (fun _ _ _ => rfl) f l

@[simp] theorem recv_shifts_alpha (f : Fields) (l : List Bool) :
    (recv_shifts f l).1.m_alpha = f.m_alpha :=
  recv_shifts_proj (fun g => g.m_alpha) (fun _ _ _ => rfl) f l

@[simp] theorem recv_shifts_shift (f : Fields) (l : List Bool) :
    (recv_shifts f l).1.m_shift = f.m_shift :=
  recv_shifts_proj (fun g => g.m_shift) (fun _ _ _ => rfl) f l

@[simp] theorem recv_shifts_text (f : Fields) (l : List Bool) :
    (recv_shifts f l).1.m_text = f.m_text :=
  recv_shifts_proj (fun g => g.m_text) (fun _ _ _ => rfl) f l

/-- What `Menu::back` returns, case by case. -/
theorem menu_back_cases {child : Child} {pre : Fields → Fields} {f : Fields}
    {ns : List Node} {r : Outcome} (h : Menu.back child pre f ns = some r) :
    (f.m_active = false ∧ r = ⟨f, ns, false, [], []⟩) ∨
    (f.m_active = true ∧ ns.length = 0 ∧ r = ⟨f, ns, true, [], []⟩) ∨
    (f.m_active = true ∧ 0 < ns.length ∧ ∃ q, child .back f.m_index pre = some q ∧
      ((q.handled = false ∧ f.mp_parent = true ∧
          r = ⟨{ (recv_shifts f q.shifts).1 with
                  m_active := false, m_target_x := f.m_rect.width, m_target_alpha := 0 },
                q.nodes, true,
                (recv_shifts f q.shifts).2 ++ (if f.m_shift then [false] else []),
                q.actions⟩) ∨
        ((q.handled = true ∨ f.mp_parent = false) ∧
          r = ⟨(recv_shifts f q.shifts).1, q.nodes, true, (recv_shifts f q.shifts).2,
                q.actions⟩))) := by
  unfold Menu.back at h
  split at h
  · rename_i ha
    split at h
    · rename_i hn
      split at h
      · exact absurd h (by simp)
      · rename_i q0 hq0
        obtain ⟨q, hq, rfl⟩ := menu_call_some hq0
        refine Or.inr (Or.inr ⟨ha, hn, q, hq, ?_⟩)
        split at h
        · rename_i hh
          split at h
          · rename_i hp
            cases h
            refine Or.inl ⟨by simpa using hh, by simpa using hp, ?_⟩
            simp
          · rename_i hp
            cases h
            refine Or.inr ⟨Or.inr (by simpa using hp), ?_⟩
            simp
        · rename_i hh
          cases h
          refine Or.inr ⟨Or.inl (by simpa using hh), ?_⟩
          simp
    · rename_i hn
      cases h
      exact Or.inr (Or.inl ⟨ha, by omega, rfl⟩)
  · rename_i ha
    cases h
    exact Or.inl ⟨by simpa using ha, rfl⟩

theorem menu_back_data {child : Child} {pre : Fields → Fields} {f : Fields}
    {ns : List Node} {r : Outcome} (h : Menu.back child pre f ns = some r) :
    r.self.m_data = f.m_data := by
  rcases menu_back_cases h with ⟨-, rfl⟩ | ⟨-, -, rfl⟩ | ⟨-, -, q, -, ⟨-, -, rfl⟩ | ⟨-, rfl⟩⟩
  · rfl
  · rfl
  · simp
  · simp

theorem menu_up_handled {child : Child} {f : Fields} {ns : List Node} {r : Outcome}
    (ha : f.m_active = true) (h : Menu.up child f ns = some r) : r.handled = true := by
  unfold Menu.up at h
  rw [if_pos ha] at h
  split at h
  · split at h
    · exact absurd h (by simp)
    · split at h
      · split at h <;> cases h <;> rfl
      · cases h; rfl
  · cases h; rfl

theorem menu_down_handled {child : Child} {f : Fields} {ns : List Node} {r : Outcome}
    (ha : f.m_active = true) (h : Menu.down child f ns = some r) : r.handled = true := by
  unfold Menu.down at h
  rw [if_pos ha] at h
  split at h
  · split at h
    · exact absurd h (by simp)
    · split at h
      · split at h <;> cases h <;> rfl
      · cases h; rfl
  · cases h; rfl

/-- What `Menu::press` returns, case by case. -/
theorem menu_press_cases {child : Child} {f : Fields} {ns : List Node} {r : Outcome}
    (h : Menu.press child f ns = some r) :
    (f.m_active = false ∧
      r = ⟨opened_fields f, ns, true, if f.mp_parent && f.m_shift then [true] else [], []⟩) ∨
    (f.m_active = true ∧ ns.length = 0 ∧ r = ⟨f, ns, true, [], []⟩) ∨
    (f.m_active = true ∧ 0 < ns.length ∧ ∃ q, child .press f.m_index id = some q ∧
      r = ⟨(recv_shifts f q.shifts).1, q.nodes, true, (recv_shifts f q.shifts).2,
            q.actions⟩) := by
  unfold Menu.press at h
  split at h
  · rename_i ha
    split at h
    · rename_i hn
      split at h
      · exact absurd h (by simp)
      · rename_i q0 hq0
        obtain ⟨q, hq, rfl⟩ := menu_call_some hq0
        cases h
        exact Or.inr (Or.inr ⟨ha, hn, q, hq, rfl⟩)
    · rename_i hn
      cases h
      exact Or.inr (Or.inl ⟨ha, by omega, rfl⟩)
  · rename_i ha
    cases h
    exact Or.inl ⟨by simpa using ha, rfl⟩

theorem menu_press_handled {child : Child} {f : Fields} {ns : List Node} {r : Outcome}
    (h : Menu.press child f ns = some r) : r.handled = true := by
  rcases menu_press_cases h with ⟨-, rfl⟩ | ⟨-, -, rfl⟩ | ⟨-, -, q, -, rfl⟩ <;> rfl

theorem menu_back_handled {child : Child} {pre : Fields → Fields} {f : Fields}
    {ns : List Node} {r : Outcome} (ha : f.m_active = true)
    (h : Menu.back child pre f ns = some r) : r.handled = true := by
  rcases menu_back_cases h with ⟨h1, -⟩ | ⟨-, -, rfl⟩ | ⟨-, -, q, -, ⟨-, -, rfl⟩ | ⟨-, rfl⟩⟩
  · rw [ha] at h1; exact absurd h1 (by simp)
  · rfl
  · rfl
  · rfl

theorem select_press_handled {child : Child} {f : Fields} {ns : List Node} {r : Outcome}
    (h : Menu_Select.press child f ns = some r) : r.handled = true := by
  unfold Menu_Select.press at h
  split at h
  · split at h
    · exact absurd h (by simp)
    · dsimp only at h
      split at h
      · exact absurd h (by simp)
      · cases h; rfl
  · split at h
    · exact absurd h (by simp)
    · cases h; rfl

theorem bool_display_press_handled {child : Child} {f : Fields} {ns : List Node}
    {r : Outcome} (h : Menu_Bool_Display.press child f ns = some r) : r.handled = true := by
  unfold Menu_Bool_Display.press at h
  split at h
  · exact absurd h (by simp)
  · split at h
    · exact absurd h (by simp)
    · cases h; rfl

theorem number_up_handled {fmt : ℚ → String} {f : Fields} {ns : List Node} {r : Outcome}
    (ha : f.m_active = true) (h : Menu_Number.up fmt f ns = some r) : r.handled = true := by
  unfold Menu_Number.up at h
  rw [if_pos ha] at h
  dsimp only at h
  split at h
  · exact absurd h (by simp)
  · cases h; rfl

theorem number_down_handled {fmt : ℚ → String} {f : Fields} {ns : List Node} {r : Outcome}
    (ha : f.m_active = true) (h : Menu_Number.down fmt f ns = some r) : r.handled = true := by
  unfold Menu_Number.down at h
  rw [if_pos ha] at h
  dsimp only at h
  split at h
  · exact absurd h (by simp)
  · cases h; rfl

theorem number_back_handled {fmt : ℚ → String} {child : Child} {pre : Fields → Fields}
    {f : Fields} {ns : List Node} {r : Outcome} (ha : f.m_active = true)
    (h : Menu_Number.back fmt child pre f ns = some r) : r.handled = true := by
  unfold Menu_Number.back at h
  dsimp only at h
  split at h
  · exact absurd h (by simp)
  · exact menu_back_handled (f := { f with m_num := f.m_last_num }) ha h

theorem number_press_handled {fmt : ℚ → String} {child : Child} {f : Fields}
    {ns : List Node} {r : Outcome} (h : Menu_Number.press fmt child f ns = some r) :
    r.handled = true := by
  unfold Menu_Number.press at h
  split at h
  · dsimp only at h
    split at h
    · exact absurd h (by simp)
    · split at h
      · exact absurd h (by simp)
      · split at h
        · exact absurd h (by simp)
        · cases h; rfl
  · split at h
    · exact absurd h (by simp)
    · cases h; rfl

theorem number_display_press_handled {fmt : ℚ → String} {child : Child} {f : Fields}
    {ns : List Node} {r : Outcome} (h : Menu_Number_Display.press fmt child f ns = some r) :
    r.handled = true := by
  unfold Menu_Number_Display.press at h
  split at h
  · exact absurd h (by simp)
  · cases h; rfl

theorem text_back_handled {child : Child} {pre : Fields → Fields}
    {f : Fields} {ns : List Node} {r : Outcome} (ha : f.m_active = true)
    (h : Menu_Text.back child pre f ns = some r) : r.handled = true := by
  unfold Menu_Text.back at h
  dsimp only at h
  split at h
  · exact absurd h (by simp)
  · exact menu_back_handled ha h

theorem text_press_handled {child : Child} {f : Fields}
    {ns : List Node} {r : Outcome} (h : Menu_Text.press child f ns = some r) :
    r.handled = true := by
  unfold Menu_Text.press at h
  split at h
  · split at h
    · exact absurd h (by simp)
    · dsimp only at h
      split at h
      · exact absurd h (by simp)
      · cases h; rfl
  · split at h
    · exact absurd h (by simp)
    · cases h; rfl

/-- An active menu of any class handles every input event. -/
theorem active_menu_handles {fmt : ℚ → String} {inp : Input} {f : Fields} {ns : List Node}
    {r : Outcome} (hk : f.kind ≠ .Node) (ha : f.m_active = true)
    (h : Node.act fmt inp id (.mk f ns) = some r) : r.handled = true := by
  rw [node_act_id_mk] at h
  cases hk2 : f.kind <;> cases inp <;> simp only [dispatch, hk2] at h
  all_goals first
    | exact absurd hk2 hk
    | exact menu_up_handled ha h
    | exact menu_down_handled ha h
    | exact menu_press_handled h
    | exact menu_back_handled ha h
    | exact select_press_handled h
    | exact menu_back_handled (f := { f with m_index := f.m_last_pressed_index }) ha h
    | exact bool_display_press_handled h
    | exact number_up_handled ha h
    | exact number_down_handled ha h
    | exact number_press_handled h
    | exact number_back_handled ha h
    | exact number_display_press_handled h
    | exact text_press_handled h
    | exact text_back_handled ha h

/-- An active menu of class `Menu` hands every input event to its focused
child; when the child handles it, the menu changes only through the calls of
`shift` the child issues. -/
theorem menu_delegates {fmt : ℚ → String} {inp : Input} {f : Fields} {ns : List Node}
    {c : Node} {rc : Outcome} (hk : f.kind = .Menu) (ha : f.m_active = true)
    (hc : ns[f.m_index]? = some c) (hrc : Node.act fmt inp id c = some rc)
    (hh : rc.handled = true) :
    Node.act fmt inp id (.mk f ns)
      = some ⟨(recv_shifts f rc.shifts).1, ns.set f.m_index rc.node, true,
          (recv_shifts f rc.shifts).2, rc.actions⟩ := by
  have hn : ns.length > 0 := by
    have := (List.getElem?_eq_some_iff.1 hc).1
    omega
  have hcall : ∀ pre, pre = id →
      Menu.call (fun i j p => act_at fmt i p ns j) inp pre f
        = some ⟨(recv_shifts f rc.shifts).1, ns.set f.m_index rc.node, true,
            (recv_shifts f rc.shifts).2, rc.actions⟩ := by
    intro pre hpre
    subst hpre
    simp only [Menu.call, act_at_eq, hc, hrc, hh]
  rw [node_act_id_mk]
  cases inp
  · simp only [dispatch, hk, Menu.up, ha, hn, hcall id rfl, if_true]
    rfl
  · simp only [dispatch, hk, Menu.down, ha, hn, hcall id rfl, if_true]
    rfl
  · simp only [dispatch, hk, Menu.press, ha, hn, hcall id rfl, if_true]
  · simp only [dispatch, hk, Menu.back, ha, hn, hcall id rfl, if_true]
    rfl

theorem recv_shifts_nil_same (f : Fields) (l : List Bool) (h : l = []) :
    (recv_shifts f l).1 = f := by
  subst h
  rfl

theorem chain_back {fmt : ℚ → String} (d : ℕ) :
    ∀ n : Node, active_chain fmt d n →
      ∃ r, Node.back fmt n = some r ∧ r.handled = true ∧
        active_flags d r.node = List.replicate d true ++ [false] := by
  induction d with
  | zero =>
    intro n hn
    obtain ⟨f, ns⟩ := n
    obtain ⟨hk, ha, hp, c, rb, hc, hb, hb2⟩ := hn
    simp only [Node.fields, Node.focused, Node.m_nodes] at hk ha hp hc
    have hlen : 0 < ns.length := by
      have := (List.getElem?_eq_some_iff.1 hc).1
      omega
    have key := @menu_back_collapse (fun i j p => act_at fmt i p ns j) id f ns
      ⟨ns.set f.m_index rb.node, false, [], []⟩
      ha hp hlen (act_at_back_unhandled hc hb hb2) rfl rfl
    have hfin : Node.back fmt (.mk f ns)
        = Menu.back (fun i j p => act_at fmt i p ns j) id f ns := by
      unfold Node.back
      rw [node_act_id_mk]
      simp only [dispatch, hk]
    exact ⟨_, hfin.trans key, rfl, rfl⟩
  | succ d ih =>
    intro n hn
    obtain ⟨f, ns⟩ := n
    obtain ⟨hk, ha, c, hc, hchain⟩ := hn
    simp only [Node.fields, Node.focused, Node.m_nodes] at hk ha hc
    obtain ⟨rc, hrc, hh, hflags⟩ := ih c hchain
    have key := menu_delegates hk ha hc hrc hh
    refine ⟨_, key, rfl, ?_⟩
    have hget : (ns.set f.m_index rc.node)[f.m_index]? = some rc.node :=
      getElem?_set_same hc
    show active_flags (d + 1)
        (.mk (recv_shifts f rc.shifts).1 (ns.set f.m_index rc.node)) = _
    simp only [active_flags, Node.fields, Node.focused, Node.m_nodes,
      recv_shifts_index, recv_shifts_active, hget, ha, hflags, List.replicate_succ,
      List.cons_append]

/-- C13 (amended).  Capture-first delegation.  (1) For every active `Menu`
whose focused child is an active menu of any class: each input event that is
defined on the child is defined on the outer menu, returns `true` and leaves
`m_index` and `m_active` of the outer menu unchanged; the outer menu changes
only through the calls of `shift` the child issues, so its targets (and every
other member) are unchanged when the child issues none; of the children only
the focused one changes.  (2) For a chain of `d + 1` nested active menus whose
innermost menu has a parent and a focused child that does not handle `back()`:
`back()` on the outermost menu is defined, returns `true`, and afterwards the
`d` outer menus are still active and the innermost one is collapsed. -/
theorem capture_first (fmt : ℚ → String) :
    (∀ (f : Fields) (ns : List Node) (c : Node) (inp : Input) (rc : Outcome),
      f.kind = .Menu → f.m_active = true → ns[f.m_index]? = some c →
      c.fields.kind ≠ .Node → c.fields.m_active = true →
      Node.act fmt inp id c = some rc →
      ∃ r, Node.act fmt inp id (.mk f ns) = some r ∧ r.handled = true ∧
        r.self.m_index = f.m_index ∧ r.self.m_active = true ∧
        r.self = (recv_shifts f rc.shifts).1 ∧ (rc.shifts = [] → r.self = f) ∧
        r.nodes = ns.set f.m_index rc.node) ∧
    (∀ (d : ℕ) (n : Node), active_chain fmt d n →
      ∃ r, Node.back fmt n = some r ∧ r.handled = true ∧
        active_flags d r.node = List.replicate d true ++ [false]) := by
  refine ⟨?_, fun d n h => chain_back d n h⟩
  intro f ns c inp rc hk ha hc hck hca hrc
  obtain ⟨g, cs⟩ := c
  have hh : rc.handled = true := active_menu_handles hck hca hrc
  refine ⟨_, menu_delegates hk ha hc hrc hh, rfl, ?_, ?_, rfl, ?_, rfl⟩
  · simp
  · simp [ha]
  · intro hs
    exact recv_shifts_nil_same f _ hs

/-- Capture-first delegation at `outer_open`, whose focused child `inner_open`
is an active menu with a leaf focus: `back()` on the outer menu. -/
theorem capture_first_witness :
    (∃ r, Node.act show_num .back id (.mk outer_open.fields outer_open.m_nodes) = some r ∧
        r.handled = true ∧ r.self.m_index = outer_open.fields.m_index ∧
        r.self.m_active = true) ∧
    (∃ r, Node.back show_num outer_open = some r ∧ r.handled = true ∧
        active_flags 1 r.node = List.replicate 1 true ++ [false]) :=
  ⟨(((capture_first show_num).1 outer_open.fields outer_open.m_nodes inner_open .back
      ⟨{ inner_open.fields with m_active := false, m_target_x := 5, m_target_alpha := 0 },
        inner_open.m_nodes, true, [], []⟩
      rfl rfl rfl (by decide) rfl rfl).imp fun _ h => ⟨h.1, h.2.1, h.2.2.1, h.2.2.2.1⟩),
    (capture_first show_num).2 1 outer_open
      ⟨rfl, rfl, inner_open, rfl, rfl, rfl, rfl, leaf_a,
        ⟨leaf_a.fields, leaf_a.m_nodes, false, [], []⟩, rfl, rfl, rfl⟩⟩

theorem shift_no_parent (f : Fields) (away : Bool) (hp : f.mp_parent = false) :
    (shift f away).2 = [] ∧ (shift f away).1.mp_parent = false := by
  unfold shift Node.shift Menu.shift
  split
  · simp [hp]
  · dsimp only
    split
    · simp [hp]
    · split <;> simp [hp]

theorem recv_shifts_no_parent (f : Fields) (l : List Bool) (hp : f.mp_parent = false) :
    (recv_shifts f l).2 = [] := by
  induction l generalizing f with
  | nil => rfl
  | cons a l ih =>
    simp only [recv_shifts, (shift_no_parent f a hp).1, ih _ (shift_no_parent f a hp).2,
      List.append_nil]

theorem act_at_quiet {fmt : ℚ → String} {pre : Fields → Fields}
    {ns : List Node} {j : ℕ} {q : Reply} (hq : ∀ c ∈ ns, quiet_on_back fmt c)
    (hpre : pre = id ∨ ∃ t d, pre = stamp t d ∘ id)
    (h : act_at fmt .back pre ns j = some q) : q.shifts = [] := by
  rw [act_at_eq] at h
  split at h
  · exact absurd h (by simp)
  · rename_i c hc
    split at h
    · exact absurd h (by simp)
    · rename_i rb hrb
      cases h
      exact hq c (List.getElem?_mem hc) pre rb hpre hrb

theorem menu_back_root {child : Child} {pre : Fields → Fields} {f : Fields}
    {ns : List Node} {r : Outcome} (ha : f.m_active = true) (hp : f.mp_parent = false)
    (h : Menu.back child pre f ns = some r) :
    r.handled = true ∧ r.self.m_active = true ∧ r.shifts = [] ∧
      ((∀ q, child .back f.m_index pre = some q → q.shifts = []) →
        r.self.m_target_x = f.m_target_x ∧ r.self.m_target_alpha = f.m_target_alpha) := by
  rcases menu_back_cases h with ⟨h1, -⟩ | ⟨-, -, rfl⟩ | ⟨-, -, q, hq, ⟨-, h2, -⟩ | ⟨-, rfl⟩⟩
  · rw [ha] at h1; exact absurd h1 (by simp)
  · exact ⟨rfl, ha, rfl, fun _ => ⟨rfl, rfl⟩⟩
  · rw [hp] at h2; exact absurd h2 (by simp)
  · refine ⟨rfl, by simp [ha], recv_shifts_no_parent f _ hp, fun hs => ?_⟩
    rw [show (recv_shifts f q.shifts).1 = f from
      recv_shifts_nil_same f _ (hs _ hq)]
    exact ⟨rfl, rfl⟩

/-- What `back()` does on an active menu of any class without parent, when it
is defined. -/
theorem root_back_frame (fmt : ℚ → String) (f : Fields) (ns : List Node) (r : Outcome)
    (hk : f.kind ≠ .Node) (ha : f.m_active = true) (hp : f.mp_parent = false)
    (h : Node.back fmt (.mk f ns) = some r) :
    r.handled = true ∧ r.self.m_active = true ∧ r.shifts = [] ∧
      ((∀ c ∈ ns, quiet_on_back fmt c) →
        r.self.m_target_x = f.m_target_x ∧ r.self.m_target_alpha = f.m_target_alpha) := by
  unfold Node.back at h
  rw [node_act_id_mk] at h
  cases hk2 : f.kind <;> simp only [dispatch, hk2] at h
  · exact absurd hk2 hk
  · obtain ⟨h1, h2, h3, h4⟩ := menu_back_root ha hp h
    exact ⟨h1, h2, h3, fun hq => h4 fun q hj => act_at_quiet hq (Or.inl rfl) hj⟩
  · obtain ⟨h1, h2, h3, h4⟩ :=
      menu_back_root (f := { f with m_index := f.m_last_pressed_index }) ha hp h
    exact ⟨h1, h2, h3, fun hq => h4 fun q hj => act_at_quiet hq (Or.inl rfl) hj⟩
  · obtain ⟨h1, h2, h3, h4⟩ :=
      menu_back_root (f := { f with m_index := f.m_last_pressed_index }) ha hp h
    exact ⟨h1, h2, h3, fun hq => h4 fun q hj => act_at_quiet hq (Or.inl rfl) hj⟩
  · obtain ⟨h1, h2, h3, h4⟩ :=
      menu_back_root (f := { f with m_index := f.m_last_pressed_index }) ha hp h
    exact ⟨h1, h2, h3, fun hq => h4 fun q hj => act_at_quiet hq (Or.inl rfl) hj⟩
  · unfold Menu_Number.back at h
    dsimp only at h
    split at h
    · exact absurd h (by simp)
    · obtain ⟨h1, h2, h3, h4⟩ :=
        menu_back_root (f := { f with m_num := f.m_last_num }) ha hp h
      exact ⟨h1, h2, h3, fun hq => h4 fun q hj => act_at_quiet hq (Or.inr ⟨_, _, rfl⟩) hj⟩
  · unfold Menu_Number.back at h
    dsimp only at h
    split at h
    · exact absurd h (by simp)
    · obtain ⟨h1, h2, h3, h4⟩ :=
        menu_back_root (f := { f with m_num := f.m_last_num }) ha hp h
      exact ⟨h1, h2, h3, fun hq => h4 fun q hj => act_at_quiet hq (Or.inr ⟨_, _, rfl⟩) hj⟩
  · unfold Menu_Text.back at h
    dsimp only at h
    split at h
    · exact absurd h (by simp)
    · obtain ⟨h1, h2, h3, h4⟩ := menu_back_root ha hp h
      exact ⟨h1, h2, h3, fun hq => h4 fun q hj => act_at_quiet hq (Or.inr ⟨_, _, rfl⟩) hj⟩

/-- A plain `Node` is quiet on `back()`. -/
theorem plain_quiet_on_back (fmt : ℚ → String) (c : Node) (hc : c.fields.kind = .Node) :
    quiet_on_back fmt c := by
  obtain ⟨g, cs⟩ := c
  intro p rb hp h
  rw [node_act_mk] at h
  have hk : (p g).kind = .Node := by
    rcases hp with rfl | ⟨t, d, rfl⟩
    · exact hc
    · exact hc
  simp only [dispatch, hk, Node.ignore, Option.some.injEq] at h
  subst h
  rfl

/-- `Menu::back` on an active menu whose focused child does not handle
`back()` and issues nothing. -/
theorem menu_back_unconsumed {child : Child} {pre : Fields → Fields} {f : Fields}
    {ns : List Node} {q : Reply} (ha : f.m_active = true)
    (hn : 0 < ns.length) (hq : child .back f.m_index pre = some q)
    (hq1 : q.handled = false) (hq2 : q.shifts = []) :
    ∃ r, Menu.back child pre f ns = some r ∧ r.nodes = q.nodes ∧ r.handled = true ∧
      r.actions = q.actions ∧ r.self.m_index = f.m_index ∧ r.self.m_data = f.m_data ∧
      r.self.m_num = f.m_num ∧ r.self.m_last_num = f.m_last_num := by
  have hn2 : ns.length > 0 := hn
  unfold Menu.back Menu.call
  rw [if_pos ha, if_pos hn2, hq]
  simp only [hq1, hq2, recv_shifts_nil, Bool.not_false, if_true]
  split
  · exact ⟨_, rfl, rfl, rfl, rfl, rfl, rfl, rfl, rfl⟩
  · exact ⟨_, rfl, rfl, rfl, rfl, rfl, rfl, rfl, rfl⟩

/-- `Menu::back` is defined on an active menu whose focused child is a plain
`Node`, whatever the caller has written into that child. -/
theorem menu_back_leaf_defined {fmt : ℚ → String} {pre : Fields → Fields} {f : Fields}
    {ns cur : List Node} {c : Node} (ha : f.m_active = true) (hn : 0 < cur.length)
    (hc : ns[f.m_index]? = some c) (hpre : (pre c.fields).kind = .Node) :
    ∃ r, Menu.back (fun i j p => act_at fmt i p ns j) pre f cur = some r := by
  obtain ⟨r, hr, -⟩ := @menu_back_unconsumed (fun i j p => act_at fmt i p ns j) pre f cur
    ⟨ns.set f.m_index (c.map_fields pre), false, [], []⟩ ha hn
    (act_at_plain (by decide) hc hpre) rfl rfl
  exact ⟨r, hr⟩

/-- The call `back()` is defined on an active menu of any class whose children
are plain nodes and whose focus and last pressed position are in range. -/
theorem back_defined_on_leaves (fmt : ℚ → String) {f : Fields} {ns : List Node}
    (hk : f.kind ≠ .Node) (ha : f.m_active = true)
    (hall : ∀ c ∈ ns, c.fields.kind = .Node) (hi : f.m_index < ns.length)
    (hl : f.m_last_pressed_index < ns.length) :
    ∃ r, Node.back fmt (.mk f ns) = some r := by
  have hn : 0 < ns.length := by omega
  have hci : ns[f.m_index]? = some ns[f.m_index] := List.getElem?_eq_getElem hi
  have hcl : ns[f.m_last_pressed_index]? = some ns[f.m_last_pressed_index] :=
    List.getElem?_eq_getElem hl
  have hki := hall _ (List.getElem?_mem hci)
  have hkl := hall _ (List.getElem?_mem hcl)
  have hset : ∀ p : Fields → Fields, 0 < (ns.set f.m_index (ns[f.m_index].map_fields p)).length := by
    intro p
    rw [List.length_set]
    exact hn
  unfold Node.back
  rw [node_act_id_mk]
  cases hk2 : f.kind <;> simp only [dispatch, hk2]
  · exact absurd hk2 hk
  · exact menu_back_leaf_defined ha hn hci hki
  · exact @menu_back_leaf_defined fmt id { f with m_index := f.m_last_pressed_index } ns ns _
      ha hn hcl hkl
  · exact @menu_back_leaf_defined fmt id { f with m_index := f.m_last_pressed_index } ns ns _
      ha hn hcl hkl
  · exact @menu_back_leaf_defined fmt id { f with m_index := f.m_last_pressed_index } ns ns _
      ha hn hcl hkl
  · unfold Menu_Number.back
    simp only [with_child_some _ hci]
    exact @menu_back_leaf_defined fmt _ { f with m_num := f.m_last_num } ns _ _
      ha (hset _) hci hki
  · unfold Menu_Number.back
    simp only [with_child_some _ hci]
    exact @menu_back_leaf_defined fmt _ { f with m_num := f.m_last_num } ns _ _
      ha (hset _) hci hki
  · unfold Menu_Text.back
    simp only [with_child_some _ hci]
    exact @menu_back_leaf_defined fmt _ f ns _ _
      ha (hset _) hci hki

theorem select_abc_leaves : ∀ c ∈ select_abc_open.m_nodes, c.fields.kind = .Node := by
  intro c hc
  have h3 : c ∈ select_abc.m_nodes := hc
  simp only [select_abc, Menu.take_node, Menu_Select.new, Menu.new, Node.new,
    Node.map_fields, Node.m_nodes, List.nil_append, List.cons_append, List.mem_cons,
    List.mem_singleton, List.not_mem_nil, or_false] at h3
  rcases h3 with rfl | rfl | rfl <;> rfl

/-- C12 (amended).  Root never collapses via back: for every active menu of
any class without parent, `back()`, when it is defined, returns `true`, leaves
`m_active = true` and issues no call of `shift`, and it leaves the targets
`m_target_x` and `m_target_alpha` unchanged provided no child issues a call
of `shift` when `back()` reaches it; `back()` is defined when the children are
plain nodes and the focus and the last pressed position are in range. -/
theorem root_never_collapses (fmt : ℚ → String) (f : Fields) (ns : List Node)
    (hk : f.kind ≠ .Node) (ha : f.m_active = true) (hp : f.mp_parent = false) :
    (∀ r, Node.back fmt (.mk f ns) = some r →
      r.handled = true ∧ r.self.m_active = true ∧ r.shifts = [] ∧
        ((∀ c ∈ ns, quiet_on_back fmt c) →
          r.self.m_target_x = f.m_target_x ∧ r.self.m_target_alpha = f.m_target_alpha)) ∧
    ((∀ c ∈ ns, c.fields.kind = .Node) → f.m_index < ns.length →
      f.m_last_pressed_index < ns.length → ∃ r, Node.back fmt (.mk f ns) = some r) :=
  ⟨fun r h => root_back_frame fmt f ns r hk ha hp h,
    fun hall hi hl => back_defined_on_leaves fmt hk ha hall hi hl⟩

/-- The root `select_abc_open`, an active selection menu without parent and
with three plain children: `back()` is defined, returns `true` and leaves it
active with its targets. -/
theorem root_never_collapses_witness :
    select_abc_open.fields.kind ≠ .Node ∧ select_abc_open.fields.m_active = true ∧
    select_abc_open.fields.mp_parent = false ∧
    ∃ r, Node.back show_num (.mk select_abc_open.fields select_abc_open.m_nodes) = some r ∧
      r.handled = true ∧ r.self.m_active = true ∧ r.shifts = [] ∧
      r.self.m_target_x = select_abc_open.fields.m_target_x ∧
      r.self.m_target_alpha = select_abc_open.fields.m_target_alpha :=
  ⟨by decide, rfl, rfl,
    ((root_never_collapses show_num select_abc_open.fields select_abc_open.m_nodes
      (by decide) rfl rfl).2 select_abc_leaves (by decide) (by decide)).imp fun r h =>
      have h2 := (root_never_collapses show_num select_abc_open.fields select_abc_open.m_nodes
        (by decide) rfl rfl).1 r h
      ⟨h, h2.1, h2.2.1, h2.2.2.1,
        h2.2.2.2 fun c hc => plain_quiet_on_back show_num c (select_abc_leaves c hc)⟩⟩

/-- C12 as stated fails for the targets: the root of the example is built by
`take_node(shift_inner)`, `press()`, `press()`; the second `press()` opens the
shift-enabled child, which pushes the root away (`m_target_x = -7`,
`m_target_alpha = 0`).  Then `back()` on the root returns `true` and leaves the
root active, but the collapsing child shifts the root back: its targets become
0 and 1. -/
theorem root_targets_reset :
    run_calls show_num (fun _ => 0) [.take_node shift_inner, .press, .press]
        (Menu.new ⟨0, 0, 7, 7⟩ 1 false no_args) = some root_pushed ∧
    root_pushed.fields.kind = .Menu ∧ root_pushed.fields.m_active = true ∧
    root_pushed.fields.mp_parent = false ∧
    root_pushed.fields.m_target_x = -7 ∧ root_pushed.fields.m_target_alpha = 0 ∧
    (Node.back show_num root_pushed).map
        (fun r => (r.handled, r.self.m_active, r.self.m_target_x, r.self.m_target_alpha))
      = some (true, true, 0, 1) ∧
    (-7 : ℚ) ≠ 0 ∧ (0 : ℚ) ≠ 1 :=
  ⟨rfl, rfl, rfl, rfl, rfl, rfl, rfl, by norm_num, by norm_num⟩

theorem menu_press_data {child : Child} {f : Fields} {ns : List Node} {r : Outcome}
    (h : Menu.press child f ns = some r) : r.self.m_data = f.m_data := by
  rcases menu_press_cases h with ⟨-, rfl⟩ | ⟨-, -, rfl⟩ | ⟨-, -, q, -, rfl⟩
  · rfl
  · rfl
  · simp

theorem number_back_data {fmt : ℚ → String} {child : Child} {pre : Fields → Fields}
    {f : Fields} {ns : List Node} {r : Outcome}
    (h : Menu_Number.back fmt child pre f ns = some r) : r.self.m_data = f.m_data := by
  unfold Menu_Number.back at h
  dsimp only at h
  split at h
  · exact absurd h (by simp)
  · have h9 := menu_back_data h
    exact h9

theorem number_press_data {fmt : ℚ → String} {child : Child} {f : Fields}
    {ns : List Node} {r : Outcome} (h : Menu_Number.press fmt child f ns = some r) :
    r.self.m_data = f.m_data := by
  unfold Menu_Number.press at h
  split at h
  · dsimp only at h
    split at h
    · exact absurd h (by simp)
    · split at h
      · exact absurd h (by simp)
      · split at h
        · exact absurd h (by simp)
        · rename_i r0 hr0
          cases h
          have h9 := number_back_data hr0
          exact h9
  · split at h
    · exact absurd h (by simp)
    · rename_i r0 hr0
      cases h
      have h9 := menu_press_data hr0
      exact h9

/-- No input event changes the own payload of a numeric menu. -/
theorem number_keeps_data {fmt : ℚ → String} {inp : Input} {f : Fields} {ns : List Node}
    {r : Outcome} (hk : is_number f.kind) (h : Node.act fmt inp id (.mk f ns) = some r) :
    r.self.m_data = f.m_data := by
  rw [node_act_id_mk] at h
  rcases hk with hk | hk <;> cases inp <;> simp only [dispatch, hk] at h
  · unfold Menu_Number.up at h
    split at h
    · dsimp only at h
      split at h
      · exact absurd h (by simp)
      · cases h; rfl
    · cases h; rfl
  · unfold Menu_Number.down at h
    split at h
    · dsimp only at h
      split at h
      · exact absurd h (by simp)
      · cases h; rfl
    · cases h; rfl
  · exact number_press_data h
  · exact number_back_data h
  · unfold Menu_Number.up at h
    split at h
    · dsimp only at h
      split at h
      · exact absurd h (by simp)
      · cases h; rfl
    · cases h; rfl
  · unfold Menu_Number.down at h
    split at h
    · dsimp only at h
      split at h
      · exact absurd h (by simp)
      · cases h; rfl
    · cases h; rfl
  · unfold Menu_Number_Display.press at h
    split at h
    · exact absurd h (by simp)
    · rename_i r0 hr0
      cases h
      have h9 := number_press_data hr0
      exact h9
  · exact number_back_data h

/-- `Menu_Number::press` on an active numeric menu whose focused child is a
plain `Node`, with or without a parent. -/
theorem number_press_publishes {fmt : ℚ → String} {f : Fields} {ns : List Node} {c : Node}
    (ha : f.m_active = true) (hc : ns[f.m_index]? = some c) (hn : c.fields.kind = .Node) :
    ∃ r, Menu_Number.press fmt (fun i j p => act_at fmt i p ns j) f ns = some r ∧
      r.handled = true ∧ r.self.m_data = f.m_data ∧ r.self.m_last_num = f.m_num ∧
      r.self.m_num = f.m_num ∧ r.self.m_index = f.m_index ∧
      r.nodes = ns.set f.m_index (c.map_fields
        (stamp (fmt f.m_num) (fmt f.m_num) ∘ stamp (fmt f.m_num) (fmt f.m_num))) := by
  have hd : (ns.set f.m_index (c.map_fields (stamp (fmt f.m_num) (fmt f.m_num))))[f.m_index]?
      = some (c.map_fields (stamp (fmt f.m_num) (fmt f.m_num))) := getElem?_set_same hc
  have hlen : 0 < ((ns.set f.m_index (c.map_fields (stamp (fmt f.m_num) (fmt f.m_num)))).set
      f.m_index ((c.map_fields (stamp (fmt f.m_num) (fmt f.m_num))).map_fields
        (stamp (fmt f.m_num) (fmt f.m_num)))).length := by
    have := (List.getElem?_eq_some_iff.1 hc).1
    simp only [List.length_set]
    omega
  obtain ⟨r0, h0, h1, h2, h3, h4, h5, h6, h7⟩ :=
    @menu_back_unconsumed (fun i j p => act_at fmt i p ns j)
      (stamp (fmt f.m_num) (fmt f.m_num) ∘ stamp (fmt f.m_num) (fmt f.m_num))
      { f with m_last_num := f.m_num, m_num := f.m_num } _
      ⟨ns.set f.m_index (c.map_fields
        (stamp (fmt f.m_num) (fmt f.m_num) ∘ stamp (fmt f.m_num) (fmt f.m_num))),
        false, [], []⟩ ha hlen (act_at_plain (by decide) hc hn) rfl rfl
  unfold Menu_Number.press
  rw [if_pos ha]
  simp only [with_child_some _ hc, hd, Menu_Number.back, with_child_some _ hd]
  rw [h0]
  exact ⟨_, rfl, rfl, h5, h7, h6, h4, h1⟩

/-- C19.  Numeric confirm does not publish the value on the owning node.
For a node of class `Menu_Number` or `Menu_Number_Display`: (1) no input event
`up()`, `down()`, `press()`, `back()` changes the own payload `m_data`;
(2) when the menu is active and its focused child is a plain `Node` (the
placeholder), `press()` is defined, returns `true`, commits the value
(`m_last_num = m_num`), leaves the own payload as it was, and the payload and
text of the placeholder are `fmt m_num`; (3) by contrast `press()` on an
active `Menu_Select` or `Menu_Text` copies the payload of the focused child
into the own payload. -/
theorem number_confirm_keeps_payload (fmt : ℚ → String) :
    (∀ (inp : Input) (f : Fields) (ns : List Node) (r : Outcome),
      is_number f.kind → Node.act fmt inp id (.mk f ns) = some r →
        r.self.m_data = f.m_data) ∧
    (∀ (f : Fields) (ns : List Node) (c : Node),
      is_number f.kind → f.m_active = true → ns[f.m_index]? = some c →
      c.fields.kind = .Node →
      ∃ r p, Node.press fmt (.mk f ns) = some r ∧ r.handled = true ∧
        r.self.m_num = f.m_num ∧ r.self.m_last_num = f.m_num ∧
        r.self.m_data = f.m_data ∧
        r.nodes[r.self.m_index]? = some p ∧ p.fields.m_data = fmt f.m_num ∧
        p.fields.m_text = fmt f.m_num) ∧
    (∀ (f : Fields) (ns : List Node) (c : Node) (r : Outcome),
      f.kind = .Menu_Select ∨ f.kind = .Menu_Text → f.m_active = true →
      ns[f.m_index]? = some c → Node.press fmt (.mk f ns) = some r →
        r.self.m_data = c.fields.m_data) := by
  refine ⟨fun inp f ns r hk h => number_keeps_data hk h, ?_, ?_⟩
  · intro f ns c hk ha hc hn
    obtain ⟨r, h0, h1, h2, h3, h4, h5, h6⟩ := @number_press_publishes fmt f ns c ha hc hn
    have hp : (r.nodes[f.m_index]?) = some (c.map_fields
        (stamp (fmt f.m_num) (fmt f.m_num) ∘ stamp (fmt f.m_num) (fmt f.m_num))) := by
      rw [h6]; exact getElem?_set_same hc
    rcases hk with hk | hk
    · refine ⟨r, c.map_fields
        (stamp (fmt f.m_num) (fmt f.m_num) ∘ stamp (fmt f.m_num) (fmt f.m_num)),
        ?_, h1, h4, h3, h2, ?_, ?_, ?_⟩
      · unfold Node.press
        rw [node_act_id_mk]
        simp only [dispatch, hk]
        exact h0
      · rw [h5]; exact hp
      · cases c; rfl
      · cases c; rfl
    · refine ⟨{ r with self := { r.self with
          m_text := r.self.m_base_text ++ ": " ++ fmt r.self.m_num }, handled := true },
        c.map_fields
        (stamp (fmt f.m_num) (fmt f.m_num) ∘ stamp (fmt f.m_num) (fmt f.m_num)),
        ?_, rfl, h4, h3, h2, ?_, ?_, ?_⟩
      · unfold Node.press
        rw [node_act_id_mk]
        simp only [dispatch, hk]
        unfold Menu_Number_Display.press
        rw [h0]
      · show r.nodes[r.self.m_index]? = _
        rw [h5]; exact hp
      · cases c; rfl
      · cases c; rfl
  · intro f ns c r hk ha hc h
    unfold Node.press at h
    rw [node_act_id_mk] at h
    rcases hk with hk | hk
    · simp only [dispatch, hk] at h
      unfold Menu_Select.press at h
      rw [if_pos ha, hc] at h
      dsimp only at h
      split at h
      · exact absurd h (by simp)
      · rename_i r0 hr0
        cases h
        unfold Menu_Select.back at hr0
        have h9 := menu_back_data hr0
        exact h9
    · simp only [dispatch, hk] at h
      unfold Menu_Text.press at h
      rw [if_pos ha, hc] at h
      dsimp only at h
      split at h
      · exact absurd h (by simp)
      · rename_i r0 hr0
        cases h
        unfold Menu_Text.back at hr0
        dsimp only at hr0
        split at hr0
        · exact absurd hr0 (by simp)
        · have h9 := menu_back_data hr0
          exact h9

/-- Commit of the value 4 at `number_4_owned`: the own payload stays, the
placeholder shows the value. -/
theorem number_confirm_keeps_payload_witness :
    ∃ r p, Node.press show_num (.mk number_4_owned.fields number_4_owned.m_nodes) = some r ∧
      r.handled = true ∧ r.self.m_num = number_4_owned.fields.m_num ∧
      r.self.m_last_num = number_4_owned.fields.m_num ∧
      r.self.m_data = number_4_owned.fields.m_data ∧
      r.nodes[r.self.m_index]? = some p ∧
      p.fields.m_data = show_num number_4_owned.fields.m_num ∧
      p.fields.m_text = show_num number_4_owned.fields.m_num :=
  (number_confirm_keeps_payload show_num).2.1 number_4_owned.fields number_4_owned.m_nodes
    ((Node.new ⟨show_num 4, show_num 4, none, none⟩).map_fields
      fun g => { g with mp_parent := true })
    (Or.inl rfl) rfl rfl rfl

theorem node_update_mk (dt : ℚ) (f : Fields) (ns : List Node) (hk : f.kind ≠ .Node) :
    Node.update dt (.mk f ns) = .mk (Menu.update_self dt f) (update_all dt ns) := by
  rw [Node.update]
  split
  · rename_i h; exact absurd h hk
  · rfl

theorem update_self_x (dt : ℚ) (f : Fields) :
    (Menu.update_self dt f).m_x = f.m_x + (f.m_target_x - f.m_x) * 10 * dt := by
  simp only [Menu.update_self]; norm_num

theorem update_self_alpha (dt : ℚ) (f : Fields) :
    (Menu.update_self dt f).m_alpha
      = f.m_alpha + (f.m_target_alpha - f.m_alpha) * 10 * dt := by
  simp only [Menu.update_self]; norm_num

/-- C15 as stated fails for `delta_time = 1/4`: one `update(1/4)` of
`submenu_open` (offset 5, target 0, alpha 0, target alpha 1) yields the offset
`-15/2`, which is farther from the target than 5 and on the opposite side of
it, and the alpha `5/2`. -/
theorem update_overshoots :
    (0 : ℚ) < 1 / 4 ∧ submenu_open.fields.m_x = 5 ∧ submenu_open.fields.m_target_x = 0 ∧
    submenu_open.fields.m_alpha = 0 ∧ submenu_open.fields.m_target_alpha = 1 ∧
    (Node.update (1 / 4) submenu_open).fields.m_x = -(15 / 2) ∧
    (Node.update (1 / 4) submenu_open).fields.m_alpha = 5 / 2 ∧
    ¬ (|(Node.update (1 / 4) submenu_open).fields.m_x - submenu_open.fields.m_target_x|
        ≤ |submenu_open.fields.m_x - submenu_open.fields.m_target_x|) ∧
    ((Node.update (1 / 4) submenu_open).fields.m_x - submenu_open.fields.m_target_x)
      * (submenu_open.fields.m_x - submenu_open.fields.m_target_x) < 0 := by
  have e : Node.update (1 / 4) submenu_open
      = .mk (Menu.update_self (1 / 4) submenu_open.fields)
          (update_all (1 / 4) submenu_open.m_nodes) :=
    node_update_mk _ _ _ (by decide)
  have hx : submenu_open.fields.m_x = 5 := rfl
  have ht : submenu_open.fields.m_target_x = 0 := rfl
  have ha : submenu_open.fields.m_alpha = 0 := rfl
  have hb : submenu_open.fields.m_target_alpha = 1 := rfl
  have h1 : (Node.update (1 / 4) submenu_open).fields.m_x = -(15 / 2) := by
    rw [e]
    show (Menu.update_self (1 / 4) submenu_open.fields).m_x = _
    rw [update_self_x, hx, ht]; norm_num
  have h2 : (Node.update (1 / 4) submenu_open).fields.m_alpha = 5 / 2 := by
    rw [e]
    show (Menu.update_self (1 / 4) submenu_open.fields).m_alpha = _
    rw [update_self_alpha, ha, hb]; norm_num
  refine ⟨by norm_num, hx, ht, ha, hb, h1, h2, ?_, ?_⟩
  · rw [h1, hx, ht]; norm_num [abs_of_nonneg, abs_of_neg]
  · rw [h1, hx, ht]; norm_num

/-- C16 (amended).  Re-open of a collapsed `Menu`, whatever its current
offset and alpha: `press()` is defined, returns `true`, leaves the children
as they are, and changes exactly these members: `m_active = true`, the
targets `m_target_x = 0` and `m_target_alpha = 1`, and the current values,
which restart at `m_x = m_rect.width` and `m_alpha = 0`. -/
theorem reopen_restarts_slide (fmt : ℚ → String) (f : Fields) (ns : List Node)
    (hk : f.kind = .Menu) (ha : f.m_active = false) :
    ∃ r, Node.press fmt (.mk f ns) = some r ∧ r.handled = true ∧ r.nodes = ns ∧
      r.self = { f with m_active := true, m_x := f.m_rect.width, m_target_x := 0,
                        m_alpha := 0, m_target_alpha := 1 } ∧
      r.self.m_active = true ∧ r.self.m_target_x = 0 ∧ r.self.m_target_alpha = 1 ∧
      r.self.m_x = f.m_rect.width ∧ r.self.m_alpha = 0 := by
  have hd : Node.press fmt (.mk f ns) = Menu.press (fun i j p => act_at fmt i p ns j) f ns := by
    unfold Node.press
    rw [node_act_id_mk]
    simp only [dispatch, hk]
  have hm : Menu.press (fun i j p => act_at fmt i p ns j) f ns
      = some ⟨{ f with m_active := true, m_x := f.m_rect.width, m_target_x := 0,
                       m_alpha := 0, m_target_alpha := 1 }, ns, true,
          if f.mp_parent && f.m_shift then [true] else [], []⟩ := by
    unfold Menu.press
    simp only [ha]
    rfl
  exact ⟨_, hd.trans hm, rfl, rfl, rfl, rfl, rfl, rfl, rfl, rfl⟩

theorem update_self_eq (dt : ℚ) (f : Fields) (x a : ℚ)
    (hx : f.m_x + (f.m_target_x - f.m_x) * 10 * dt = x)
    (ha : f.m_alpha + (f.m_target_alpha - f.m_alpha) * 10 * dt = a) :
    Menu.update_self dt f = { f with m_x := x, m_alpha := a } := by
  have e : (1 / (1 / 10) : ℚ) = 10 := by norm_num
  unfold Menu.update_self
  rw [e, hx, ha]

/-- Re-opening `sliding_closed`, a menu caught while it slides closed. -/
theorem reopen_restarts_slide_witness :
    sliding_closed.fields.kind = .Menu ∧ sliding_closed.fields.m_active = false ∧
    ∃ r, Node.press show_num (.mk sliding_closed.fields sliding_closed.m_nodes) = some r ∧
      r.handled = true ∧ r.nodes = sliding_closed.m_nodes ∧
      r.self = { sliding_closed.fields with
                  m_active := true, m_x := sliding_closed.fields.m_rect.width, m_target_x := 0,
                  m_alpha := 0, m_target_alpha := 1 } ∧
      r.self.m_active = true ∧ r.self.m_target_x = 0 ∧ r.self.m_target_alpha = 1 ∧
      r.self.m_x = sliding_closed.fields.m_rect.width ∧ r.self.m_alpha = 0 :=
  ⟨rfl, rfl, reopen_restarts_slide show_num sliding_closed.fields sliding_closed.m_nodes rfl rfl⟩

/-- The state `sliding_closed` is reached from `inner_closed`. -/
theorem sliding_closed_reached :
    ∃ r1 r2, Node.press show_num inner_closed = some r1 ∧
      Node.back show_num (Node.update (1 / 10) r1.node) = some r2 ∧
      Node.update (1 / 16) r2.node = sliding_closed := by
  have h1 : Node.press show_num inner_closed
      = some ⟨opened_fields inner_closed.fields, inner_closed.m_nodes, true, [], []⟩ := rfl
  have h2 : Node.update (1 / 10) (.mk (opened_fields inner_closed.fields) inner_closed.m_nodes)
      = .mk { opened_fields inner_closed.fields with m_x := 0, m_alpha := 1 }
          inner_closed.m_nodes := by
    rw [node_update_mk _ _ _ (by decide)]
    rw [update_self_eq (1 / 10) (opened_fields inner_closed.fields) 0 1
      (by show (5 : ℚ) + (0 - 5) * 10 * (1 / 10) = 0; norm_num)
      (by show (0 : ℚ) + (1 - 0) * 10 * (1 / 10) = 1; norm_num)]
    rfl
  have h3 : Node.back show_num
      (.mk { opened_fields inner_closed.fields with m_x := 0, m_alpha := 1 }
        inner_closed.m_nodes)
      = some ⟨{ opened_fields inner_closed.fields with
                  m_x := 0, m_alpha := 1, m_active := false, m_target_x := 5,
                  m_target_alpha := 0 }, inner_closed.m_nodes, true, [], []⟩ := rfl
  have h4 : Node.update (1 / 16)
      (.mk { opened_fields inner_closed.fields with
                  m_x := 0, m_alpha := 1, m_active := false, m_target_x := 5,
                  m_target_alpha := 0 } inner_closed.m_nodes) = sliding_closed := by
    rw [node_update_mk _ _ _ (by decide)]
    rw [update_self_eq (1 / 16) _ (25 / 8) (3 / 8)
      (by show (0 : ℚ) + (5 - 0) * 10 * (1 / 16) = 25 / 8; norm_num)
      (by show (1 : ℚ) + (0 - 1) * 10 * (1 / 16) = 3 / 8; norm_num)]
    rfl
  refine ⟨⟨opened_fields inner_closed.fields, inner_closed.m_nodes, true, [], []⟩,
    ⟨{ opened_fields inner_closed.fields with
        m_x := 0, m_alpha := 1, m_active := false, m_target_x := 5,
        m_target_alpha := 0 }, inner_closed.m_nodes, true, [], []⟩, h1, ?_, ?_⟩
  · show Node.back show_num (Node.update (1 / 10)
      (.mk (opened_fields inner_closed.fields) inner_closed.m_nodes)) = _
    rw [h2]
    exact h3
  · exact h4

/-- C16 as stated fails: `sliding_closed`, reached from `inner_closed` by
`press()`, `update(1/10)`, `back()` and `update(1/16)`, is collapsed with
offset `25/8` and alpha `3/8`; `press()` moves the offset to 5 and the alpha
to 0. -/
theorem reopen_jumps :
    (∃ r1 r2, Node.press show_num inner_closed = some r1 ∧
      Node.back show_num (Node.update (1 / 10) r1.node) = some r2 ∧
      Node.update (1 / 16) r2.node = sliding_closed) ∧
    sliding_closed.fields.kind = .Menu ∧ sliding_closed.fields.m_active = false ∧
    sliding_closed.fields.m_x = 25 / 8 ∧ sliding_closed.fields.m_alpha = 3 / 8 ∧
    ∃ r, Node.press show_num sliding_closed = some r ∧ r.self.m_x = 5 ∧ r.self.m_alpha = 0 ∧
      r.self.m_x ≠ sliding_closed.fields.m_x ∧ r.self.m_alpha ≠ sliding_closed.fields.m_alpha := by
  refine ⟨sliding_closed_reached, rfl, rfl, rfl, rfl, ⟨opened_fields sliding_closed.fields, sliding_closed.m_nodes, true,
    [], []⟩, rfl, rfl, rfl, ?_, ?_⟩
  · show (5 : ℚ) ≠ 25 / 8
    norm_num
  · show (0 : ℚ) ≠ 3 / 8
    norm_num

/-- C11.  `Menu_Number::set_data(d)` on a freshly constructed numeric menu,
for every string `d` and all constructor arguments: the call is defined, the
value and the last committed value are `atof d` and the own payload is `d`,
but the text and the payload of the placeholder child are the raw string `d`;
they equal the formatted value `fmt m_num` exactly when `d` is itself the
formatting of the number parsed from it.  The constructor, `up()`, `down()`,
`press()` and `back()` all write `fmt m_num` into the placeholder. -/
theorem number_set_data_raw (fmt : ℚ → String) (atof : String → ℚ) (d : String)
    (width height start min max interval : ℚ) (a : MenuArgs) :
    ∃ f p, run_calls fmt atof [.set_data d]
        (Menu_Number.new fmt width height start min max interval a) = some (.mk f [p]) ∧
      f.kind = .Menu_Number ∧ f.m_index = 0 ∧
      f.m_num = atof d ∧ f.m_last_num = atof d ∧ f.m_data = d ∧
      p.fields.m_text = d ∧ p.fields.m_data = d ∧
      (p.fields.m_text = fmt f.m_num ↔ d = fmt (atof d)) ∧
      (p.fields.m_data = fmt f.m_num ↔ d = fmt (atof d)) := by
  refine ⟨{ (Menu_Number.new fmt width height start min max interval a).fields with
              m_data := d, m_num := atof d, m_last_num := atof d },
    (Node.new ⟨d, d, none, a.node.fp_render⟩).map_fields fun g =>
      { g with mp_parent := true, mfp_render :=
          if a.node.fp_render.isNone then a.fp_node_render else a.node.fp_render },
    ?_, rfl, rfl, rfl, rfl, rfl, rfl, rfl, Iff.rfl, Iff.rfl⟩
  cases h : a.node.fp_render <;> simp [run_calls, Call.run, Node.call_set_data,
    Menu_Number.set_data, Menu_Number.new, Menu.new, Node.new, Menu.take_node,
    Node.map_fields, Node.fields, with_child, stamp, Node.set_data, h]

theorem bool_display_new_eq :
    Menu_Bool_Display.new 5 1 "true" "false" label_args = some bool_display_new := rfl

theorem bool_display_open_down (fmt : ℚ → String) (atof : String → ℚ) :
    run_calls fmt atof [.press, .down]
      (bool_display_new.map_fields fun g => { g with mp_parent := true })
      = some bool_display_moved := rfl

theorem bool_display_set_back (fmt : ℚ → String) (atof : String → ℚ) :
    run_calls fmt atof [.set_data "zzz", .back] bool_display_moved
      = some bool_display_stale := rfl

theorem run_calls_append (fmt : ℚ → String) (atof : String → ℚ) (cs ds : List Call)
    (n m : Node) (h : run_calls fmt atof cs n = some m) :
    run_calls fmt atof (cs ++ ds) n = run_calls fmt atof ds m := by
  induction cs generalizing n with
  | nil =>
    simp only [run_calls, Option.some.injEq] at h
    subst h
    rfl
  | cons c cs ih =>
    simp only [run_calls, List.cons_append] at h ⊢
    split at h
    · exact absurd h (by simp)
    · rename_i n1 h1
      exact ih n1 h

/-- C18.  The constructor of `Menu_Bool_Display` makes a collapsed menu
without shift whose two children have the payloads "true" and "false" in
that order, and whose text is the label, ": " and the text of the first
child.  But the text does not always follow the committed option: for the
menu labelled "L" owned by a parent, the calls `press()`, `down()`,
`set_data("zzz")`, `back()` are all defined and end in a collapsed menu with
`m_last_pressed_index = 0`, whose child at that position has the text "true",
while the own text is "L: false". -/
theorem bool_display_stale_label (fmt : ℚ → String) (atof : String → ℚ) :
    Menu_Bool_Display.new 5 1 "true" "false" label_args = some bool_display_new ∧
    bool_display_new.fields.m_shift = false ∧ bool_display_new.fields.m_active = false ∧
    bool_display_new.m_nodes.map (fun c => c.fields.m_data) = ["true", "false"] ∧
    bool_display_new.fields.m_text = "L: true" ∧
    run_calls fmt atof [.press, .down, .set_data "zzz", .back]
      (bool_display_new.map_fields fun g => { g with mp_parent := true })
      = some bool_display_stale ∧
    bool_display_stale.fields.kind = .Menu_Bool_Display ∧
    bool_display_stale.fields.m_active = false ∧
    bool_display_stale.fields.m_base_text = "L" ∧
    bool_display_stale.fields.m_last_pressed_index = 0 ∧
    bool_display_stale.m_nodes.map (fun c => c.fields.m_text) = ["true", "false"] ∧
    bool_display_stale.fields.m_text = "L: false" :=
  ⟨rfl, rfl, rfl, rfl, rfl,
    (run_calls_append fmt atof [.press, .down] [.set_data "zzz", .back] _ _
      (bool_display_open_down fmt atof)).trans (bool_display_set_back fmt atof),
    rfl, rfl, rfl, rfl, rfl, rfl⟩

theorem render_at_eq (head : Option Rect) (a : RenderArgs) (ns : List Node) (j : ℕ) :
    render_at head a ns j
      = match ns[j]? with
        | none => none
        | some c => Node.render_all head a c := by
  induction ns generalizing j with
  | nil => simp [render_at]
  | cons n ns ih =>
    cases j with
    | zero => simp [render_at]
    | succ j => simp [render_at, ih]

theorem node_render_all_mk (head : Option Rect) (a : RenderArgs) (f : Fields)
    (ns : List Node) :
    Node.render_all head a (.mk f ns)
      = match render_dispatch head f ns a with
        | none => none
        | some r =>
          match run_render_calls
              (fun c => render_at (child_head head f.m_rect) c.args ns c.index) r.2 with
          | none => none
          | some ds => some (r.1 ++ ds) := by
  rw [Node.render_all]

/-- What `Menu::render` does when its panel is drawn. -/
theorem menu_render_drawn {head : Option Rect} {f : Fields} {ns : List Node}
    {a : RenderArgs} {rRect : Rect} (hs : a.is_selected = true)
    (hr : Menu.panel_rect head f a.rect = some rRect) (hskip : Menu.skips f ns = false) :
    ∃ ds, Menu.render head f ns a = some (ds,
      (((List.range ns.length).filter fun i => i ≠ f.m_index).map fun i =>
        (⟨i, ⟨false, { rRect with height := f.m_cell_height }, f.m_alpha, f.m_x,
          f.m_cell_height * i⟩⟩ : RenderCall))
      ++ [⟨f.m_index, ⟨true, { rRect with height := f.m_cell_height }, f.m_alpha, f.m_x,
          f.m_cell_height * f.m_index⟩⟩]) := by
  unfold Menu.render
  simp only [hs, hr, hskip, Bool.not_true, Bool.false_eq_true, if_false]
  exact ⟨_, rfl⟩

/-- What `Menu::render` does when it is not selected, or skips its panel. -/
theorem menu_render_quiet {head : Option Rect} {f : Fields} {ns : List Node}
    {a : RenderArgs} :
    (a.is_selected = false → Menu.render head f ns a = some (Menu.render_row f ns a, [])) ∧
    (∀ rRect, Menu.panel_rect head f a.rect = some rRect → Menu.skips f ns = true →
      Menu.render head f ns a = some (Menu.render_row f ns a, [])) := by
  constructor
  · intro hs
    unfold Menu.render
    simp only [hs, Bool.not_false, if_true]
  · intro rRect hr hskip
    unfold Menu.render
    cases hs : a.is_selected
    · simp only [Bool.not_false, if_true]
    · simp only [hr, hskip, Bool.not_true, Bool.false_eq_true, if_false, if_true]

/-- The calls on the children made by the final overrider of `render` of a
menu class are those of `Menu::render` for some rectangle. -/
theorem render_dispatch_calls {head : Option Rect} {f : Fields} {ns : List Node}
    {a : RenderArgs} (hk : f.kind ≠ .Node) (hs : a.is_selected = true) :
    ∃ a1 : RenderArgs, a1.is_selected = true ∧
      (render_dispatch head f ns a).map Prod.snd = (Menu.render head f ns a1).map Prod.snd := by
  cases hk2 : f.kind
  · exact absurd hk2 hk
  · exact ⟨a, hs, by simp only [render_dispatch, hk2]⟩
  · exact ⟨a, hs, by simp only [render_dispatch, hk2]⟩
  · refine ⟨⟨true, ⟨a.rect.left + a.rect.width + a.off_x - f.m_rect.width / 2,
      a.rect.top + a.off_y - f.m_cell_height / 2, 0, 0⟩, a.alpha, 0, 0⟩, rfl, ?_⟩
    simp only [render_dispatch, hk2, Menu_Bool.render, Menu_Number.render, Menu_Text.render, hs,
      Bool.not_true, Bool.false_eq_true, if_false]
    split
    · rename_i h9
      rw [h9]
    · rename_i r9 h9
      rw [h9]
      rfl
  · refine ⟨⟨true, ⟨a.rect.left + a.rect.width + a.off_x - f.m_rect.width / 2,
      a.rect.top + a.off_y - f.m_cell_height / 2, 0, 0⟩, a.alpha, 0, 0⟩, rfl, ?_⟩
    simp only [render_dispatch, hk2, Menu_Bool.render, Menu_Number.render, Menu_Text.render, hs,
      Bool.not_true, Bool.false_eq_true, if_false]
    split
    · rename_i h9
      rw [h9]
    · rename_i r9 h9
      rw [h9]
      rfl
  · refine ⟨⟨true, ⟨a.rect.left + a.rect.width + a.off_x - f.m_rect.width / 2,
      a.rect.top + a.off_y - ((f.m_rect.height - a.rect.height) / 2), 0, 0⟩, a.alpha, 0, 0⟩, rfl, ?_⟩
    simp only [render_dispatch, hk2, Menu_Bool.render, Menu_Number.render, Menu_Text.render, hs,
      Bool.not_true, Bool.false_eq_true, if_false]
    split
    · rename_i h9
      rw [h9]
    · rename_i r9 h9
      rw [h9]
      rfl
  · refine ⟨⟨true, ⟨a.rect.left + a.rect.width + a.off_x - f.m_rect.width / 2,
      a.rect.top + a.off_y - ((f.m_rect.height - a.rect.height) / 2), 0, 0⟩, a.alpha, 0, 0⟩, rfl, ?_⟩
    simp only [render_dispatch, hk2, Menu_Bool.render, Menu_Number.render, Menu_Text.render, hs,
      Bool.not_true, Bool.false_eq_true, if_false]
    split
    · rename_i h9
      rw [h9]
    · rename_i r9 h9
      rw [h9]
      rfl
  · refine ⟨⟨true, ⟨a.rect.left + a.rect.width + a.off_x - f.m_rect.width / 2,
      a.rect.top + a.off_y - ((f.m_rect.height - a.rect.height) / 2), 0, 0⟩, a.alpha, 0, 0⟩, rfl, ?_⟩
    simp only [render_dispatch, hk2, Menu_Bool.render, Menu_Number.render, Menu_Text.render, hs,
      Bool.not_true, Bool.false_eq_true, if_false]
    split
    · rename_i h9
      rw [h9]
    · rename_i r9 h9
      rw [h9]
      rfl

theorem range_without_perm (n k : ℕ) (hk : k < n) :
    (((List.range n).filter fun i => i ≠ k) ++ [k]).Perm (List.range n) := by
  apply (List.perm_ext_iff_of_nodup _ (List.nodup_range n)).2
  · intro i
    simp only [List.mem_append, List.mem_filter, List.mem_range, decide_eq_true_eq,
      List.mem_singleton]
    omega
  · apply List.Nodup.append ((List.nodup_range n).filter _) (List.nodup_singleton k)
    intro i hi hi2
    simp only [List.mem_filter, decide_eq_true_eq] at hi
    simp only [List.mem_singleton] at hi2
    exact hi.2 hi2

theorem panel_rect_defined {head : Option Rect} {f : Fields} (rect : Rect)
    (hh : f.m_shift = true → head.isSome = true) :
    ∃ rRect, Menu.panel_rect head f rect = some rRect ∧ rRect.width = f.m_rect.width := by
  unfold Menu.panel_rect
  cases hs : f.m_shift
  · exact ⟨_, rfl, rfl⟩
  · cases head with
    | none => exact absurd (hh hs) (by simp)
    | some h => exact ⟨_, rfl, rfl⟩

theorem render_dispatch_of_menu {head : Option Rect} {f : Fields} {ns : List Node}
    {a a1 : RenderArgs} {ds : List Draw} {calls : List RenderCall}
    (h : (render_dispatch head f ns a).map Prod.snd = (Menu.render head f ns a1).map Prod.snd)
    (hm : Menu.render head f ns a1 = some (ds, calls)) :
    ∃ r, render_dispatch head f ns a = some r ∧ r.2 = calls := by
  rw [hm] at h
  obtain ⟨r, hr, hr2⟩ := Option.map_eq_some'.1 h
  exact ⟨r, hr, hr2⟩

/-- A menu of any class that is rendered unselected calls none of its
children. -/
theorem render_dispatch_unselected {head : Option Rect} {f : Fields} {ns : List Node}
    {a : RenderArgs} (hk : f.kind ≠ .Node) (hs : a.is_selected = false) :
    ∃ r, render_dispatch head f ns a = some r ∧ r.2 = [] := by
  cases hk2 : f.kind
  · exact absurd hk2 hk
  all_goals
    simp only [render_dispatch, hk2, Menu_Bool.render, Menu_Number.render, Menu_Text.render,
      menu_render_quiet.1 hs, hs, Bool.not_false, if_true]
    exact ⟨_, rfl, rfl⟩

/-- Render composition order, where the render is defined.  For a node of any
menu class: (1) rendered selected, with the focus in range, not in the skip
condition, and with a parent whenever it is shift-enabled, the final overrider
of `render` is defined and calls every child exactly once (the indices of the
calls are a permutation of `0 .. n-1`); the last call is the one on the child
at `m_index` and is the only one with `is_selected = true`; the calls before
it are unselected and in increasing index order; every call gets the offsets
`off_x = m_x` and `off_y = m_cell_height * i` for its index `i`, the alpha
`m_alpha` and one row rectangle of height `m_cell_height`; (2) rendered
unselected it calls no child; (3) without children it calls no child. -/
theorem render_order (head : Option Rect) (f : Fields) (ns : List Node) (a : RenderArgs)
    (hk : f.kind ≠ .Node) :
    (a.is_selected = true → f.m_index < ns.length → Menu.skips f ns = false →
      (f.m_shift = true → head.isSome = true) →
      ∃ r others last row, render_dispatch head f ns a = some r ∧ r.2 = others ++ [last] ∧
        (r.2.map RenderCall.index).Perm (List.range ns.length) ∧
        last.index = f.m_index ∧ last.args.is_selected = true ∧
        (∀ c ∈ others, c.args.is_selected = false) ∧
        (others.map RenderCall.index).Pairwise (fun i j => i < j) ∧
        (∀ c ∈ r.2, c.args.off_y = f.m_cell_height * c.index ∧ c.args.off_x = f.m_x ∧
          c.args.alpha = f.m_alpha ∧ c.args.rect = row) ∧
        row.height = f.m_cell_height ∧ row.width = f.m_rect.width) ∧
    (a.is_selected = false → ∃ r, render_dispatch head f ns a = some r ∧ r.2 = []) ∧
    (ns.length = 0 → (f.m_shift = true → head.isSome = true) →
      ∃ r, render_dispatch head f ns a = some r ∧ r.2 = []) := by
  have hquiet : a.is_selected = false →
      ∃ r, render_dispatch head f ns a = some r ∧ r.2 = [] :=
    fun hs => render_dispatch_unselected hk hs
  refine ⟨?_, hquiet, ?_⟩
  · intro hs hi hskip hh
    obtain ⟨a1, hs1, hd⟩ := @render_dispatch_calls head f ns a hk hs
    obtain ⟨rRect, hr, hw⟩ := @panel_rect_defined head f a1.rect hh
    obtain ⟨ds, hm⟩ := menu_render_drawn hs1 hr hskip
    obtain ⟨r, hr1, hr2⟩ := render_dispatch_of_menu hd hm
    refine ⟨r, _, _, { rRect with height := f.m_cell_height }, hr1, hr2, ?_, rfl, rfl, ?_, ?_,
      ?_, rfl, hw⟩
    · rw [hr2]
      simp only [List.map_append, List.map_map, List.map_cons, List.map_nil]
      have e : (RenderCall.index ∘ fun i =>
          (⟨i, ⟨false, { rRect with height := f.m_cell_height }, f.m_alpha, f.m_x,
            f.m_cell_height * i⟩⟩ : RenderCall)) = id := rfl
      rw [e, List.map_id]
      exact range_without_perm ns.length f.m_index hi
    · intro c hc
      obtain ⟨i, -, rfl⟩ := List.mem_map.1 hc
      rfl
    · simp only [List.map_map]
      have e : (RenderCall.index ∘ fun i =>
          (⟨i, ⟨false, { rRect with height := f.m_cell_height }, f.m_alpha, f.m_x,
            f.m_cell_height * i⟩⟩ : RenderCall)) = id := rfl
      rw [e, List.map_id]
      exact (List.pairwise_lt_range ns.length).filter _
    · intro c hc
      rw [hr2] at hc
      rcases List.mem_append.1 hc with hc | hc
      · obtain ⟨i, -, rfl⟩ := List.mem_map.1 hc
        exact ⟨rfl, rfl, rfl, rfl⟩
      · rw [List.mem_singleton] at hc
        subst hc
        exact ⟨rfl, rfl, rfl, rfl⟩
  · intro hn hh
    cases hs : a.is_selected
    · exact hquiet hs
    · obtain ⟨a1, hs1, hd⟩ := @render_dispatch_calls head f ns a hk hs
      obtain ⟨rRect, hr, -⟩ := @panel_rect_defined head f a1.rect hh
      have hskip : Menu.skips f ns = true := by
        unfold Menu.skips
        exact decide_eq_true (Or.inr hn)
      exact render_dispatch_of_menu hd (menu_render_quiet.2 rRect hr hskip)

theorem menu_back_offsets {child : Child} {pre : Fields → Fields} {f : Fields}
    {ns : List Node} {r : Outcome} (h : Menu.back child pre f ns = some r) :
    r.self.m_x = f.m_x ∧ r.self.m_alpha = f.m_alpha := by
  rcases menu_back_cases h with ⟨-, rfl⟩ | ⟨-, -, rfl⟩ | ⟨-, -, q, -, ⟨-, -, rfl⟩ | ⟨-, rfl⟩⟩
  · exact ⟨rfl, rfl⟩
  · exact ⟨rfl, rfl⟩
  · exact ⟨recv_shifts_x _ _, recv_shifts_alpha _ _⟩
  · exact ⟨recv_shifts_x _ _, recv_shifts_alpha _ _⟩

theorem menu_press_offsets {child : Child} {f : Fields} {ns : List Node} {r : Outcome}
    (ha : f.m_active = true) (h : Menu.press child f ns = some r) :
    r.self.m_x = f.m_x ∧ r.self.m_alpha = f.m_alpha := by
  rcases menu_press_cases h with ⟨ha2, -⟩ | ⟨-, -, rfl⟩ | ⟨-, -, q, -, rfl⟩
  · rw [ha] at ha2; exact absurd ha2 (by simp)
  · exact ⟨rfl, rfl⟩
  · exact ⟨recv_shifts_x _ _, recv_shifts_alpha _ _⟩

theorem select_press_offsets {child : Child} {f : Fields} {ns : List Node} {r : Outcome}
    (ha : f.m_active = true) (h : Menu_Select.press child f ns = some r) :
    r.self.m_x = f.m_x ∧ r.self.m_alpha = f.m_alpha := by
  unfold Menu_Select.press at h
  rw [if_pos ha] at h
  split at h
  · exact absurd h (by simp)
  · dsimp only at h
    split at h
    · exact absurd h (by simp)
    · rename_i r0 hr0
      cases h
      unfold Menu_Select.back at hr0
      have h9 := menu_back_offsets hr0
      exact h9

theorem number_back_offsets {fmt : ℚ → String} {child : Child} {pre : Fields → Fields}
    {f : Fields} {ns : List Node} {r : Outcome}
    (h : Menu_Number.back fmt child pre f ns = some r) :
    r.self.m_x = f.m_x ∧ r.self.m_alpha = f.m_alpha := by
  unfold Menu_Number.back at h
  dsimp only at h
  split at h
  · exact absurd h (by simp)
  · have h9 := menu_back_offsets h
    exact h9

theorem number_press_offsets {fmt : ℚ → String} {child : Child} {f : Fields}
    {ns : List Node} {r : Outcome} (ha : f.m_active = true)
    (h : Menu_Number.press fmt child f ns = some r) :
    r.self.m_x = f.m_x ∧ r.self.m_alpha = f.m_alpha := by
  unfold Menu_Number.press at h
  rw [if_pos ha] at h
  dsimp only at h
  split at h
  · exact absurd h (by simp)
  · split at h
    · exact absurd h (by simp)
    · split at h
      · exact absurd h (by simp)
      · rename_i r0 hr0
        cases h
        have h9 := number_back_offsets hr0
        exact h9

theorem text_press_offsets {child : Child} {f : Fields} {ns : List Node} {r : Outcome}
    (ha : f.m_active = true) (h : Menu_Text.press child f ns = some r) :
    r.self.m_x = f.m_x ∧ r.self.m_alpha = f.m_alpha := by
  unfold Menu_Text.press at h
  rw [if_pos ha] at h
  split at h
  · exact absurd h (by simp)
  · dsimp only at h
    split at h
    · exact absurd h (by simp)
    · rename_i r0 hr0
      cases h
      unfold Menu_Text.back at hr0
      dsimp only at hr0
      split at hr0
      · exact absurd hr0 (by simp)
      · have h9 := menu_back_offsets hr0
        exact h9

/-- On an active menu of any class `press()` does not take the open
transition: the current offset and alpha stay as they are. -/
theorem active_press_offsets {fmt : ℚ → String} {f : Fields} {ns : List Node} {r : Outcome}
    (hk : f.kind ≠ .Node) (ha : f.m_active = true)
    (h : Node.act fmt .press id (.mk f ns) = some r) :
    r.self.m_x = f.m_x ∧ r.self.m_alpha = f.m_alpha := by
  rw [node_act_id_mk] at h
  cases hk2 : f.kind <;> simp only [dispatch, hk2] at h
  · exact absurd hk2 hk
  · exact menu_press_offsets ha h
  · exact select_press_offsets ha h
  · exact select_press_offsets ha h
  · unfold Menu_Bool_Display.press at h
    split at h
    · exact absurd h (by simp)
    · rename_i r0 hr0
      split at h
      · exact absurd h (by simp)
      · cases h
        have h9 := select_press_offsets ha hr0
        exact h9
  · exact number_press_offsets ha h
  · unfold Menu_Number_Display.press at h
    split at h
    · exact absurd h (by simp)
    · rename_i r0 hr0
      cases h
      have h9 := number_press_offsets ha hr0
      exact h9
  · exact text_press_offsets ha h

theorem render_unselected_defined (head : Option Rect) (a : RenderArgs) (n : Node)
    (hs : a.is_selected = false) : ∃ ds, Node.render_all head a n = some ds := by
  obtain ⟨f, ns⟩ := n
  rw [node_render_all_mk]
  by_cases hk : f.kind = .Node
  · simp only [render_dispatch, hk, run_render_calls]
    exact ⟨_, rfl⟩
  · obtain ⟨r, hr, hr2⟩ := @render_dispatch_unselected head f ns a hk hs
    rw [hr]
    simp only [hr2, run_render_calls]
    exact ⟨_, rfl⟩

theorem leaf_render_defined (head : Option Rect) (a : RenderArgs) (c : Node)
    (hk : c.fields.kind = .Node) : ∃ ds, Node.render_all head a c = some ds := by
  obtain ⟨f, ns⟩ := c
  simp only [Node.fields] at hk
  rw [node_render_all_mk]
  simp only [render_dispatch, hk, run_render_calls]
  exact ⟨_, rfl⟩

theorem run_render_calls_defined {child : RenderCall → Option (List Draw)}
    {calls : List RenderCall} (h : ∀ c ∈ calls, ∃ d, child c = some d) :
    ∃ ds, run_render_calls child calls = some ds := by
  induction calls with
  | nil => exact ⟨_, rfl⟩
  | cons c cs ih =>
    obtain ⟨d, hd⟩ := h c (List.mem_cons_self _ _)
    obtain ⟨ds, hds⟩ := ih fun c1 hc1 => h c1 (List.mem_cons_of_mem _ hc1)
    simp only [run_render_calls, hd, hds]
    exact ⟨_, rfl⟩

/-- The selected render of a menu of any class is defined when the rectangle
of the topmost ancestor can be read where it is needed and the focused child,
if the panel is drawn, has a defined selected render. -/
theorem render_selected_defined {head : Option Rect} {f : Fields} {ns : List Node}
    {a : RenderArgs} (hk : f.kind ≠ .Node) (hs : a.is_selected = true)
    (hh : f.m_shift = true → head.isSome = true)
    (hc : Menu.skips f ns = true ∨ ∃ c, ns[f.m_index]? = some c ∧
      ∀ a1 : RenderArgs, a1.is_selected = true →
        ∃ ds, Node.render_all (child_head head f.m_rect) a1 c = some ds) :
    ∃ ds, Node.render_all head a (.mk f ns) = some ds := by
  rw [node_render_all_mk]
  obtain ⟨a1, hs1, hd⟩ := @render_dispatch_calls head f ns a hk hs
  obtain ⟨rRect, hr, -⟩ := @panel_rect_defined head f a1.rect hh
  cases hskip : Menu.skips f ns
  · rcases hc with hc | ⟨c, hc, hcr⟩
    · rw [hskip] at hc; exact absurd hc (by simp)
    · obtain ⟨ds, hm⟩ := menu_render_drawn hs1 hr hskip
      obtain ⟨r, hr1, hr2⟩ := render_dispatch_of_menu hd hm
      rw [hr1]
      have hall : ∀ c1 ∈ r.2, ∃ d,
          render_at (child_head head f.m_rect) c1.args ns c1.index = some d := by
        intro c1 hc1
        rw [hr2] at hc1
        rw [render_at_eq]
        rcases List.mem_append.1 hc1 with hc1 | hc1
        · obtain ⟨i, hi, rfl⟩ := List.mem_map.1 hc1
          have hi2 : i < ns.length := List.mem_range.1 (List.mem_filter.1 hi).1
          simp only [List.getElem?_eq_getElem hi2]
          exact render_unselected_defined _ _ _ rfl
        · rw [List.mem_singleton] at hc1
          subst hc1
          simp only [hc]
          exact hcr _ rfl
      obtain ⟨ds2, hds2⟩ := run_render_calls_defined hall
      simp only [hds2]
      exact ⟨_, rfl⟩
  · obtain ⟨r, hr1, hr2⟩ := render_dispatch_of_menu hd (menu_render_quiet.2 rRect hr hskip)
    rw [hr1]
    simp only [hr2, run_render_calls]
    exact ⟨_, rfl⟩

theorem act_at_leaf_defined (fmt : ℚ → String) (inp : Input) {ns : List Node} {j : ℕ}
    {c : Node} (hc : ns[j]? = some c) (hk : c.fields.kind = .Node) :
    ∃ q, act_at fmt inp id ns j = some q := by
  obtain ⟨g, cs⟩ := c
  simp only [Node.fields] at hk
  rw [act_at_eq]
  simp only [hc, node_act_id_mk]
  cases inp <;> simp only [dispatch, hk, Node.ignore, Node.press_self]
  · exact ⟨_, rfl⟩
  · exact ⟨_, rfl⟩
  · cases g.mfp_action <;> exact ⟨_, rfl⟩
  · exact ⟨_, rfl⟩

/-- Every input event is defined on a `Menu` without children or with a plain
`Node` in focus. -/
theorem menu_leaf_defined (fmt : ℚ → String) (inp : Input) {f : Fields} {ns : List Node}
    (hk : f.kind = .Menu)
    (hc : ns.length = 0 ∨ ∃ c, ns[f.m_index]? = some c ∧ c.fields.kind = .Node) :
    ∃ r, Node.act fmt inp id (.mk f ns) = some r := by
  rw [node_act_id_mk]
  rcases hc with hc | ⟨c, hc, hck⟩
  · cases inp <;> simp only [dispatch, hk, Menu.up, Menu.down, Menu.press, Menu.back, hc,
      gt_iff_lt, lt_self_iff_false, if_false]
    · split <;> exact ⟨_, rfl⟩
    · split <;> exact ⟨_, rfl⟩
    · split <;> exact ⟨_, rfl⟩
    · split <;> exact ⟨_, rfl⟩
  · cases inp
    · obtain ⟨q, hq⟩ := act_at_leaf_defined fmt .up hc hck
      simp only [dispatch, hk, Menu.up, Menu.call, hq]
      repeat' split
      all_goals exact ⟨_, rfl⟩
    · obtain ⟨q, hq⟩ := act_at_leaf_defined fmt .down hc hck
      simp only [dispatch, hk, Menu.down, Menu.call, hq]
      repeat' split
      all_goals exact ⟨_, rfl⟩
    · obtain ⟨q, hq⟩ := act_at_leaf_defined fmt .press hc hck
      simp only [dispatch, hk, Menu.press, Menu.call, hq]
      repeat' split
      all_goals exact ⟨_, rfl⟩
    · obtain ⟨q, hq⟩ := act_at_leaf_defined fmt .back hc hck
      simp only [dispatch, hk, Menu.back, Menu.call, hq]
      repeat' split
      all_goals exact ⟨_, rfl⟩

/-- C20.  The public `render()` forces activation.  For a node of any menu
class on which the recursive render is defined (a shift-enabled menu has a
parent; the menu has no children, or its focused child has a defined selected
render): `render()` is defined, sets `m_active = true` and changes no other
member (so `m_index`, `m_x`, `m_target_x`, `m_alpha`, `m_target_alpha` and the
children are as before), and the callbacks it runs are those of the virtual
`render(true, Rect(0, 0, 0, 0), m_alpha, 0, 0)` on the activated node.
Afterwards every input event that is defined returns `true`, `press()` leaves
`m_x` and `m_alpha` as they are (it does not take the open transition), and
on a `Menu` without children or with a plain `Node` in focus all four input
events are defined and return `true`. -/
theorem render_activates (fmt : ℚ → String) (head : Option Rect) (f : Fields) (ns : List Node)
    (hk : f.kind ≠ .Node) (hh : f.m_shift = true → head.isSome = true)
    (hc : ns.length = 0 ∨ ∃ c, ns[f.m_index]? = some c ∧
      ∀ a1 : RenderArgs, a1.is_selected = true →
        ∃ ds, Node.render_all (child_head head f.m_rect) a1 c = some ds) :
    ∃ g ds, Menu.render_public head (.mk f ns) = some (.mk g ns, ds) ∧
      g = { f with m_active := true } ∧
      g.m_active = true ∧ g.m_index = f.m_index ∧ g.m_x = f.m_x ∧
      g.m_target_x = f.m_target_x ∧ g.m_alpha = f.m_alpha ∧
      g.m_target_alpha = f.m_target_alpha ∧
      Node.render_all head ⟨true, ⟨0, 0, 0, 0⟩, f.m_alpha, 0, 0⟩ (.mk g ns) = some ds ∧
      (∀ inp r, Node.act fmt inp id (.mk g ns) = some r → r.handled = true) ∧
      (∀ r, Node.press fmt (.mk g ns) = some r →
        r.self.m_x = f.m_x ∧ r.self.m_alpha = f.m_alpha) ∧
      (f.kind = .Menu →
        (ns.length = 0 ∨ ∃ c, ns[f.m_index]? = some c ∧ c.fields.kind = .Node) →
        ∀ inp, ∃ r, Node.act fmt inp id (.mk g ns) = some r ∧ r.handled = true) := by
  have hk1 : ({ f with m_active := true } : Fields).kind ≠ .Node := hk
  have hc1 : Menu.skips { f with m_active := true } ns = true ∨
      ∃ c, ns[({ f with m_active := true } : Fields).m_index]? = some c ∧
        ∀ a1 : RenderArgs, a1.is_selected = true →
          ∃ ds, Node.render_all
            (child_head head ({ f with m_active := true } : Fields).m_rect) a1 c = some ds := by
    rcases hc with hc | hc
    · left
      unfold Menu.skips
      exact decide_eq_true (Or.inr hc)
    · exact Or.inr hc
  obtain ⟨ds, hds⟩ := @render_selected_defined head { f with m_active := true } ns
    ⟨true, ⟨0, 0, 0, 0⟩, f.m_alpha, 0, 0⟩ hk1 rfl hh hc1
  have hpub : Menu.render_public head (.mk f ns)
      = some (.mk { f with m_active := true } ns, ds) := by
    unfold Menu.render_public
    simp only [hds]
  refine ⟨_, ds, hpub, rfl, rfl, rfl, rfl, rfl, rfl, rfl, hds, ?_, ?_, ?_⟩
  · intro inp r hr
    exact @active_menu_handles fmt inp { f with m_active := true } ns r hk1 rfl hr
  · intro r hr
    exact @active_press_offsets fmt { f with m_active := true } ns r hk1 rfl hr
  · intro hkm hleaf inp
    have hkm1 : ({ f with m_active := true } : Fields).kind = .Menu := hkm
    obtain ⟨r, hr⟩ := @menu_leaf_defined fmt inp { f with m_active := true } ns hkm1 hleaf
    exact ⟨r, hr, @active_menu_handles fmt inp { f with m_active := true } ns r hk1 rfl hr⟩

/-- The public `render()` on `inner_closed`, a collapsed menu with one plain
child, below a root with the rectangle `(0, 0, 7, 7)`. -/
theorem render_activates_witness :
    inner_closed.fields.kind ≠ .Node ∧ inner_closed.fields.m_active = false ∧
    ∃ g ds, Menu.render_public (some ⟨0, 0, 7, 7⟩)
        (.mk inner_closed.fields inner_closed.m_nodes) = some (.mk g inner_closed.m_nodes, ds) ∧
      g.m_active = true ∧ g.m_index = inner_closed.fields.m_index ∧
      (∀ inp, ∃ r, Node.act show_num inp id (.mk g inner_closed.m_nodes) = some r ∧
        r.handled = true) :=
  ⟨by decide, rfl,
    (render_activates show_num (some ⟨0, 0, 7, 7⟩) inner_closed.fields inner_closed.m_nodes
      (by decide) (fun _ => rfl)
      (Or.inr ⟨leaf_a, rfl, fun a1 _ => leaf_render_defined _ a1 leaf_a rfl⟩)).imp
      fun _ h => h.imp fun _ h =>
        ⟨h.1, h.2.2.1, h.2.2.2.1, h.2.2.2.2.2.2.2.2.2.2.2 rfl (Or.inr ⟨leaf_a, rfl, rfl⟩)⟩⟩

/-- C17.  `Menu::render` reads the rectangle of the topmost ancestor through
`p_head` (source lines 291-302) when the menu is shift-enabled, and `p_head`
is `NULL` when the menu has no parent.  For `shift_inner`, a shift-enabled
menu without parent and with one child: once `render()` has set
`m_active = true` the menu is selected and not in the skip condition, yet the
virtual `render` is undefined, so `render()` is undefined and no child is
rendered. -/
theorem render_shift_root_undefined :
    shift_inner.fields.m_shift = true ∧ shift_inner.fields.mp_parent = false ∧
    shift_inner.m_nodes.length = 1 ∧ shift_inner.fields.m_index = 0 ∧
    Menu.skips { shift_inner.fields with m_active := true } shift_inner.m_nodes = false ∧
    render_dispatch none { shift_inner.fields with m_active := true } shift_inner.m_nodes
      ⟨true, ⟨0, 0, 0, 0⟩, shift_inner.fields.m_alpha, 0, 0⟩ = none ∧
    Menu.render_public none shift_inner = none :=
  ⟨rfl, rfl, rfl, rfl, rfl, rfl, rfl⟩

/-- The selected render of `select_abc_open`, an active menu with three
children and the focus on the last one. -/
theorem render_order_witness :
    ∃ r others last row,
      render_dispatch none select_abc_open.fields select_abc_open.m_nodes
        ⟨true, ⟨0, 0, 0, 0⟩, 0, 0, 0⟩ = some r ∧ r.2 = others ++ [last] ∧
      (r.2.map RenderCall.index).Perm (List.range select_abc_open.m_nodes.length) ∧
      last.index = select_abc_open.fields.m_index ∧ last.args.is_selected = true ∧
      (∀ c ∈ others, c.args.is_selected = false) ∧
      (others.map RenderCall.index).Pairwise (fun i j => i < j) ∧
      (∀ c ∈ r.2, c.args.off_y = select_abc_open.fields.m_cell_height * c.index ∧
        c.args.off_x = select_abc_open.fields.m_x ∧
        c.args.alpha = select_abc_open.fields.m_alpha ∧ c.args.rect = row) ∧
      row.height = select_abc_open.fields.m_cell_height ∧
      row.width = select_abc_open.fields.m_rect.width :=
  (render_order none select_abc_open.fields select_abc_open.m_nodes
    ⟨true, ⟨0, 0, 0, 0⟩, 0, 0, 0⟩ (by decide)).1 rfl (by decide) rfl
    (fun h => absurd h (by decide))

theorem recv_shifts_one {f : Fields} (away : Bool) (hk : f.kind ≠ .Node)
    (ha : f.m_active = true) :
    recv_shifts f [away]
      = (if away then pushed f else restored f, if f.mp_parent then [away] else []) := by
  have hs : shift f away
      = (if away then pushed f else restored f, if f.mp_parent then [away] else []) := by
    have hm : Menu.shift f away
        = (if away then pushed f else restored f, if f.mp_parent then [away] else []) := by
      unfold Menu.shift
      rw [if_neg (by simp [ha])]
      cases away <;> rfl
    unfold shift
    cases hk2 : f.kind
    · exact absurd hk2 hk
    all_goals exact hm
  simp only [recv_shifts, hs, List.append_nil]

theorem host_chain_ancestors (d : ℕ) :
    ∀ n m : Node, host_chain d n m →
      ∀ a ∈ (path_fields d n).take d, a.kind ≠ .Node ∧ a.m_active = true := by
  induction d with
  | zero =>
    intro n m _ a ha
    simp at ha
  | succ d ih =>
    intro n m h a ha
    obtain ⟨hk, hact, c, hc, -, hch⟩ := h
    simp only [path_fields, hc, List.take_succ_cons, List.mem_cons] at ha
    rcases ha with rfl | ha
    · exact ⟨by rw [hk]; decide, hact⟩
    · exact ih c m hch a ha

/-- An input event handled by a node below a chain of active menus travels
down the focus path; the calls of `shift` the node issues travel up and reach
every menu of the chain. -/
theorem chain_signal {fmt : ℚ → String} {inp : Input} (d : ℕ) :
    ∀ (n m : Node) (rm : Outcome), host_chain d n m →
      Node.act fmt inp id m = some rm → rm.handled = true →
      (rm.shifts = [] ∨ ∃ away, rm.shifts = [away]) →
      rm.self.mp_parent = m.fields.mp_parent →
      ∃ r, Node.act fmt inp id n = some r ∧ r.handled = true ∧
        r.self.mp_parent = n.fields.mp_parent ∧
        (n.fields.mp_parent = true → r.shifts = rm.shifts) ∧
        host_chain d r.node rm.node ∧
        path_fields d r.node
          = ((path_fields d n).take d).map (fun a => (recv_shifts a rm.shifts).1)
            ++ [rm.self] := by
  induction d with
  | zero =>
    intro n m rm h hrm hh _ hp
    cases h
    exact ⟨rm, hrm, hh, hp, fun _ => rfl, rfl, rfl⟩
  | succ d ih =>
    intro n m rm h hrm hh hs hp
    obtain ⟨f, ns⟩ := n
    obtain ⟨hk, ha, c, hc, hcp, hch⟩ := h
    simp only [Node.fields, Node.focused, Node.m_nodes] at hk ha hc
    obtain ⟨rc, hrc, hrh, hrp, hrs, hrch, hrpath⟩ := ih c m rm hch hrm hh hs hp
    have key := menu_delegates hk ha hc hrc hrh
    have hget : (ns.set f.m_index rc.node)[f.m_index]? = some rc.node :=
      getElem?_set_same hc
    have hkn : f.kind ≠ .Node := by rw [hk]; decide
    have hsh : rc.shifts = rm.shifts := hrs hcp
    refine ⟨_, key, rfl, ?_, ?_, ?_, ?_⟩
    · show (recv_shifts f rc.shifts).1.mp_parent = f.mp_parent
      simp
    · intro hfp
      have hfp2 : f.mp_parent = true := hfp
      show (recv_shifts f rc.shifts).2 = rm.shifts
      rw [hsh]
      rcases hs with hs | ⟨away, hs⟩
      · rw [hs]; rfl
      · rw [hs, recv_shifts_one away hkn ha, hfp2]; rfl
    · show host_chain (d + 1) (.mk (recv_shifts f rc.shifts).1 (ns.set f.m_index rc.node)) _
      refine ⟨?_, ?_, rc.node, ?_, ?_, hrch⟩
      · simp [Node.fields, hk]
      · simp [Node.fields, ha]
      · simp only [Node.focused, Node.fields, Node.m_nodes, recv_shifts_index, hget]
      · show rc.self.mp_parent = true
        rw [hrp, hcp]
    · show path_fields (d + 1)
          (.mk (recv_shifts f rc.shifts).1 (ns.set f.m_index rc.node)) = _
      simp only [path_fields, Node.fields, Node.focused, Node.m_nodes, recv_shifts_index,
        hget, hc, hrpath, hsh, List.take_succ_cons, List.map_cons, List.cons_append]

/-- The call `press()` opens a menu that is not active. -/
theorem press_opens {fmt : ℚ → String} {f : Fields} {ns : List Node}
    (hk : opens_as_menu f.kind) (ha : f.m_active = false) :
    Node.act fmt .press id (.mk f ns)
      = some ⟨opened_fields f, ns, true, if f.mp_parent && f.m_shift then [true] else [],
          []⟩ := by
  have hm : Menu.press (fun i j p => act_at fmt i p ns j) f ns
      = some ⟨opened_fields f, ns, true, if f.mp_parent && f.m_shift then [true] else [],
          []⟩ := by
    unfold Menu.press
    simp only [ha]
    rfl
  have hs : Menu_Select.press (fun i j p => act_at fmt i p ns j) f ns
      = some ⟨opened_fields f, ns, true, if f.mp_parent && f.m_shift then [true] else [],
          []⟩ := by
    unfold Menu_Select.press
    simp only [ha, hm]
    rfl
  rw [node_act_id_mk]
  rcases hk with hk | hk | hk
  · have hd : dispatch fmt (fun i j p => act_at fmt i p ns j) .press f ns
        = Menu.press (fun i j p => act_at fmt i p ns j) f ns := by
      simp only [dispatch, hk]
    rw [hd, hm]
  · have hd : dispatch fmt (fun i j p => act_at fmt i p ns j) .press f ns
        = Menu_Select.press (fun i j p => act_at fmt i p ns j) f ns := by
      simp only [dispatch, hk]
    rw [hd, hs]
  · have hd : dispatch fmt (fun i j p => act_at fmt i p ns j) .press f ns
        = Menu_Select.press (fun i j p => act_at fmt i p ns j) f ns := by
      simp only [dispatch, hk]
    rw [hd, hs]

theorem act_at_unhandled_quiet {fmt : ℚ → String} {ns : List Node} {j : ℕ} {q : Reply}
    (h : act_at fmt .back id ns j = some q) (hq : q.handled = false) : q.shifts = [] := by
  rw [act_at_eq] at h
  split at h
  · exact absurd h (by simp)
  · split at h
    · exact absurd h (by simp)
    · rename_i c hc x r hr
      cases h
      have hb : Node.back fmt c = some r := hr
      exact (node_back_unhandled hb hq).2.1

/-- A call of `Menu::back` that leaves the menu collapsed. -/
theorem menu_back_collapsed {fmt : ℚ → String} {f : Fields} {ns : List Node} {rb : Outcome}
    (ha : f.m_active = true)
    (h : Menu.back (fun i j p => act_at fmt i p ns j) id f ns = some rb)
    (hc : rb.self.m_active = false) :
    rb.handled = true ∧ rb.shifts = (if f.m_shift then [false] else []) ∧
      rb.self.m_target_x = f.m_rect.width ∧ rb.self.m_target_alpha = 0 ∧
      rb.self.mp_parent = f.mp_parent ∧ f.mp_parent = true := by
  rcases menu_back_cases h with ⟨h1, -⟩ | ⟨-, -, rfl⟩ | ⟨-, -, q, hq, ⟨hq1, hp, rfl⟩ | ⟨-, rfl⟩⟩
  · rw [ha] at h1; exact absurd h1 (by simp)
  · have hc2 : f.m_active = false := hc
    rw [ha] at hc2; exact absurd hc2 (by simp)
  · have hq2 : q.shifts = [] := act_at_unhandled_quiet hq hq1
    rw [hq2]
    exact ⟨rfl, rfl, rfl, rfl, rfl, hp⟩
  · have hc2 : (recv_shifts f q.shifts).1.m_active = false := hc
    rw [recv_shifts_active, ha] at hc2
    exact absurd hc2 (by simp)

/-- A call of `back()` that leaves a menu collapsed: the menu has a parent,
the call returns `true` and issues `shift(false)` when the menu is
shift-enabled. -/
theorem back_collapsed {fmt : ℚ → String} {f : Fields} {ns : List Node} {rb : Outcome}
    (hk : opens_as_menu f.kind) (ha : f.m_active = true)
    (h : Node.act fmt .back id (.mk f ns) = some rb) (hc : rb.self.m_active = false) :
    rb.handled = true ∧ rb.shifts = (if f.m_shift then [false] else []) ∧
      rb.self.m_target_x = f.m_rect.width ∧ rb.self.m_target_alpha = 0 ∧
      rb.self.mp_parent = f.mp_parent ∧ f.mp_parent = true := by
  rw [node_act_id_mk] at h
  rcases hk with hk | hk | hk
  · have hd : dispatch fmt (fun i j p => act_at fmt i p ns j) .back f ns
        = Menu.back (fun i j p => act_at fmt i p ns j) id f ns := by
      simp only [dispatch, hk]
    rw [hd] at h
    exact menu_back_collapsed ha h hc
  · have hd : dispatch fmt (fun i j p => act_at fmt i p ns j) .back f ns
        = Menu.back (fun i j p => act_at fmt i p ns j) id
            { f with m_index := f.m_last_pressed_index } ns := by
      simp only [dispatch, hk, Menu_Select.back]
    rw [hd] at h
    exact @menu_back_collapsed fmt { f with m_index := f.m_last_pressed_index } ns rb ha h hc
  · have hd : dispatch fmt (fun i j p => act_at fmt i p ns j) .back f ns
        = Menu.back (fun i j p => act_at fmt i p ns j) id
            { f with m_index := f.m_last_pressed_index } ns := by
      simp only [dispatch, hk, Menu_Select.back]
    rw [hd] at h
    exact @menu_back_collapsed fmt { f with m_index := f.m_last_pressed_index } ns rb ha h hc

theorem map_ancestors {d : ℕ} {n m : Node} (h : host_chain d n m) (away : Bool) :
    ((path_fields d n).take d).map (fun a => (recv_shifts a [away]).1)
      = ((path_fields d n).take d).map (fun a => if away then pushed a else restored a) := by
  apply List.map_congr_left
  intro a ha
  obtain ⟨h1, h2⟩ := host_chain_ancestors d n m h a ha
  rw [recv_shifts_one away h1 h2]

theorem path_fields_length {d : ℕ} {n m : Node} (h : host_chain d n m) :
    (path_fields d n).length = d + 1 := by
  induction d generalizing n with
  | zero => rfl
  | succ d ih =>
    obtain ⟨-, -, c, hc, -, hch⟩ := h
    simp only [path_fields, hc, List.length_cons, ih hch]

/-- C14.  Shift choreography.  Let the menu M (of class `Menu`, `Menu_Select`
or `Menu_Bool`) be collapsed, have a parent, and lie `d` levels below the node
`n` on its focus path, below `d` nested active menus of class `Menu`.  Then
`press()` on `n` is defined, returns `true` and opens M (M becomes active with
the targets 0 and 1); when M is shift-enabled it sets
`m_target_x = -m_rect.width` and `m_target_alpha = 0` in every one of the `d`
ancestors and changes nothing else in them, and when M is not shift-enabled
the ancestors are unchanged.  A subsequent `back()` that collapses M is
defined on the whole chain, returns `true`, and sets the targets of every
ancestor to 0 and 1 when M is shift-enabled; otherwise the ancestors stay as
they were.  A call `shift(away)` that reaches a collapsed menu changes nothing
and is not passed on to its parent. -/
theorem shift_choreography (fmt : ℚ → String) (d : ℕ) (n : Node) (mf : Fields)
    (ms : List Node) (hc : host_chain d n (.mk mf ms)) (hk : opens_as_menu mf.kind)
    (ha : mf.m_active = false) (hp : mf.mp_parent = true) :
    (∃ r, Node.press fmt n = some r ∧ r.handled = true ∧
      path_fields d r.node
        = ((path_fields d n).take d).map (fun a => if mf.m_shift then pushed a else a)
          ++ [opened_fields mf] ∧
      ∀ rb, Node.back fmt (.mk (opened_fields mf) ms) = some rb → rb.self.m_active = false →
        ∃ r2, Node.back fmt r.node = some r2 ∧ r2.handled = true ∧
          path_fields d r2.node
            = ((path_fields d n).take d).map (fun a => if mf.m_shift then restored a else a)
              ++ [rb.self] ∧
          rb.self.m_target_x = mf.m_rect.width ∧ rb.self.m_target_alpha = 0) ∧
    (∀ (g : Fields) (away : Bool), g.kind ≠ .Node → g.m_active = false →
      shift g away = (g, [])) := by
  refine ⟨?_, ?_⟩
  · have hlen : ((path_fields d n).take d).length = d := by
      rw [List.length_take, path_fields_length hc]
      omega
    have hko : opens_as_menu (opened_fields mf).kind := hk
    cases hsh : mf.m_shift
    · -- the menu is not shift-enabled: no call of shift is issued
      have hpress : Node.act fmt .press id (.mk mf ms)
          = some ⟨opened_fields mf, ms, true, [], []⟩ := by
        rw [press_opens hk ha, hp, hsh]
        rfl
      obtain ⟨r, hr, hrh, -, -, hrc, hrp⟩ :=
        chain_signal d n (.mk mf ms) _ hc hpress rfl (Or.inl rfl) rfl
      have hrp2 : path_fields d r.node = (path_fields d n).take d ++ [opened_fields mf] := by
        rw [hrp]
        simp only [recv_shifts_nil, List.map_id']
      refine ⟨r, hr, hrh, ?_, ?_⟩
      · rw [hrp2]
        simp only [Bool.false_eq_true, if_false, List.map_id']
      · intro rb hb hcol
        obtain ⟨b1, b2, b3, b4, b5, -⟩ := @back_collapsed fmt (opened_fields mf) ms rb hko rfl
          hb hcol
        have hb2 : rb.shifts = [] := by
          rw [b2]
          show (if mf.m_shift = true then [false] else []) = []
          rw [hsh]
          rfl
        obtain ⟨r2, hr2, hr2h, -, -, -, hr2p⟩ :=
          chain_signal d r.node (.mk (opened_fields mf) ms) rb hrc hb b1 (Or.inl hb2) b5
        refine ⟨r2, hr2, hr2h, ?_, b3, b4⟩
        rw [hr2p, hb2, hrp2, List.take_left' hlen]
        simp only [recv_shifts_nil, List.map_id', Bool.false_eq_true, if_false]
    · -- the menu is shift-enabled: shift(true), later shift(false), reach every ancestor
      have hpress : Node.act fmt .press id (.mk mf ms)
          = some ⟨opened_fields mf, ms, true, [true], []⟩ := by
        rw [press_opens hk ha, hp, hsh]
        rfl
      obtain ⟨r, hr, hrh, -, -, hrc, hrp⟩ :=
        chain_signal d n (.mk mf ms) _ hc hpress rfl (Or.inr ⟨true, rfl⟩) rfl
      have hrp2 : path_fields d r.node
          = ((path_fields d n).take d).map pushed ++ [opened_fields mf] := by
        rw [hrp]
        show ((path_fields d n).take d).map (fun a => (recv_shifts a [true]).1) ++ _ = _
        rw [map_ancestors hc true]
        simp only [if_true]
      refine ⟨r, hr, hrh, ?_, ?_⟩
      · rw [hrp2]
        simp only [if_true]
      · intro rb hb hcol
        obtain ⟨b1, b2, b3, b4, b5, -⟩ := @back_collapsed fmt (opened_fields mf) ms rb hko rfl
          hb hcol
        have hb2 : rb.shifts = [false] := by
          rw [b2]
          show (if mf.m_shift = true then [false] else []) = [false]
          rw [hsh]
          rfl
        obtain ⟨r2, hr2, hr2h, -, -, -, hr2p⟩ :=
          chain_signal d r.node (.mk (opened_fields mf) ms) rb hrc hb b1
            (Or.inr ⟨false, hb2⟩) b5
        refine ⟨r2, hr2, hr2h, ?_, b3, b4⟩
        have hlen2 : (((path_fields d n).take d).map pushed).length = d := by
          rw [List.length_map, hlen]
        rw [hr2p, hb2, map_ancestors hrc false, hrp2, List.take_left' hlen2, List.map_map]
        simp only [Bool.false_eq_true, if_false, if_true]
        rfl
  · intro g away hg hga
    unfold shift
    cases hk2 : g.kind
    · exact absurd hk2 hg
    all_goals
      simp only [Menu.shift, hga, Bool.not_false, if_true]

/-- The chain of the example: the active root `root_ready` above the collapsed,
shift-enabled `shift_inner_owned`. -/
theorem shift_choreography_witness :
    host_chain 1 root_ready (.mk shift_inner_owned.fields shift_inner_owned.m_nodes) ∧
    opens_as_menu shift_inner_owned.fields.kind ∧
    shift_inner_owned.fields.m_active = false ∧ shift_inner_owned.fields.mp_parent = true ∧
    shift_inner_owned.fields.m_shift = true ∧
    ∃ r, Node.press show_num root_ready = some r ∧ r.handled = true ∧
      path_fields 1 r.node
        = ((path_fields 1 root_ready).take 1).map
            (fun a => if shift_inner_owned.fields.m_shift then pushed a else a)
          ++ [opened_fields shift_inner_owned.fields] ∧
      ∀ rb, Node.back show_num
          (.mk (opened_fields shift_inner_owned.fields) shift_inner_owned.m_nodes) = some rb →
        rb.self.m_active = false →
        ∃ r2, Node.back show_num r.node = some r2 ∧ r2.handled = true ∧
          path_fields 1 r2.node
            = ((path_fields 1 root_ready).take 1).map
                (fun a => if shift_inner_owned.fields.m_shift then restored a else a)
              ++ [rb.self] ∧
          rb.self.m_target_x = shift_inner_owned.fields.m_rect.width ∧
          rb.self.m_target_alpha = 0 :=
  ⟨⟨rfl, rfl, shift_inner_owned, rfl, rfl, rfl⟩, Or.inl rfl, rfl, rfl, rfl,
    (shift_choreography show_num 1 root_ready shift_inner_owned.fields
      shift_inner_owned.m_nodes ⟨rfl, rfl, shift_inner_owned, rfl, rfl, rfl⟩ (Or.inl rfl) rfl
      rfl).1⟩

/-- The example of the shift choreography evaluated: `press()` on `root_ready`
gives `root_pushed`, whose targets are `-7` and 0, and `back()` on that sets
the targets of the root to 0 and 1 and collapses the inner menu. -/
theorem shift_example :
    (Node.press show_num root_ready).map Outcome.node = some root_pushed ∧
    (path_fields 1 root_pushed).map (fun a => (a.m_active, a.m_target_x, a.m_target_alpha))
      = [(true, -7, 0), (true, 0, 1)] ∧
    (Node.back show_num root_pushed).map
        (fun r => (path_fields 1 r.node).map
          (fun a => (a.m_active, a.m_target_x, a.m_target_alpha)))
      = some [(true, 0, 1), (false, 5, 0)] :=
  ⟨rfl, rfl, rfl⟩

/-- C13 as stated fails for the targets.  `top_open` is built by `take_node`
and two calls of `press()`; it is an active `Menu` whose focused child is an
active menu.  A further `press()` is consumed by that child, which hands it to
its own collapsed, shift-enabled child; the call returns `true` and leaves the
focus and the active flag of the outer menu alone, but the opening grandchild
calls `shift(true)`, which travels up and moves the targets of the outer
menu from 0 and 1 to `-7` and 0. -/
theorem capture_moves_targets :
    run_calls show_num (fun _ => 0)
        [.take_node (Menu.take_node shift_inner (Menu.new ⟨0, 0, 5, 5⟩ 1 false no_args)),
          .press, .press]
        (Menu.new ⟨0, 0, 7, 7⟩ 1 false no_args) = some top_open ∧
    top_open.fields.kind = .Menu ∧ top_open.fields.m_active = true ∧
    top_open.focused.map (fun c => (c.fields.kind, c.fields.m_active))
      = some (.Menu, true) ∧
    top_open.fields.m_index = 0 ∧
    top_open.fields.m_target_x = 0 ∧ top_open.fields.m_target_alpha = 1 ∧
    (Node.press show_num top_open).map
        (fun r => (r.handled, r.self.m_index, r.self.m_active, r.self.m_target_x,
          r.self.m_target_alpha))
      = some (true, 0, true, -7, 0) ∧
    (-7 : ℚ) ≠ 0 ∧ (0 : ℚ) ≠ 1 :=
  ⟨rfl, rfl, rfl, rfl, rfl, rfl, rfl, rfl, by norm_num, by norm_num⟩

theorem fl_some {rnd : ℚ → ℚ} {big q v : ℚ} (h : fl rnd big q = some v) :
    v = rnd q ∧ |rnd q| ≤ big := by
  unfold fl at h
  split at h
  · rename_i hb
    cases h
    exact ⟨rfl, hb⟩
  · exact absurd h (by simp)

theorem fl_exact {big q : ℚ} (h : |q| ≤ big) : fl id big q = some q := by
  unfold fl
  simp only [id, h, if_true]

theorem round_f32_integer {rnd : ℚ → ℚ} {big number k : ℚ}
    (h : round_f32 rnd big number = some k) : ∃ z : ℤ, k = (z : ℚ) := by
  unfold round_f32 at h
  split at h
  · split at h
    · exact absurd h (by simp)
    · cases h; exact ⟨_, rfl⟩
  · split at h
    · exact absurd h (by simp)
    · cases h; exact ⟨_, rfl⟩

/-- The value `round_to_nearest` returns in binary32 arithmetic is the rounded
product of an integer and the factor. -/
theorem round_to_nearest_f32_grid {rnd : ℚ → ℚ} {big x factor v : ℚ}
    (h : round_to_nearest_f32 rnd big x factor = some v) :
    factor ≠ 0 ∧ |v| ≤ big ∧ ∃ z : ℤ, v = rnd ((z : ℚ) * factor) := by
  unfold round_to_nearest_f32 at h
  split at h
  · exact absurd h (by simp)
  · rename_i hf
    split at h
    · exact absurd h (by simp)
    · split at h
      · exact absurd h (by simp)
      · rename_i k hk
        obtain ⟨z, rfl⟩ := round_f32_integer hk
        obtain ⟨hv, hb⟩ := fl_some h
        exact ⟨hf, by rw [hv]; exact hb, z, hv⟩

theorem up_f32_grid {rnd : ℚ → ℚ} {big : ℚ} {fmt : ℚ → String} {f : Fields}
    {ns : List Node} {r : Outcome} (ha : f.m_active = true)
    (h : Menu_Number.up_f32 rnd big fmt f ns = some r) :
    r.handled = true ∧ f.m_interval ≠ 0 ∧ |r.self.m_num| ≤ big ∧
      ∃ z : ℤ, r.self.m_num = rnd ((z : ℚ) * f.m_interval) := by
  unfold Menu_Number.up_f32 at h
  rw [if_pos ha] at h
  split at h
  · exact absurd h (by simp)
  · dsimp only at h
    split at h
    · exact absurd h (by simp)
    · rename_i n3 hn3
      split at h
      · exact absurd h (by simp)
      · cases h
        obtain ⟨h1, h2, h3⟩ := round_to_nearest_f32_grid hn3
        exact ⟨rfl, h1, h2, h3⟩

theorem down_f32_grid {rnd : ℚ → ℚ} {big : ℚ} {fmt : ℚ → String} {f : Fields}
    {ns : List Node} {r : Outcome} (ha : f.m_active = true)
    (h : Menu_Number.down_f32 rnd big fmt f ns = some r) :
    r.handled = true ∧ f.m_interval ≠ 0 ∧ |r.self.m_num| ≤ big ∧
      ∃ z : ℤ, r.self.m_num = rnd ((z : ℚ) * f.m_interval) := by
  unfold Menu_Number.down_f32 at h
  rw [if_pos ha] at h
  split at h
  · exact absurd h (by simp)
  · dsimp only at h
    split at h
    · exact absurd h (by simp)
    · rename_i n3 hn3
      split at h
      · exact absurd h (by simp)
      · cases h
        obtain ⟨h1, h2, h3⟩ := round_to_nearest_f32_grid hn3
        exact ⟨rfl, h1, h2, h3⟩

theorem round_f32_exact {big number : ℚ} {k : ℚ} (h : round_f32 id big number = some k) :
    k = round number := by
  unfold round_f32 at h
  unfold round
  split at h
  · rename_i hn
    split at h
    · exact absurd h (by simp)
    · rename_i y hy
      cases h
      rw [(fl_some hy).1, if_pos hn]
      rfl
  · rename_i hn
    split at h
    · exact absurd h (by simp)
    · rename_i y hy
      cases h
      rw [(fl_some hy).1, if_neg hn]
      rfl

theorem round_to_nearest_f32_exact {big x factor v : ℚ}
    (h : round_to_nearest_f32 id big x factor = some v) : v = round_to_nearest x factor := by
  unfold round_to_nearest_f32 at h
  unfold round_to_nearest
  split at h
  · exact absurd h (by simp)
  · split at h
    · exact absurd h (by simp)
    · rename_i q hq
      split at h
      · exact absurd h (by simp)
      · rename_i k hk
        rw [(fl_some h).1, round_f32_exact hk, (fl_some hq).1]
        rfl

/-- With exact rounding the binary32 version of `Menu_Number::up` is the
function `Menu_Number.up` of the exact model. -/
theorem up_f32_exact {big : ℚ} {fmt : ℚ → String} {f : Fields} {ns : List Node}
    {r : Outcome} (h : Menu_Number.up_f32 id big fmt f ns = some r) :
    Menu_Number.up fmt f ns = some r := by
  unfold Menu_Number.up_f32 at h
  unfold Menu_Number.up
  split at h
  · rename_i ha
    rw [if_pos ha]
    split at h
    · exact absurd h (by simp)
    · rename_i n1 hn1
      dsimp only at h ⊢
      split at h
      · exact absurd h (by simp)
      · rename_i n3 hn3
        have e1 : n1 = f.m_num + f.m_interval := (fl_some hn1).1
        have e3 := round_to_nearest_f32_exact hn3
        rw [e1] at e3
        have e : Menu_Number.up_value f.m_num f.m_max f.m_interval = n3 := by
          rw [e3]; rfl
        rw [e]
        exact h
  · rename_i ha
    rw [if_neg ha]
    exact h

/-- C9 (amended).  Numeric grid invariant in binary32 arithmetic: the grid is
measured from zero, not from `min`, and the grid point is rounded.  For every
rounding `rnd` and every bound `big`: when `up()` or `down()` on an active
numeric menu returns (no operation overflows, the step is not zero and the
focus is in range), it returns `true`, and the new value is finite and equals
`rnd (z * m_interval)` for an integer `z`, the binary32 value of an integer
multiple of the step.  It is an exact multiple only when that product is
itself a binary32 value. -/
theorem number_value_on_float_grid (rnd : ℚ → ℚ) (big : ℚ) (fmt : ℚ → String) (f : Fields)
    (ns : List Node) (r : Outcome) (ha : f.m_active = true)
    (h : Menu_Number.up_f32 rnd big fmt f ns = some r ∨
      Menu_Number.down_f32 rnd big fmt f ns = some r) :
    r.handled = true ∧ f.m_interval ≠ 0 ∧ |r.self.m_num| ≤ big ∧
      ∃ z : ℤ, r.self.m_num = rnd ((z : ℚ) * f.m_interval) := by
  rcases h with h | h
  · exact up_f32_grid ha h
  · exact down_f32_grid ha h

theorem up_f32_at_4 :
    Menu_Number.up_f32 id 1000 show_num number_4_owned.fields number_4_owned.m_nodes
      = some number_6_owned := by
  have ha : number_4_owned.fields.m_active = true := rfl
  have hn : number_4_owned.fields.m_num = 4 := rfl
  have hi : number_4_owned.fields.m_interval = 2 := rfl
  have hm : number_4_owned.fields.m_max = 10 := rfl
  have h1 : fl id 1000 (4 + 2) = some 6 := by
    rw [show (4 + 2 : ℚ) = 6 by norm_num]
    exact fl_exact (by norm_num [abs_le])
  have a1 : fl id 1000 (6 / 2) = some 3 := by
    rw [show (6 / 2 : ℚ) = 3 by norm_num]
    exact fl_exact (by norm_num [abs_le])
  have a2 : fl id 1000 (3 + 1 / 2) = some (7 / 2) := by
    rw [show (3 + 1 / 2 : ℚ) = 7 / 2 by norm_num]
    exact fl_exact (by norm_num [abs_le])
  have a3 : ((⌊(7 / 2 : ℚ)⌋ : ℤ) : ℚ) = 3 := by
    have : ⌊(7 / 2 : ℚ)⌋ = 3 := by
      rw [Int.floor_eq_iff]; norm_num
    rw [this]; norm_num
  have a4 : fl id 1000 (3 * 2) = some 6 := by
    rw [show (3 * 2 : ℚ) = 6 by norm_num]
    exact fl_exact (by norm_num [abs_le])
  have h2 : round_to_nearest_f32 id 1000 6 2 = some 6 := by
    unfold round_to_nearest_f32 round_f32
    rw [if_neg (by norm_num), a1]
    simp only [if_neg (show ¬ (3 : ℚ) < 0 by norm_num), a2, a3, a4]
  unfold Menu_Number.up_f32
  rw [if_pos ha, hn, hi, hm, h1]
  have h3 : (if (6 : ℚ) > 10 then (10 : ℚ) else 6) = 6 := by norm_num
  simp only [h3, h2]
  rfl

theorem rnd_zero {rnd : ℚ → ℚ} (hodd : ∀ a, rnd (-a) = -rnd a) : rnd 0 = 0 := by
  have h := hodd 0
  rw [neg_zero] at h
  linarith

/-- The rounded increment of the lag filter for a distance `b - a ≥ 0`: every
intermediate result is non-negative and in range, and the increment does not
exceed the distance. -/
theorem increment_bounds {rnd : ℚ → ℚ} {big dt a b : ℚ} (hr : rounds_like_binary32 rnd big)
    (h0 : 0 < dt) (h1 : dt ≤ 1 / 16) (ha : rnd a = a) (hb : rnd b = b) (hab : a ≤ b)
    (hbig : 13 * (b - a) ≤ big) :
    0 ≤ rnd (b - a) ∧ rnd (b - a) ≤ big ∧
    0 ≤ rnd (rnd (b - a) * 10) ∧ rnd (rnd (b - a) * 10) ≤ big ∧
    0 ≤ rnd (rnd (rnd (b - a) * 10) * dt) ∧
    rnd (rnd (rnd (b - a) * 10) * dt) ≤ b - a := by
  obtain ⟨hmono, hidem, hodd, -, hdiff, hten⟩ := hr
  have hz : rnd 0 = 0 := rnd_zero hodd
  rcases eq_or_lt_of_le hab with hab | hab
  · have e : b - a = 0 := by rw [hab]; ring
    have hbig0 : (0 : ℚ) ≤ big := by rw [e] at hbig; linarith
    rw [e, hz]
    simp only [zero_mul, hz]
    exact ⟨le_refl _, hbig0, le_refl _, hbig0, le_refl _, le_refl _⟩
  · have hpos : 0 < b - a := by linarith
    obtain ⟨r, hr1, hr2, hr3⟩ := hdiff a b ha hb hab (by linarith)
    have hd0 : 0 ≤ rnd (b - a) := by
      have := hmono 0 (b - a) hpos.le
      rwa [hz] at this
    have hrpos : 0 ≤ r := by linarith
    have hd1 : rnd (b - a) ≤ 9 / 8 * (b - a) := by linarith
    have hdd : rnd (rnd (b - a)) = rnd (b - a) := hidem _
    have he0 : 0 ≤ rnd (rnd (b - a) * 10) := by
      have := hmono 0 (rnd (b - a) * 10) (by linarith)
      rwa [hz] at this
    have he1 : rnd (rnd (b - a) * 10) ≤ 9 / 8 * (10 * rnd (b - a)) := by
      have := hten (rnd (b - a)) hdd hd0 (by linarith)
      rwa [mul_comm 10 (rnd (b - a))] at this ⊢
    have hg0 : 0 ≤ rnd (rnd (rnd (b - a) * 10) * dt) := by
      have := hmono 0 (rnd (rnd (b - a) * 10) * dt) (mul_nonneg he0 h0.le)
      rwa [hz] at this
    have hle : rnd (rnd (b - a) * 10) * dt ≤ r := by
      have h2 : rnd (rnd (b - a) * 10) ≤ 9 / 8 * (10 * (9 / 8 * r)) := by linarith
      have h3 : rnd (rnd (b - a) * 10) * dt ≤ 9 / 8 * (10 * (9 / 8 * r)) * (1 / 16) :=
        mul_le_mul h2 h1 h0.le (by linarith)
      linarith
    have hg1 : rnd (rnd (rnd (b - a) * 10) * dt) ≤ r := by
      have := hmono _ _ hle
      rwa [hr1] at this
    exact ⟨hd0, by linarith, he0, by linarith, hg0, by linarith⟩

theorem fl_in_range {rnd : ℚ → ℚ} {big q : ℚ} (h : |rnd q| ≤ big) :
    fl rnd big q = some (rnd q) := by
  unfold fl
  rw [if_pos h]

/-- The lag filter returns the rounded expression when no operation
overflows. -/
theorem lag_f32_eval {rnd : ℚ → ℚ} {big v t dt : ℚ} (hz : rnd 0 = 0)
    (hc : rnd (1 / rnd (1 / 10)) = 10)
    (hb : 10 ≤ big) (h1 : |rnd (t - v)| ≤ big) (h2 : |rnd (rnd (t - v) * 10)| ≤ big)
    (h3 : |rnd (rnd (rnd (t - v) * 10) * dt)| ≤ big)
    (h4 : |rnd (v + rnd (rnd (rnd (t - v) * 10) * dt))| ≤ big) :
    Menu.lag_f32 rnd big v t dt = some (rnd (v + rnd (rnd (rnd (t - v) * 10) * dt))) := by
  have hne : rnd (1 / 10) ≠ 0 := by
    intro h0
    rw [h0, div_zero, hz] at hc
    norm_num at hc
  have hten : fl rnd big (1 / rnd (1 / 10)) = some 10 := by
    rw [fl_in_range (by rw [hc, abs_of_pos (by norm_num : (0 : ℚ) < 10)]; exact hb), hc]
  unfold Menu.lag_f32
  rw [if_neg hne, fl_in_range h1, hten]
  simp only [fl_in_range h2, fl_in_range h3, fl_in_range h4]

theorem abs_le_of_between {x lo hi big : ℚ} (h1 : lo ≤ x) (h2 : x ≤ hi) (hlo : |lo| ≤ big)
    (hhi : |hi| ≤ big) : |x| ≤ big := by
  rw [abs_le] at hlo hhi ⊢
  constructor <;> linarith

/-- One step of the lag filter in binary32 arithmetic with a tick of at most
`1/16`: the result lies between the old value and the target. -/
theorem lag_f32_step {rnd : ℚ → ℚ} {big dt v t : ℚ} (hr : rounds_like_binary32 rnd big)
    (hb : 10 ≤ big) (h0 : 0 < dt) (h1 : dt ≤ 1 / 16) (hv : in_float_range rnd big v t) :
    ∃ w, Menu.lag_f32 rnd big v t dt = some w ∧
      w = rnd (v + rnd (rnd (rnd (t - v) * 10) * dt)) ∧
      in_float_range rnd big w t ∧ |w - t| ≤ |v - t| ∧ 0 ≤ (w - t) * (v - t) := by
  obtain ⟨hfv, hft, hbv, hbt, hbd⟩ := hv
  have hmono := hr.1
  have hidem := hr.2.1
  have hodd := hr.2.2.1
  have hc := hr.2.2.2.1
  have hz : rnd 0 = 0 := rnd_zero hodd
  have hbig0 : 0 ≤ big := by linarith
  rcases le_or_lt v t with hvt | hvt
  · -- the value is below the target
    have habs : |t - v| = t - v := abs_of_nonneg (by linarith)
    rw [habs] at hbd
    obtain ⟨d0, d1, e0, e1, g0, g1⟩ := increment_bounds hr h0 h1 hfv hft hvt hbd
    have hlo : v ≤ rnd (v + rnd (rnd (rnd (t - v) * 10) * dt)) := by
      have := hmono v (v + rnd (rnd (rnd (t - v) * 10) * dt)) (by linarith)
      rwa [hfv] at this
    have hhi : rnd (v + rnd (rnd (rnd (t - v) * 10) * dt)) ≤ t := by
      have := hmono (v + rnd (rnd (rnd (t - v) * 10) * dt)) t (by linarith)
      rwa [hft] at this
    have hw : |rnd (v + rnd (rnd (rnd (t - v) * 10) * dt))| ≤ big :=
      abs_le_of_between hlo hhi hbv hbt
    refine ⟨_, lag_f32_eval hz hc hb (by rw [abs_of_nonneg d0]; exact d1)
      (by rw [abs_of_nonneg e0]; exact e1) (by rw [abs_of_nonneg g0]; linarith) hw, rfl,
      ⟨hidem _, hft, hw, hbt, ?_⟩, ?_, ?_⟩
    · rw [abs_of_nonneg (by linarith)]
      linarith
    · rw [abs_of_nonpos (by linarith), abs_of_nonpos (by linarith)]
      linarith
    · exact mul_nonneg_of_nonpos_of_nonpos (by linarith) (by linarith)
  · -- the value is above the target: the mirror image, by oddness of the rounding
    have habs : |t - v| = v - t := by
      rw [abs_of_nonpos (by linarith)]; ring
    rw [habs] at hbd
    obtain ⟨d0, d1, e0, e1, g0, g1⟩ := increment_bounds hr h0 h1 hft hfv hvt.le hbd
    have s1 : rnd (t - v) = -rnd (v - t) := by
      rw [show t - v = -(v - t) by ring, hodd]
    have s2 : rnd (rnd (t - v) * 10) = -rnd (rnd (v - t) * 10) := by
      rw [s1, show -rnd (v - t) * 10 = -(rnd (v - t) * 10) by ring, hodd]
    have s3 : rnd (rnd (rnd (t - v) * 10) * dt) = -rnd (rnd (rnd (v - t) * 10) * dt) := by
      rw [s2, show -rnd (rnd (v - t) * 10) * dt = -(rnd (rnd (v - t) * 10) * dt) by ring,
        hodd]
    have hhi : rnd (v + rnd (rnd (rnd (t - v) * 10) * dt)) ≤ v := by
      have := hmono (v + rnd (rnd (rnd (t - v) * 10) * dt)) v (by rw [s3]; linarith)
      rwa [hfv] at this
    have hlo : t ≤ rnd (v + rnd (rnd (rnd (t - v) * 10) * dt)) := by
      have := hmono t (v + rnd (rnd (rnd (t - v) * 10) * dt)) (by rw [s3]; linarith)
      rwa [hft] at this
    have hw : |rnd (v + rnd (rnd (rnd (t - v) * 10) * dt))| ≤ big :=
      abs_le_of_between hlo hhi hbt hbv
    refine ⟨_, lag_f32_eval hz hc hb (by rw [s1, abs_neg, abs_of_nonneg d0]; exact d1)
      (by rw [s2, abs_neg, abs_of_nonneg e0]; exact e1)
      (by rw [s3, abs_neg, abs_of_nonneg g0]; linarith) hw, rfl,
      ⟨hidem _, hft, hw, hbt, ?_⟩, ?_, ?_⟩
    · rw [abs_of_nonpos (by linarith)]
      linarith
    · rw [abs_of_nonneg (by linarith), abs_of_nonneg (by linarith)]
      linarith
    · exact mul_nonneg (by linarith) (by linarith)

theorem same_side_trans {a b c : ℚ} (h1 : 0 ≤ a * b) (h2 : 0 ≤ b * c) (h3 : |a| ≤ |b|) :
    0 ≤ a * c := by
  rcases lt_trichotomy b 0 with hb | hb | hb
  · have ha : a ≤ 0 := by
      by_contra h
      push_neg at h
      have := mul_neg_of_pos_of_neg h hb
      linarith
    have hc : c ≤ 0 := by
      by_contra h
      push_neg at h
      have := mul_neg_of_neg_of_pos hb h
      linarith
    exact mul_nonneg_of_nonpos_of_nonpos ha hc
  · rw [hb, abs_zero] at h3
    have ha : a = 0 := abs_eq_zero.1 (le_antisymm h3 (abs_nonneg a))
    rw [ha, zero_mul]
  · have ha : 0 ≤ a := by
      by_contra h
      push_neg at h
      have := mul_neg_of_neg_of_pos h hb
      linarith
    have hc : 0 ≤ c := by
      by_contra h
      push_neg at h
      have := mul_neg_of_pos_of_neg hb h
      linarith
    exact mul_nonneg ha hc

/-- One call of `Menu::update` in binary32 arithmetic with a tick of at most
`1/16`. -/
theorem update_f32_step {rnd : ℚ → ℚ} {big dt : ℚ} {f : Fields}
    (hr : rounds_like_binary32 rnd big) (hb : 10 ≤ big) (h0 : 0 < dt) (h1 : dt ≤ 1 / 16)
    (hx : in_float_range rnd big f.m_x f.m_target_x)
    (ha : in_float_range rnd big f.m_alpha f.m_target_alpha) :
    ∃ g, Menu.update_f32 rnd big dt f = some g ∧
      g.m_target_x = f.m_target_x ∧ g.m_target_alpha = f.m_target_alpha ∧
      g.m_x = rnd (f.m_x + rnd (rnd (rnd (f.m_target_x - f.m_x) * 10) * dt)) ∧
      g.m_alpha
        = rnd (f.m_alpha + rnd (rnd (rnd (f.m_target_alpha - f.m_alpha) * 10) * dt)) ∧
      in_float_range rnd big g.m_x g.m_target_x ∧
      in_float_range rnd big g.m_alpha g.m_target_alpha ∧
      |g.m_x - f.m_target_x| ≤ |f.m_x - f.m_target_x| ∧
      0 ≤ (g.m_x - f.m_target_x) * (f.m_x - f.m_target_x) ∧
      |g.m_alpha - f.m_target_alpha| ≤ |f.m_alpha - f.m_target_alpha| ∧
      0 ≤ (g.m_alpha - f.m_target_alpha) * (f.m_alpha - f.m_target_alpha) := by
  obtain ⟨x, hx1, hx2, hx3, hx4, hx5⟩ := lag_f32_step hr hb h0 h1 hx
  obtain ⟨a, ha1, ha2, ha3, ha4, ha5⟩ := lag_f32_step hr hb h0 h1 ha
  refine ⟨{ f with m_x := x, m_alpha := a }, ?_, rfl, rfl, hx2, ha2, hx3, ha3, hx4, hx5, ha4,
    ha5⟩
  unfold Menu.update_f32
  rw [hx1, ha1]

theorem update_f32_times_bounds {rnd : ℚ → ℚ} {big dt : ℚ}
    (hr : rounds_like_binary32 rnd big) (hb : 10 ≤ big) (h0 : 0 < dt) (h1 : dt ≤ 1 / 16)
    (k : ℕ) : ∀ f : Fields, in_float_range rnd big f.m_x f.m_target_x →
      in_float_range rnd big f.m_alpha f.m_target_alpha →
      ∃ g, Menu.update_f32_times rnd big dt k f = some g ∧
        g.m_target_x = f.m_target_x ∧ g.m_target_alpha = f.m_target_alpha ∧
        in_float_range rnd big g.m_x g.m_target_x ∧
        in_float_range rnd big g.m_alpha g.m_target_alpha ∧
        |g.m_x - f.m_target_x| ≤ |f.m_x - f.m_target_x| ∧
        0 ≤ (g.m_x - f.m_target_x) * (f.m_x - f.m_target_x) ∧
        |g.m_alpha - f.m_target_alpha| ≤ |f.m_alpha - f.m_target_alpha| ∧
        0 ≤ (g.m_alpha - f.m_target_alpha) * (f.m_alpha - f.m_target_alpha) := by
  induction k with
  | zero =>
    intro f hx ha
    exact ⟨f, rfl, rfl, rfl, hx, ha, le_refl _, mul_self_nonneg _, le_refl _,
      mul_self_nonneg _⟩
  | succ k ih =>
    intro f hx ha
    obtain ⟨f1, e1, t1, t2, -, -, hx1, ha1, b1, b2, b3, b4⟩ := update_f32_step hr hb h0 h1 hx ha
    obtain ⟨g, e2, u1, u2, hxg, hag, c1, c2, c3, c4⟩ := ih f1 hx1 ha1
    rw [t1] at c1 c2
    rw [t2] at c3 c4
    refine ⟨g, ?_, u1.trans t1, u2.trans t2, hxg, hag, le_trans c1 b1,
      same_side_trans c2 b2 c1, le_trans c3 b3, same_side_trans c4 b4 c3⟩
    simp only [Menu.update_f32_times, e1, e2]

/-- C15 (amended).  Animation convergence without overshoot in binary32
arithmetic, for ticks of at most `1/16`.  Let `rnd` round like binary32, let
`0 < delta_time ≤ 1/16`, and let the offset, the alpha and their targets be
binary32 values for which no operation overflows (`in_float_range`).  Then `k`
calls of `update(delta_time)` are defined, leave the targets alone and leave
the offset and the alpha no farther from their targets than at the start and
not on the opposite side; one more call is defined and yields
`rnd (x + rnd (rnd (rnd (x_target - x) * 10) * delta_time))`, which is not
farther from the target than `x` and not on the opposite side of it (likewise
for alpha). -/
theorem update_f32_no_overshoot (rnd : ℚ → ℚ) (big dt : ℚ) (k : ℕ) (f : Fields)
    (hr : rounds_like_binary32 rnd big) (hb : 10 ≤ big) (h0 : 0 < dt) (h1 : dt ≤ 1 / 16)
    (hx : in_float_range rnd big f.m_x f.m_target_x)
    (ha : in_float_range rnd big f.m_alpha f.m_target_alpha) :
    ∃ g g1, Menu.update_f32_times rnd big dt k f = some g ∧
      g.m_target_x = f.m_target_x ∧ g.m_target_alpha = f.m_target_alpha ∧
      |g.m_x - f.m_target_x| ≤ |f.m_x - f.m_target_x| ∧
      0 ≤ (g.m_x - f.m_target_x) * (f.m_x - f.m_target_x) ∧
      |g.m_alpha - f.m_target_alpha| ≤ |f.m_alpha - f.m_target_alpha| ∧
      0 ≤ (g.m_alpha - f.m_target_alpha) * (f.m_alpha - f.m_target_alpha) ∧
      Menu.update_f32 rnd big dt g = some g1 ∧
      g1.m_target_x = g.m_target_x ∧ g1.m_target_alpha = g.m_target_alpha ∧
      g1.m_x = rnd (g.m_x + rnd (rnd (rnd (g.m_target_x - g.m_x) * 10) * dt)) ∧
      g1.m_alpha
        = rnd (g.m_alpha + rnd (rnd (rnd (g.m_target_alpha - g.m_alpha) * 10) * dt)) ∧
      |g1.m_x - g.m_target_x| ≤ |g.m_x - g.m_target_x| ∧
      0 ≤ (g1.m_x - g.m_target_x) * (g.m_x - g.m_target_x) ∧
      |g1.m_alpha - g.m_target_alpha| ≤ |g.m_alpha - g.m_target_alpha| ∧
      0 ≤ (g1.m_alpha - g.m_target_alpha) * (g.m_alpha - g.m_target_alpha) := by
  obtain ⟨g, e, t1, t2, hxg, hag, c1, c2, c3, c4⟩ :=
    update_f32_times_bounds hr hb h0 h1 k f hx ha
  obtain ⟨g1, e1, u1, u2, v1, v2, -, -, b1, b2, b3, b4⟩ := update_f32_step hr hb h0 h1 hxg hag
  exact ⟨g, g1, e, t1, t2, c1, c2, c3, c4, e1, u1, u2, v1, v2, b1, b2, b3, b4⟩

/-- Exact arithmetic has the properties of `rounds_like_binary32`. -/
theorem exact_rounds (big : ℚ) : rounds_like_binary32 id big := by
  refine ⟨fun a b h => h, fun a => rfl, fun a => rfl, ?_, ?_, ?_⟩
  · simp only [id]; norm_num
  · intro a b _ _ hab _
    exact ⟨b - a, rfl, le_refl _, by simp only [id]; linarith⟩
  · intro d _ hd _
    simp only [id]; linarith

/-- With exact rounding and no overflow the binary32 version of the lag filter
is the expression of `Menu.update_self`. -/
theorem lag_f32_exact {big v t dt w : ℚ} (h : Menu.lag_f32 id big v t dt = some w) :
    w = v + (t - v) * (1 / (1 / 10)) * dt := by
  unfold Menu.lag_f32 at h
  split at h
  · exact absurd h (by simp)
  · split at h
    · rename_i d c hd hc
      split at h
      · exact absurd h (by simp)
      · rename_i e he
        split at h
        · exact absurd h (by simp)
        · rename_i g hg
          rw [(fl_some h).1, (fl_some hg).1, (fl_some he).1, (fl_some hd).1, (fl_some hc).1]
          rfl
    · exact absurd h (by simp)

/-- With exact rounding and no overflow the binary32 version of the two
assignments of `Menu::update` is `Menu.update_self`. -/
theorem update_f32_exact {big dt : ℚ} {f g : Fields}
    (h : Menu.update_f32 id big dt f = some g) : g = Menu.update_self dt f := by
  unfold Menu.update_f32 at h
  split at h
  · rename_i x a hx ha
    cases h
    rw [lag_f32_exact hx, lag_f32_exact ha]
    rfl
  · exact absurd h (by simp)

theorem submenu_open_in_range :
    in_float_range id 100 submenu_open.fields.m_x submenu_open.fields.m_target_x ∧
    in_float_range id 100 submenu_open.fields.m_alpha submenu_open.fields.m_target_alpha := by
  constructor
  · show in_float_range id 100 5 0
    refine ⟨rfl, rfl, ?_, ?_, ?_⟩ <;> norm_num [abs_le]
  · show in_float_range id 100 0 1
    refine ⟨rfl, rfl, ?_, ?_, ?_⟩ <;> norm_num [abs_le]

/-- Three ticks of `1/16` at `submenu_open` (offset 5, target 0, alpha 0,
target alpha 1) and a fourth one, with exact rounding and `big = 100`. -/
theorem update_f32_no_overshoot_witness :
    rounds_like_binary32 id 100 ∧ (10 : ℚ) ≤ 100 ∧ (0 : ℚ) < 1 / 16 ∧ (1 / 16 : ℚ) ≤ 1 / 16 ∧
    in_float_range id 100 submenu_open.fields.m_x submenu_open.fields.m_target_x ∧
    in_float_range id 100 submenu_open.fields.m_alpha submenu_open.fields.m_target_alpha ∧
    ∃ g g1, Menu.update_f32_times id 100 (1 / 16) 3 submenu_open.fields = some g ∧
      Menu.update_f32 id 100 (1 / 16) g = some g1 ∧
      |g1.m_x - g.m_target_x| ≤ |g.m_x - g.m_target_x| ∧
      0 ≤ (g1.m_x - g.m_target_x) * (g.m_x - g.m_target_x) ∧
      |g1.m_alpha - g.m_target_alpha| ≤ |g.m_alpha - g.m_target_alpha| ∧
      0 ≤ (g1.m_alpha - g.m_target_alpha) * (g.m_alpha - g.m_target_alpha) :=
  ⟨exact_rounds 100, by norm_num, by norm_num, le_refl _, submenu_open_in_range.1,
    submenu_open_in_range.2,
    (update_f32_no_overshoot id 100 (1 / 16) 3 submenu_open.fields (exact_rounds 100)
      (by norm_num) (by norm_num) (le_refl _) submenu_open_in_range.1
      submenu_open_in_range.2).imp fun _ h => h.imp fun _ h =>
        ⟨h.1, h.2.2.2.2.2.2.2.1, h.2.2.2.2.2.2.2.2.2.2.2.2.1, h.2.2.2.2.2.2.2.2.2.2.2.2.2.1,
          h.2.2.2.2.2.2.2.2.2.2.2.2.2.2.1, h.2.2.2.2.2.2.2.2.2.2.2.2.2.2.2⟩⟩

/-- The grid of C9 at `number_4_owned` (value 4, step 2), with exact rounding
and `big = 1000`: `up()` gives 6. -/
theorem number_value_on_float_grid_witness :
    number_4_owned.fields.m_active = true ∧
    Menu_Number.up_f32 id 1000 show_num number_4_owned.fields number_4_owned.m_nodes
      = some number_6_owned ∧
    number_6_owned.handled = true ∧ number_4_owned.fields.m_interval ≠ 0 ∧
    |number_6_owned.self.m_num| ≤ 1000 ∧
    ∃ z : ℤ, number_6_owned.self.m_num = id ((z : ℚ) * number_4_owned.fields.m_interval) :=
  ⟨rfl, up_f32_at_4,
    number_value_on_float_grid id 1000 show_num number_4_owned.fields number_4_owned.m_nodes
      number_6_owned rfl (Or.inl up_f32_at_4)⟩

end km
